import Mathlib

/-!
Soft-decision demodulation (`src/modem/src/modem_demodulate_soft.c`)

A shallow embedding of the five functions of `modem_demodulate_soft.c`
and theorems about them.

Conventions of the embedding.

* A `float` is a rational number: the values of binary32 are rational, and
  every `float` operation of the source is the exact operation on `ℚ`
  followed by `f32_round`, the rounding to the nearest binary32 value with
  ties to even (the arithmetic of a C implementation that evaluates `float`
  expressions in `float`, without fused operations).  A result beyond the
  largest finite binary32 value is `±2^128`, which stands for `±∞`; NaN is
  outside the model (for a finite sample and finite constellation points no
  operation whose result the source uses yields one, and on the values that
  occur there the operations on `±2^128` give what they give on `±∞`).  The
  literal `0.2f` is `f32_round (2/10)`.
* The expressions of lines 247, 263 and 264 are of type `double`; they are
  exact on `ℚ` (the literal `1.4142` is `14142/10000`), and `tanhf` is a
  parameter.
* Conversion of a floating value to an integer type discards the fractional
  part (`ftoi`), as C does.  The conversion to `int` of lines 163 and 224
  (`ftoi_int`) is undefined in C for a value outside the range of `int`; the
  embedding then takes `-2^31`, the value the x86 conversion instruction
  returns.  The cast to `unsigned char` is reduction modulo `2^8`.
* `unsigned int` values are natural numbers (the source never relies on
  wrap-around).
* The functions the source calls but does not define (`tanhf`, the hard
  demodulators, the modulators) are the fields of `Lib`.
* An array read `a[i]` is `List.getD`; a read outside the array, which is
  undefined in C, yields zero.
* A function of the source that writes `*_s`, `_soft_bits[0..]` and the
  object behind `_demod` returns a `SoftResult`: the object after the call,
  the symbol written to `*_s`, and the list of the values written to
  `_soft_bits[0]`, `_soft_bits[1]`, ... in index order.
-/

namespace Liquid

/-! ## Numbers -/

/-- Value of type `float complex`: real and imaginary part. -/
structure Cplx where
  re : ℚ
  im : ℚ
deriving DecidableEq

instance : Inhabited Cplx := ⟨⟨0, 0⟩⟩

/-- Real part, `crealf` of the C library. -/
def crealf (z : Cplx) : ℚ := z.re

/-- Imaginary part, `cimagf` of the C library. -/
def cimagf (z : Cplx) : ℚ := z.im

/-- Complex conjugate, `conjf` of the C library. -/
def conjf (z : Cplx) : Cplx := ⟨z.re, -z.im⟩

/-- Conversion of a floating value to an integer type: the fractional part is
discarded (truncation toward zero). -/
def ftoi (q : ℚ) : ℤ := if 0 ≤ q then ⌊q⌋ else ⌈q⌉

/-- Conversion of an integer to `unsigned char`: reduction modulo `2^8`. -/
def to_uchar (n : ℤ) : Nat := (n % 256).toNat

/-! ## Single-precision arithmetic -/

/-- Rounding of a rational to the nearest integer, a tie going to the even
one. -/
def round_even (x : ℚ) : ℤ :=
  if x - ⌊x⌋ < 1 / 2 then ⌊x⌋
  else if 1 / 2 < x - ⌊x⌋ then ⌊x⌋ + 1
  else if ⌊x⌋ % 2 = 0 then ⌊x⌋ else ⌊x⌋ + 1

/-- The binary exponent of the binary32 grid at `q`: `⌊log2 |q|⌋` kept within
`[-126, 127]` (below `2^-126` the grid is that of the subnormal numbers). -/
def f32_exponent (q : ℚ) : ℤ := max (-126) (min 127 (Int.log 2 |q|))

/-- Rounding of a rational to binary32, to nearest with ties to even: the
grid at `q` has the step `2^(e-23)` for the exponent `e` of `q`; a result of
magnitude `2^128` stands for an infinity. -/
def f32_round (q : ℚ) : ℚ :=
  max (-(2 ^ 128)) (min (2 ^ 128)
    ((round_even (q / 2 ^ (f32_exponent q - 23)) : ℚ) * 2 ^ (f32_exponent q - 23)))

/-- The `float` sum. -/
def f32_add (a b : ℚ) : ℚ := f32_round (a + b)

/-- The `float` difference. -/
def f32_sub (a b : ℚ) : ℚ := f32_round (a - b)

/-- The `float` product. -/
def f32_mul (a b : ℚ) : ℚ := f32_round (a * b)

/-- The `float` quotient. -/
def f32_div (a b : ℚ) : ℚ := f32_round (a / b)

/-- The difference of two `float complex` values. -/
def cf32_sub (a b : Cplx) : Cplx := ⟨f32_sub a.re b.re, f32_sub a.im b.im⟩

/-- The product of two `float complex` values: each of the four products and
the two combinations is a `float` operation. -/
def cf32_mul (a b : Cplx) : Cplx :=
  ⟨f32_sub (f32_mul a.re b.re) (f32_mul a.im b.im),
   f32_add (f32_mul a.re b.im) (f32_mul a.im b.re)⟩

/-- Conversion of a `float` to `int` (lines 163 and 224): the fractional part
is discarded; outside the range of `int`, where C leaves the conversion
undefined, the value is `-2^31`. -/
def ftoi_int (q : ℚ) : ℤ :=
  if -(2 ^ 31) ≤ ftoi q ∧ ftoi q < 2 ^ 31 then ftoi q else -(2 ^ 31)

/-- Squared distance as the source computes it at lines 124, 146 and 204:
`crealf( (_r-x_hat)*conjf(_r-x_hat) )`, in `float complex` arithmetic. -/
def dist2 (_r x_hat : Cplx) : ℚ :=
  crealf (cf32_mul (cf32_sub _r x_hat) (conjf (cf32_sub _r x_hat)))

/-- The squared Euclidean distance of two points of the plane, in exact
arithmetic: the distance the specification speaks of. -/
def dist2_exact (_r x_hat : Cplx) : ℚ :=
  (_r.re - x_hat.re) ^ 2 + (_r.im - x_hat.im) ^ 2

/-- The test `(x >> n) & 0x01` of the source, as a Boolean. -/
def bit_of (x n : Nat) : Bool := (x >>> n) &&& 1 != 0

/-! ## The modem object -/

/-- Modelled from the spec: the enumeration of modulation schemes, declared
in a header that is not among the sources.  The source names three of its
members; every other scheme is `LIQUID_MODEM_OTHER` with its number. -/
inductive modulation_scheme where
  | LIQUID_MODEM_ARB
  | LIQUID_MODEM_BPSK
  | LIQUID_MODEM_QPSK
  | LIQUID_MODEM_OTHER (code : Nat)
deriving DecidableEq

/-- Modelled from the spec: the fields of the modem object that
`modem_demodulate_soft.c` reads or writes (the `struct` is declared in a
header that is not among the sources).  `demod_soft_neighbors` is a pointer
and may be `NULL` (`none`).  The function pointer `demodulate_func` is a
field of `Lib`. -/
structure modem where
  scheme : modulation_scheme
  m : Nat
  M : Nat
  symbol_map : List Cplx
  modulate_using_map : Bool
  demod_soft_neighbors : Option (List Nat)
  demod_soft_p : Nat
  x_hat : Cplx
  r : Cplx
deriving DecidableEq

/-- Functions the source calls and does not define.  A hard demodulator takes
the object and a sample and returns the object it leaves behind together with
the symbol; a modulator takes the object and a symbol and returns the
sample it writes through its last argument. -/
structure Lib where
  tanhf : ℚ → ℚ
  modem_demodulate : modem → Cplx → modem × Nat
  demodulate_func : modem → Cplx → modem × Nat
  modem_modulate : modem → Nat → Cplx
  modem_modulate_arb : modem → Nat → Cplx
  modem_modulate_bpsk : modem → Nat → Cplx
  modem_modulate_qpsk : modem → Nat → Cplx

/-- Modelled from the spec: `modem_get_bps`, not among the sources, returns
the number of bits per symbol of the object. -/
def modem_get_bps (_demod : modem) : Nat := _demod.m

/-- Modelled from the spec: the constant `LIQUID_FEC_SOFTBIT_1`, defined in a
header that is not among the sources; the soft bit of a certain 1 is 255. -/
def LIQUID_FEC_SOFTBIT_1 : Nat := 255

/-- Modelled from the spec: the constant `LIQUID_FEC_SOFTBIT_0`, defined in a
header that is not among the sources; the soft bit of a certain 0 is 0. -/
def LIQUID_FEC_SOFTBIT_0 : Nat := 0

/-- What a soft demodulator leaves behind: the object, `*_s` and the values
stored in `_soft_bits[0]`, `_soft_bits[1]`, ... -/
structure SoftResult where
  demod : modem
  s : Nat
  soft_bits : List Nat
deriving DecidableEq

/-! ## Quantisation of the log-likelihood ratio (lines 163-166 and 224-227) -/

/-- The `float` value of the right-hand side of lines 163 and 224,
`((-dmin_1/(2.0f*sig*sig)) - (-dmin_0/(2.0f*sig*sig)))*16 + 127`, with
`sig = 0.2f`. -/
def soft_bit_value (dmin_0 dmin_1 : ℚ) : ℚ :=
  let sig : ℚ := f32_round (2 / 10)
  f32_add (f32_mul
    (f32_sub (f32_div (-dmin_1) (f32_mul (f32_mul 2 sig) sig))
      (f32_div (-dmin_0) (f32_mul (f32_mul 2 sig) sig))) 16) 127

/-- The four lines
`int soft_bit = ((-dmin_1/(2.0f*sig*sig)) - (-dmin_0/(2.0f*sig*sig)))*16 + 127;`
`if (soft_bit > 255) soft_bit = 255;`
`if (soft_bit <   0) soft_bit = 0;`
`_soft_bits[k] = (unsigned char)soft_bit;`
with `sig = 0.2f`; the result is the value stored in `_soft_bits[k]`. -/
def soft_bit_assign (dmin_0 dmin_1 : ℚ) : Nat :=
  let soft_bit : ℤ := ftoi_int (soft_bit_value dmin_0 dmin_1)
  let soft_bit : ℤ := if soft_bit > 255 then 255 else soft_bit
  let soft_bit : ℤ := if soft_bit < 0 then 0 else soft_bit
  to_uchar soft_bit

/-! ## `modem_demodulate_soft_table` (lines 88-171) -/

/-- One pass of the loop over the neighbours (lines 133-155) for bit `k`:
`st` is `(dmin_0, dmin_1)` before the pass for neighbour number `i`. -/
def table_neighbor_step (lib : Lib) (_demod : modem) (_r : Cplx) (s bps : Nat)
    (softab : List Nat) (p k : Nat) (st : ℚ × ℚ) (i : Nat) : ℚ × ℚ :=
  let bit := bit_of (softab.getD (s * p + i) 0) (bps - k - 1)
  let x_hat : Cplx :=
    if _demod.modulate_using_map then _demod.symbol_map.getD (softab.getD (s * p + i) 0) default
    else lib.modem_modulate _demod (softab.getD (s * p + i) 0)
  let d := dist2 _r x_hat
  if bit then
    (st.1, if d < st.2 then d else st.2)
  else
    (if d < st.1 then d else st.1, st.2)

/-- The pair `(dmin_0, dmin_1)` at line 162 of the pass for bit `k`
(lines 119-155). -/
def table_dmin (lib : Lib) (_demod : modem) (_r : Cplx) (s bps : Nat)
    (softab : List Nat) (p k : Nat) : ℚ × ℚ :=
  let dmin_0 : ℚ := 1
  let dmin_1 : ℚ := 1
  let d := dist2 _r _demod.x_hat
  let bit := bit_of s (bps - k - 1)
  let st : ℚ × ℚ := if bit then (dmin_0, d) else (d, dmin_1)
  (List.range p).foldl (table_neighbor_step lib _demod _r s bps softab p k) st

/-- Embedding of `modem_demodulate_soft_table`. -/
def modem_demodulate_soft_table (lib : Lib) (_demod : modem) (_r : Cplx) : SoftResult :=
  let hard := lib.modem_demodulate _demod _r
  let _demod := hard.1
  let s := hard.2
  let bps := modem_get_bps _demod
  let softab := _demod.demod_soft_neighbors.getD []
  let p := _demod.demod_soft_p
  let soft_bits := (List.range bps).map fun k =>
    soft_bit_assign (table_dmin lib _demod _r s bps softab p k).1
      (table_dmin lib _demod _r s bps softab p k).2
  { demod := _demod, s := s, soft_bits := soft_bits }

/-! ## `modem_demodulate_soft_arb` (lines 176-238) -/

/-- Local variables of `modem_demodulate_soft_arb` that the scan updates. -/
structure ArbState where
  s : Nat
  dmin : ℚ
  dmin_0 : List ℚ
  dmin_1 : List ℚ
deriving DecidableEq

/-- One pass of the inner loop (lines 212-219) for bit `k`; `st` is
`(dmin_0, dmin_1)`. -/
def arb_bit_step (s bps : Nat) (d : ℚ) (st : List ℚ × List ℚ) (k : Nat) :
    List ℚ × List ℚ :=
  if bit_of s (bps - k - 1) then
    (st.1, if d < st.2.getD k 0 then st.2.set k d else st.2)
  else
    (if d < st.1.getD k 0 then st.1.set k d else st.1, st.2)

/-- One pass of the outer loop (lines 201-220) for symbol `i`. -/
def arb_step (symbol_map : List Cplx) (bps : Nat) (_r : Cplx) (st : ArbState) (i : Nat) :
    ArbState :=
  let x_hat := symbol_map.getD i default
  let d := dist2 _r x_hat
  let s := if d < st.dmin ∨ i = 0 then i else st.s
  let dmin := if d < st.dmin ∨ i = 0 then d else st.dmin
  let dd := (List.range bps).foldl (arb_bit_step s bps d) (st.dmin_0, st.dmin_1)
  { s := s, dmin := dmin, dmin_0 := dd.1, dmin_1 := dd.2 }

/-- The local variables at line 222, after the scan of all `M` symbols. -/
def arb_scan (_demod : modem) (_r : Cplx) : ArbState :=
  let bps := _demod.m
  let M := _demod.M
  (List.range M).foldl (arb_step _demod.symbol_map bps _r)
    { s := 0, dmin := 0, dmin_0 := List.replicate bps 4, dmin_1 := List.replicate bps 4 }

/-- Embedding of `modem_demodulate_soft_arb`. -/
def modem_demodulate_soft_arb (lib : Lib) (_demod : modem) (_r : Cplx) : SoftResult :=
  let bps := _demod.m
  let st := arb_scan _demod _r
  let soft_bits := (List.range bps).map fun k =>
    soft_bit_assign (st.dmin_0.getD k 0) (st.dmin_1.getD k 0)
  let s := st.s
  { demod := { _demod with x_hat := lib.modem_modulate_arb _demod s, r := _r },
    s := s, soft_bits := soft_bits }

/-! ## `modem_demodulate_soft_bpsk` and `modem_demodulate_soft_qpsk` (lines 241-272) -/

/-- The expression `(unsigned char) ( 255*(0.5 + 0.5*tanhf(t)) )` of lines
247, 263 and 264. -/
def tanh_soft_bit (lib : Lib) (t : ℚ) : Nat :=
  to_uchar (ftoi (255 * (5 / 10 + 5 / 10 * lib.tanhf t)))

/-- Embedding of `modem_demodulate_soft_bpsk`. -/
def modem_demodulate_soft_bpsk (lib : Lib) (_demod : modem) (_x : Cplx) : SoftResult :=
  let soft_0 := tanh_soft_bit lib (crealf _x)
  let symbol_out : Nat := if crealf _x > 0 then 0 else 1
  { demod := { _demod with x_hat := lib.modem_modulate_bpsk _demod symbol_out, r := _x },
    s := symbol_out, soft_bits := [soft_0] }

/-- Embedding of `modem_demodulate_soft_qpsk`. -/
def modem_demodulate_soft_qpsk (lib : Lib) (_demod : modem) (_x : Cplx) : SoftResult :=
  let soft_0 := tanh_soft_bit lib (14142 / 10000 * crealf _x)
  let soft_1 := tanh_soft_bit lib (14142 / 10000 * cimagf _x)
  let symbol_out : Nat := (if crealf _x > 0 then 0 else 1) + (if cimagf _x > 0 then 0 else 2)
  { demod := { _demod with x_hat := lib.modem_modulate_qpsk _demod symbol_out, r := _x },
    s := symbol_out, soft_bits := [soft_0, soft_1] }

/-! ## `modem_demodulate_soft` (lines 38-70) -/

/-- The fall-through of `modem_demodulate_soft` (lines 60-69): hard
demodulation through `demodulate_func`, then one soft bit per bit of the
symbol. -/
def modem_demodulate_soft_copy (lib : Lib) (_demod : modem) (_x : Cplx) : SoftResult :=
  let hard := lib.demodulate_func _demod _x
  let _demod := hard.1
  let symbol_out := hard.2
  let soft_bits := (List.range _demod.m).map fun i =>
    if bit_of symbol_out (_demod.m - i - 1) then LIQUID_FEC_SOFTBIT_1 else LIQUID_FEC_SOFTBIT_0
  { demod := _demod, s := symbol_out, soft_bits := soft_bits }

/-- Embedding of `modem_demodulate_soft`. -/
def modem_demodulate_soft (lib : Lib) (_demod : modem) (_x : Cplx) : SoftResult :=
  match _demod.scheme with
  | .LIQUID_MODEM_ARB => modem_demodulate_soft_arb lib _demod _x
  | .LIQUID_MODEM_BPSK => modem_demodulate_soft_bpsk lib _demod _x
  | .LIQUID_MODEM_QPSK => modem_demodulate_soft_qpsk lib _demod _x
  | .LIQUID_MODEM_OTHER _ =>
    if _demod.demod_soft_neighbors ≠ none ∧ _demod.demod_soft_p ≠ 0 then
      modem_demodulate_soft_table lib _demod _x
    else
      modem_demodulate_soft_copy lib _demod _x

/-! ## Objects that differ in the stored samples, and the contract of the library -/

/-- Two modem objects that differ at most in the fields `x_hat` and `r`. -/
def same_configuration (q1 q2 : modem) : Prop :=
  q1.scheme = q2.scheme ∧ q1.m = q2.m ∧ q1.M = q2.M ∧ q1.symbol_map = q2.symbol_map ∧
  q1.modulate_using_map = q2.modulate_using_map ∧
  q1.demod_soft_neighbors = q2.demod_soft_neighbors ∧ q1.demod_soft_p = q2.demod_soft_p

/-- A hard demodulator `f` changes no field of the object but `x_hat` and `r`,
and its decision does not depend on the fields `x_hat` and `r`. -/
def keeps_configuration (f : modem → Cplx → modem × Nat) : Prop :=
  (∀ d y, same_configuration d (f d y).1) ∧
  (∀ d1 d2 y, same_configuration d1 d2 → (f d1 y).2 = (f d2 y).2)

/-- Contract of the hard demodulator `modem_demodulate` and of the modulator
`modem_modulate`: the demodulator changes no field but `x_hat` and `r`, its
decision does not depend on them, it stores in `x_hat` the modulation of its
decision, and the modulator does not depend on `x_hat` and `r`. -/
def demodulator_contract (lib : Lib) : Prop :=
  keeps_configuration lib.modem_demodulate ∧
  (∀ d y, (lib.modem_demodulate d y).1.x_hat
    = lib.modem_modulate d (lib.modem_demodulate d y).2) ∧
  (∀ d1 d2 s, same_configuration d1 d2 →
    lib.modem_modulate d1 s = lib.modem_modulate d2 s)

/-- The outputs of a soft demodulator: the hard symbol and the soft bits. -/
def outputs (res : SoftResult) : Nat × List Nat := (res.s, res.soft_bits)

/-! ## Concrete inputs -/

/-- A library for the two-point constellation: `tanhf` is the rational
approximant `t (945 + 105 t² + t⁴) / (945 + 420 t² + 15 t⁴)` of the hyperbolic
tangent, cut off at `±1` (within `1/1000` of it at `1` and at `1.4142`, see
`lib0_tanhf_one_close` and `lib0_tanhf_14142_close`); the hard demodulators decide
on the sign of the real part and store the re-modulated decision and the
sample; the modulators read the symbol map or the standard BPSK and QPSK
constellations. -/
def lib0 : Lib where
  tanhf := fun t =>
    max (-1) (min 1 (t * (945 + 105 * t ^ 2 + t ^ 4) / (945 + 420 * t ^ 2 + 15 * t ^ 4)))
  modem_demodulate := fun q x =>
    ({ q with x_hat := q.symbol_map.getD (if x.re > 0 then 0 else 1) default, r := x },
      if x.re > 0 then 0 else 1)
  demodulate_func := fun q x =>
    ({ q with x_hat := q.symbol_map.getD (if x.re > 0 then 0 else 1) default, r := x },
      if x.re > 0 then 0 else 1)
  modem_modulate := fun q s => q.symbol_map.getD s default
  modem_modulate_arb := fun q s => q.symbol_map.getD s default
  modem_modulate_bpsk := fun _ s => if s = 0 then ⟨1, 0⟩ else ⟨-1, 0⟩
  modem_modulate_qpsk := fun _ s =>
    ⟨if s % 2 = 0 then 7071 / 10000 else -(7071 / 10000),
     if s / 2 = 0 then 7071 / 10000 else -(7071 / 10000)⟩

/-- A modem of one bit per symbol on the constellation `+1, -1`, with the
neighbour table that lists for each symbol the other one. -/
def modem2 : modem where
  scheme := .LIQUID_MODEM_BPSK
  m := 1
  M := 2
  symbol_map := [⟨1, 0⟩, ⟨-1, 0⟩]
  modulate_using_map := true
  demod_soft_neighbors := some [1, 0]
  demod_soft_p := 1
  x_hat := ⟨0, 0⟩
  r := ⟨0, 0⟩

/-- The modem `modem2` with a scheme other than the three named ones, no
neighbour table (`NULL`) and a neighbour count of 1. -/
def modem_no_table : modem :=
  { modem2 with scheme := .LIQUID_MODEM_OTHER 0, demod_soft_neighbors := none }

/-- The modem `modem2` after earlier use: other values in `x_hat` and `r`. -/
def modem2_used : modem :=
  { modem2 with x_hat := ⟨5, -3⟩, r := ⟨1 / 7, 2⟩ }

/-- The library `lib0` with a `tanhf` that is the identity cut off at `±1`:
non-decreasing, with values in `[-1, 1]`, equal to `1` from `1` on and to `-1`
up to `-1`. -/
def lib_clip : Lib :=
  { lib0 with tanhf := fun t => max (-1) (min 1 t) }

/-- The modem `modem2` with a scheme other than the three named ones: it has
the neighbour table of `modem2` and the neighbour count 1. -/
def modem2_other : modem :=
  { modem2 with scheme := .LIQUID_MODEM_OTHER 0 }

/-- A QPSK modem: two bits per symbol, four points, no neighbour table. -/
def modem4 : modem where
  scheme := .LIQUID_MODEM_QPSK
  m := 2
  M := 4
  symbol_map := [⟨1, 1⟩, ⟨-1, 1⟩, ⟨1, -1⟩, ⟨-1, -1⟩]
  modulate_using_map := true
  demod_soft_neighbors := none
  demod_soft_p := 0
  x_hat := ⟨0, 0⟩
  r := ⟨0, 0⟩

/-- An arbitrary modem of one bit per symbol on the two points
`-2^-25 - 2^-25 i` and `8 + 8i`. -/
def modem_far : modem where
  scheme := .LIQUID_MODEM_ARB
  m := 1
  M := 2
  symbol_map := [⟨-(1 / 33554432), -(1 / 33554432)⟩, ⟨8, 8⟩]
  modulate_using_map := true
  demod_soft_neighbors := none
  demod_soft_p := 0
  x_hat := ⟨0, 0⟩
  r := ⟨0, 0⟩

/-! ## Descriptions the claims on the table path and the max-log search refer to -/

/-- The value `v` is the least of the values of the list `l`. -/
def is_least_of (v : ℚ) (l : List ℚ) : Prop :=
  v ∈ l ∧ ∀ x ∈ l, v ≤ x

/-- The `P` neighbours of the symbol `s` in the table `softab`:
`softab[s*p]`, ..., `softab[s*p + p - 1]` (lines 133-134). -/
def table_neighbors (softab : List Nat) (s p : Nat) : List Nat :=
  (List.range p).map fun i => softab.getD (s * p + i) 0

/-- The re-modulation of a neighbour symbol (lines 142-145): the entry of the
symbol map when `modulate_using_map` is set, `modem_modulate` otherwise. -/
def table_remodulate (lib : Lib) (_demod : modem) (sym : Nat) : Cplx :=
  if _demod.modulate_using_map then _demod.symbol_map.getD sym default
  else lib.modem_modulate _demod sym

/-- The squared distances from the sample to the re-modulated neighbours of
`s` whose bit `k` (0 = most significant of `bps`) is `b`. -/
def table_class_distances (lib : Lib) (_demod : modem) (_r : Cplx) (s bps : Nat)
    (softab : List Nat) (p k : Nat) (b : Bool) : List ℚ :=
  ((table_neighbors softab s p).filter fun j => bit_of j (bps - k - 1) == b).map
    fun j => dist2 _r (table_remodulate lib _demod j)

/-- The least value of a list, `none` for the empty list. -/
def list_min : List ℚ → Option ℚ
  | [] => none
  | d :: ds =>
    match list_min ds with
    | none => some d
    | some e => some (min d e)

/-- The squared distances from the sample to the constellation points
`symbol_map[i]`, `i < M`, whose own bit `k` (0 = most significant of `bps`)
is `b`. -/
def ml_class_distances (symbol_map : List Cplx) (M bps : Nat) (_r : Cplx) (k : Nat) (b : Bool) :
    List ℚ :=
  ((List.range M).filter fun i => bit_of i (bps - k - 1) == b).map
    fun i => dist2 _r (symbol_map.getD i default)

/-- The minimum of the max-log search for bit `k` and bit value `b`: the least
squared distance over all symbols whose own bit `k` is `b` (`none` when there
is no such symbol). -/
def ml_dmin (symbol_map : List Cplx) (M bps : Nat) (_r : Cplx) (k : Nat) (b : Bool) : Option ℚ :=
  list_min (ml_class_distances symbol_map M bps _r k b)

/-- The soft bit of the max-log search for bit `k`: the quantisation of the
source applied to the two minima of `ml_dmin`. -/
def ml_soft_bit (symbol_map : List Cplx) (M bps : Nat) (_r : Cplx) (k : Nat) : Option Nat :=
  match ml_dmin symbol_map M bps _r k false, ml_dmin symbol_map M bps _r k true with
  | some d0, some d1 => some (soft_bit_assign d0 d1)
  | _, _ => none

/-- The modem `modem2` as the hard demodulator of `lib0` leaves it for the
sample `1/4`. -/
def modem2_after : modem :=
  { modem2 with x_hat := ⟨1, 0⟩, r := ⟨1 / 4, 0⟩ }

/-! ## The arbitrary path with each candidate classified by its own bit -/

/-- The local variables after the scan of the symbols `0 .. n-1`. -/
def arb_scan_upto (symbol_map : List Cplx) (bps : Nat) (_r : Cplx) (n : Nat) : ArbState :=
  (List.range n).foldl (arb_step symbol_map bps _r)
    { s := 0, dmin := 0, dmin_0 := List.replicate bps 4, dmin_1 := List.replicate bps 4 }

/-- The variant of `arb_step` the source is compared with: the distance of
symbol `i` enters the minimum of the class given by bit `k` of the candidate
`i` itself (the source classifies by bit `k` of the running decision `s`). -/
def arb_step_own_bit (symbol_map : List Cplx) (bps : Nat) (_r : Cplx) (st : ArbState) (i : Nat) :
    ArbState :=
  let x_hat := symbol_map.getD i default
  let d := dist2 _r x_hat
  let s := if d < st.dmin ∨ i = 0 then i else st.s
  let dmin := if d < st.dmin ∨ i = 0 then d else st.dmin
  let dd := (List.range bps).foldl (arb_bit_step i bps d) (st.dmin_0, st.dmin_1)
  { s := s, dmin := dmin, dmin_0 := dd.1, dmin_1 := dd.2 }

/-- The soft bits of the arbitrary path with the classification of
`arb_step_own_bit`: same initial values, same quantisation. -/
def arb_soft_bits_own_bit (_demod : modem) (_r : Cplx) : List Nat :=
  let bps := _demod.m
  let M := _demod.M
  let st := (List.range M).foldl (arb_step_own_bit _demod.symbol_map bps _r)
    { s := 0, dmin := 0, dmin_0 := List.replicate bps 4, dmin_1 := List.replicate bps 4 }
  (List.range bps).map fun k => soft_bit_assign (st.dmin_0.getD k 0) (st.dmin_1.getD k 0)

/-! ## The two loop paths with every array access checked -/

/-- The test `(x >> (bps-k-1)) & 0x01` with its shift amount checked: it is
defined when `k < bps`, so that the unsigned `bps-k-1` does not wrap and lies
in `[0, bps)`. -/
def bit_of_checked (x bps k : Nat) : Option Bool :=
  if k < bps then some (bit_of x (bps - k - 1)) else none

/-- The store `_soft_bits[k] = v`, defined when `k` is a position of the
buffer. -/
def write_checked (buf : List Nat) (k v : Nat) : Option (List Nat) :=
  if k < buf.length then some (buf.set k v) else none

/-- The pass `table_neighbor_step` with every array read checked: it fails
when the table is `NULL`, when `s*p+i` is outside the table, when the symbol
read is outside the symbol map (if the map is used) or when the shift amount
is out of range. -/
def table_neighbor_step_checked (lib : Lib) (_demod : modem) (_r : Cplx) (s bps : Nat)
    (p k : Nat) (st : ℚ × ℚ) (i : Nat) : Option (ℚ × ℚ) := do
  let softab ← _demod.demod_soft_neighbors
  let sym ← softab[s * p + i]?
  let bit ← bit_of_checked sym bps k
  let x_hat ←
    if _demod.modulate_using_map then _demod.symbol_map[sym]?
    else some (lib.modem_modulate _demod sym)
  let d := dist2 _r x_hat
  if bit then
    pure (st.1, if d < st.2 then d else st.2)
  else
    pure (if d < st.1 then d else st.1, st.2)

/-- The pass for bit `k` of the table path (`table_dmin`) with every read
checked. -/
def table_dmin_checked (lib : Lib) (_demod : modem) (_r : Cplx) (s bps : Nat)
    (p k : Nat) : Option (ℚ × ℚ) := do
  let dmin_0 : ℚ := 1
  let dmin_1 : ℚ := 1
  let d := dist2 _r _demod.x_hat
  let bit ← bit_of_checked s bps k
  let st : ℚ × ℚ := if bit then (dmin_0, d) else (d, dmin_1)
  (List.range p).foldlM (table_neighbor_step_checked lib _demod _r s bps p k) st

/-- The body of the loop over `k` of the table path (lines 116-166) on the
buffer `_soft_bits`: the store of 127, the two minima, the store of the soft
bit. -/
def table_bit_checked (lib : Lib) (_demod : modem) (_r : Cplx) (s bps p : Nat)
    (_soft_bits : List Nat) (k : Nat) : Option (List Nat) := do
  let buf ← write_checked _soft_bits k 127
  let dm ← table_dmin_checked lib _demod _r s bps p k
  write_checked buf k (soft_bit_assign dm.1 dm.2)

/-- The function `modem_demodulate_soft_table` with every array access checked,
writing into the caller's buffer `_soft_bits`: `none` when an access is
out of bounds. -/
def modem_demodulate_soft_table_checked (lib : Lib) (_demod : modem) (_r : Cplx)
    (_soft_bits : List Nat) : Option SoftResult := do
  let hard := lib.modem_demodulate _demod _r
  let _demod := hard.1
  let s := hard.2
  let bps := modem_get_bps _demod
  let p := _demod.demod_soft_p
  let buf ← (List.range bps).foldlM (table_bit_checked lib _demod _r s bps p) _soft_bits
  pure { demod := _demod, s := s, soft_bits := buf }

/-- The pass `arb_bit_step` with the shift amount and the reads of `dmin_0[k]`
and `dmin_1[k]` checked. -/
def arb_bit_step_checked (s bps : Nat) (d : ℚ) (st : List ℚ × List ℚ) (k : Nat) :
    Option (List ℚ × List ℚ) := do
  let bit ← bit_of_checked s bps k
  if bit then
    let cur ← st.2[k]?
    pure (st.1, if d < cur then st.2.set k d else st.2)
  else
    let cur ← st.1[k]?
    pure (if d < cur then st.1.set k d else st.1, st.2)

/-- The pass `arb_step` with the read of `symbol_map[i]` and the inner loop
checked. -/
def arb_step_checked (symbol_map : List Cplx) (bps : Nat) (_r : Cplx) (st : ArbState) (i : Nat) :
    Option ArbState := do
  let x_hat ← symbol_map[i]?
  let d := dist2 _r x_hat
  let s := if d < st.dmin ∨ i = 0 then i else st.s
  let dmin := if d < st.dmin ∨ i = 0 then d else st.dmin
  let dd ← (List.range bps).foldlM (arb_bit_step_checked s bps d) (st.dmin_0, st.dmin_1)
  pure { s := s, dmin := dmin, dmin_0 := dd.1, dmin_1 := dd.2 }

/-- The body of the loop of lines 223-228 on the buffer `_soft_bits`. -/
def arb_assign_checked (st : ArbState) (_soft_bits : List Nat) (k : Nat) : Option (List Nat) := do
  let d0 ← st.dmin_0[k]?
  let d1 ← st.dmin_1[k]?
  write_checked _soft_bits k (soft_bit_assign d0 d1)

/-- The function `modem_demodulate_soft_arb` with every array access checked,
writing into the caller's buffer `_soft_bits`: `none` when an access is
out of bounds. -/
def modem_demodulate_soft_arb_checked (lib : Lib) (_demod : modem) (_r : Cplx)
    (_soft_bits : List Nat) : Option SoftResult := do
  let bps := _demod.m
  let M := _demod.M
  let st ← (List.range M).foldlM (arb_step_checked _demod.symbol_map bps _r)
    { s := 0, dmin := 0, dmin_0 := List.replicate bps 4, dmin_1 := List.replicate bps 4 }
  let buf ← (List.range bps).foldlM (arb_assign_checked st) _soft_bits
  let s := st.s
  pure { demod := { _demod with x_hat := lib.modem_modulate_arb _demod s, r := _r },
         s := s, soft_bits := buf }

/-! ## Conversions and quantisation -/

theorem to_uchar_lt (n : ℤ) : to_uchar n < 256 := by
  unfold to_uchar
  have h1 : n % 256 < 256 := Int.emod_lt_of_pos n (by norm_num)
  have h2 : 0 ≤ n % 256 := Int.emod_nonneg n (by norm_num)
  omega

theorem to_uchar_of_range (n : ℤ) (h0 : 0 ≤ n) (h1 : n ≤ 255) : to_uchar n = n.toNat := by
  unfold to_uchar
  rw [Int.emod_eq_of_lt h0 (by omega)]

theorem ftoi_of_nonneg {q : ℚ} (h : 0 ≤ q) : ftoi q = ⌊q⌋ := by
  simp [ftoi, h]

theorem ftoi_of_neg {q : ℚ} (h : q < 0) : ftoi q = ⌈q⌉ := by
  simp [ftoi, not_le.mpr h]

theorem ftoi_eq_of_nonneg {q : ℚ} {n : ℤ} (h0 : 0 ≤ q) (h1 : (n : ℚ) ≤ q) (h2 : q < n + 1) :
    ftoi q = n := by
  rw [ftoi_of_nonneg h0, Int.floor_eq_iff]
  exact ⟨h1, h2⟩

/-! ## Rounding to binary32 -/

theorem round_even_floor_le (x : ℚ) : ⌊x⌋ ≤ round_even x := by
  unfold round_even
  split_ifs <;> omega

theorem round_even_le_floor_succ (x : ℚ) : round_even x ≤ ⌊x⌋ + 1 := by
  unfold round_even
  split_ifs <;> omega

theorem round_even_int (n : ℤ) : round_even (n : ℚ) = n := by
  unfold round_even
  simp

theorem round_even_mono {x y : ℚ} (h : x ≤ y) : round_even x ≤ round_even y := by
  rcases (Int.floor_le_floor h).lt_or_eq with hlt | heq
  · calc round_even x ≤ ⌊x⌋ + 1 := round_even_le_floor_succ x
      _ ≤ ⌊y⌋ := hlt
      _ ≤ round_even y := round_even_floor_le y
  · unfold round_even
    rw [← heq]
    have hxy : x - ⌊x⌋ ≤ y - ⌊x⌋ := by linarith
    split_ifs <;> first | omega | (exfalso; linarith)

theorem round_even_sub_le (x : ℚ) : |(round_even x : ℚ) - x| ≤ 1 / 2 := by
  have h1 := Int.floor_le x
  have h2 := Int.lt_floor_add_one x
  unfold round_even
  rw [abs_le]
  split_ifs with a b <;> push_cast <;> constructor <;> linarith

theorem round_even_neg (x : ℚ) : round_even (-x) = -round_even x := by
  by_cases hx : (⌊x⌋ : ℚ) = x
  · rw [← hx, ← Int.cast_neg, round_even_int, round_even_int]
  · have h1 := Int.floor_le x
    have h2 := Int.lt_floor_add_one x
    have hlt : (⌊x⌋ : ℚ) < x := lt_of_le_of_ne h1 hx
    have hf : ⌊-x⌋ = -⌊x⌋ - 1 := by
      rw [Int.floor_eq_iff]; push_cast; constructor <;> linarith
    unfold round_even
    rw [hf]
    push_cast
    split_ifs <;> first | omega | (exfalso; linarith)

theorem two_zpow_pos (k : ℤ) : (0 : ℚ) < 2 ^ k := zpow_pos (by norm_num) k

theorem log2_le_iff {x : ℤ} {r : ℚ} (hr : 0 < r) : (2 : ℚ) ^ x ≤ r ↔ x ≤ Int.log 2 r := by
  have h := Int.zpow_le_iff_le_log (R := ℚ) (b := 2) (by norm_num) (x := x) hr
  simpa using h

theorem lt_log2_iff {x : ℤ} {r : ℚ} (hr : 0 < r) : r < (2 : ℚ) ^ x ↔ Int.log 2 r < x := by
  have h := Int.lt_zpow_iff_log_lt (R := ℚ) (b := 2) (by norm_num) (x := x) hr
  simpa using h

/-- The exponent of the grid at a non-zero `q` lying in the binade of `e`. -/
theorem f32_exponent_eq (q : ℚ) (e : ℤ) (hq : q ≠ 0) (he1 : -126 ≤ e) (he2 : e ≤ 127)
    (hlo : e = -126 ∨ 2 ^ e ≤ |q|) (hhi : e = 127 ∨ |q| < 2 ^ (e + 1)) :
    f32_exponent q = e := by
  have hpos : 0 < |q| := abs_pos.mpr hq
  have h1 : e = -126 ∨ e ≤ Int.log 2 |q| := hlo.imp id (log2_le_iff hpos).mp
  have h2 : e = 127 ∨ Int.log 2 |q| < e + 1 := hhi.imp id (lt_log2_iff hpos).mp
  unfold f32_exponent
  omega

theorem f32_exponent_neg (q : ℚ) : f32_exponent (-q) = f32_exponent q := by
  unfold f32_exponent
  rw [abs_neg]

theorem f32_exponent_ge (q : ℚ) : -126 ≤ f32_exponent q := le_max_left _ _

theorem f32_exponent_le (q : ℚ) : f32_exponent q ≤ 127 :=
  max_le (by norm_num) (min_le_left _ _)

theorem f32_exponent_mono {x y : ℚ} (hx : 0 < x) (h : x ≤ y) :
    f32_exponent x ≤ f32_exponent y := by
  have hxy : |x| ≤ |y| := by
    rw [abs_of_pos hx, abs_of_pos (lt_of_lt_of_le hx h)]; exact h
  have hlog : Int.log 2 |x| ≤ Int.log 2 |y| :=
    Int.log_mono_right (abs_pos.mpr hx.ne') hxy
  unfold f32_exponent
  omega

/-- Below the top binade a positive `x` is less than the upper end of its
binade. -/
theorem lt_of_f32_exponent_lt {x : ℚ} (hx : 0 < x) (h : f32_exponent x < 127) :
    x < 2 ^ (f32_exponent x + 1) := by
  have h1 : Int.log 2 |x| < f32_exponent x + 1 := by
    unfold f32_exponent at h ⊢
    omega
  have := (lt_log2_iff (abs_pos.mpr hx.ne')).mpr h1
  rwa [abs_of_pos hx] at this

/-- Above the bottom binade a positive `y` is at least the lower end of its
binade. -/
theorem le_of_lt_f32_exponent {y : ℚ} (hy : 0 < y) (h : -126 < f32_exponent y) :
    2 ^ f32_exponent y ≤ y := by
  have h1 : f32_exponent y ≤ Int.log 2 |y| := by
    unfold f32_exponent at h ⊢
    omega
  have := (log2_le_iff (abs_pos.mpr hy.ne')).mpr h1
  rwa [abs_of_pos hy] at this

/-- The rounding before the limitation to `[-2^128, 2^128]`. -/
theorem f32_round_eq_clamp (q : ℚ) :
    f32_round q = max (-(2 ^ 128)) (min (2 ^ 128)
      ((round_even (q / 2 ^ (f32_exponent q - 23)) : ℚ) * 2 ^ (f32_exponent q - 23))) := rfl

theorem clamp_neg (a t : ℚ) (ha : 0 ≤ a) :
    max (-a) (min a (-t)) = -max (-a) (min a t) := by
  simp only [max_def, min_def]
  split_ifs <;> linarith

theorem clamp_mono (a : ℚ) {s t : ℚ} (h : s ≤ t) :
    max (-a) (min a s) ≤ max (-a) (min a t) :=
  max_le_max le_rfl (min_le_min le_rfl h)

theorem clamp_of_abs_le (a t : ℚ) (h : |t| ≤ a) : max (-a) (min a t) = t := by
  obtain ⟨h1, h2⟩ := abs_le.mp h
  rw [min_eq_right h2, max_eq_right h1]

theorem f32_round_zero : f32_round 0 = 0 := by
  have h : round_even (0 : ℚ) = 0 := by
    simpa using round_even_int 0
  rw [f32_round_eq_clamp, zero_div, h]
  norm_num

theorem f32_round_neg (q : ℚ) : f32_round (-q) = -f32_round q := by
  rw [f32_round_eq_clamp, f32_round_eq_clamp, f32_exponent_neg, neg_div, round_even_neg]
  push_cast
  rw [neg_mul]
  exact clamp_neg _ _ (by norm_num)

/-- The value on the grid before the limitation to `[-2^128, 2^128]`. -/
theorem f32_grid_nonneg {q : ℚ} (hq : 0 ≤ q) :
    (0 : ℚ) ≤ (round_even (q / 2 ^ (f32_exponent q - 23)) : ℚ) * 2 ^ (f32_exponent q - 23) := by
  have h0 : round_even (0 : ℚ) = 0 := by simpa using round_even_int 0
  have h : (0 : ℤ) ≤ round_even (q / 2 ^ (f32_exponent q - 23)) := by
    rw [← h0]
    exact round_even_mono (div_nonneg hq (two_zpow_pos _).le)
  exact mul_nonneg (by exact_mod_cast h) (two_zpow_pos _).le

theorem f32_round_nonneg {q : ℚ} (hq : 0 ≤ q) : 0 ≤ f32_round q := by
  rw [f32_round_eq_clamp]
  exact le_max_of_le_right (le_min (by norm_num) (f32_grid_nonneg hq))

theorem f32_grid_mono_pos {x y : ℚ} (hx : 0 < x) (h : x ≤ y) :
    (round_even (x / 2 ^ (f32_exponent x - 23)) : ℚ) * 2 ^ (f32_exponent x - 23)
      ≤ (round_even (y / 2 ^ (f32_exponent y - 23)) : ℚ) * 2 ^ (f32_exponent y - 23) := by
  have hy : 0 < y := lt_of_lt_of_le hx h
  rcases (f32_exponent_mono hx h).lt_or_eq with hlt | heq
  · -- different binades
    have hx127 : f32_exponent x < 127 := lt_of_lt_of_le hlt (f32_exponent_le y)
    have hy126 : -126 < f32_exponent y := lt_of_le_of_lt (f32_exponent_ge x) hlt
    have hxlt := lt_of_f32_exponent_lt hx hx127
    have hyge := le_of_lt_f32_exponent hy hy126
    have e24 : (2 : ℚ) ^ (f32_exponent x + 1) = 2 ^ (24 : ℤ) * 2 ^ (f32_exponent x - 23) := by
      rw [← zpow_add₀ (by norm_num : (2 : ℚ) ≠ 0)]
      congr 1
      ring
    have e23 : (2 : ℚ) ^ (f32_exponent y) = 2 ^ (23 : ℤ) * 2 ^ (f32_exponent y - 23) := by
      rw [← zpow_add₀ (by norm_num : (2 : ℚ) ≠ 0)]
      congr 1
      ring
    have hxq : x / 2 ^ (f32_exponent x - 23) ≤ ((2 ^ 24 : ℤ) : ℚ) := by
      rw [div_le_iff₀ (two_zpow_pos _)]
      rw [e24] at hxlt
      push_cast
      norm_num at hxlt ⊢
      exact hxlt.le
    have hyq : ((2 ^ 23 : ℤ) : ℚ) ≤ y / 2 ^ (f32_exponent y - 23) := by
      rw [le_div_iff₀ (two_zpow_pos _)]
      rw [e23] at hyge
      push_cast
      norm_num at hyge ⊢
      exact hyge
    have h1 : round_even (x / 2 ^ (f32_exponent x - 23)) ≤ 2 ^ 24 := by
      have := round_even_mono hxq
      rwa [round_even_int] at this
    have h2 : (2 ^ 23 : ℤ) ≤ round_even (y / 2 ^ (f32_exponent y - 23)) := by
      have := round_even_mono hyq
      rwa [round_even_int] at this
    calc (round_even (x / 2 ^ (f32_exponent x - 23)) : ℚ) * 2 ^ (f32_exponent x - 23)
        ≤ ((2 ^ 24 : ℤ) : ℚ) * 2 ^ (f32_exponent x - 23) :=
          mul_le_mul_of_nonneg_right (by exact_mod_cast h1) (two_zpow_pos _).le
      _ = 2 ^ (f32_exponent x + 1) := by rw [e24]; norm_num
      _ ≤ 2 ^ (f32_exponent y) := zpow_le_zpow_right₀ (by norm_num) hlt
      _ = ((2 ^ 23 : ℤ) : ℚ) * 2 ^ (f32_exponent y - 23) := by rw [e23]; norm_num
      _ ≤ (round_even (y / 2 ^ (f32_exponent y - 23)) : ℚ) * 2 ^ (f32_exponent y - 23) :=
          mul_le_mul_of_nonneg_right (by exact_mod_cast h2) (two_zpow_pos _).le
  · rw [heq]
    apply mul_le_mul_of_nonneg_right _ (two_zpow_pos _).le
    have : round_even (x / 2 ^ (f32_exponent y - 23)) ≤ round_even (y / 2 ^ (f32_exponent y - 23)) :=
      round_even_mono (div_le_div_of_nonneg_right h (two_zpow_pos _).le)
    exact_mod_cast this

theorem f32_round_mono_nonneg {x y : ℚ} (hx : 0 ≤ x) (h : x ≤ y) :
    f32_round x ≤ f32_round y := by
  rcases hx.lt_or_eq with hpos | h0
  · rw [f32_round_eq_clamp, f32_round_eq_clamp]
    exact clamp_mono _ (f32_grid_mono_pos hpos h)
  · rw [← h0, f32_round_zero]
    exact f32_round_nonneg (le_trans hx h)

/-- Rounding to binary32 is monotone. -/
theorem f32_round_mono {x y : ℚ} (h : x ≤ y) : f32_round x ≤ f32_round y := by
  rcases le_total 0 x with hx | hx
  · exact f32_round_mono_nonneg hx h
  · rcases le_total 0 y with hy | hy
    · have h1 : f32_round x ≤ 0 := by
        have := f32_round_nonneg (neg_nonneg.mpr hx)
        rw [f32_round_neg] at this
        linarith
      exact le_trans h1 (f32_round_nonneg hy)
    · have := f32_round_mono_nonneg (neg_nonneg.mpr hy) (neg_le_neg h)
      rw [f32_round_neg, f32_round_neg] at this
      linarith

theorem round_even_eq_of_close (x : ℚ) (n : ℤ) (h : |x - n| < 1 / 2) : round_even x = n := by
  obtain ⟨h1, h2⟩ := abs_lt.mp h
  have hle : (n : ℚ) - 1 / 2 < x := by linarith
  have hlt : x < (n : ℚ) + 1 / 2 := by linarith
  rcases le_or_lt (n : ℚ) x with hn | hn
  · have hf : ⌊x⌋ = n := by
      rw [Int.floor_eq_iff]; constructor <;> linarith
    unfold round_even
    rw [hf, if_pos (by linarith)]
  · have hf : ⌊x⌋ = n - 1 := by
      rw [Int.floor_eq_iff]; push_cast; constructor <;> linarith
    unfold round_even
    rw [hf]
    push_cast
    rw [if_neg (by linarith), if_pos (by linarith)]
    ring

/-- Evaluation of `f32_round` at a non-zero `q` of the binade of `e`: the
result is `n * 2^(e-23)` for the integer `n` nearest to `q / 2^(e-23)`. -/
theorem f32_round_eq (q : ℚ) (e n : ℤ) (hq : q ≠ 0) (he1 : -126 ≤ e) (he2 : e ≤ 127)
    (hlo : e = -126 ∨ 2 ^ e ≤ |q|) (hhi : e = 127 ∨ |q| < 2 ^ (e + 1))
    (hn : |q / 2 ^ (e - 23) - n| < 1 / 2) (hr : |(n : ℚ) * 2 ^ (e - 23)| ≤ 2 ^ 128) :
    f32_round q = n * 2 ^ (e - 23) := by
  rw [f32_round_eq_clamp, f32_exponent_eq q e hq he1 he2 hlo hhi,
    round_even_eq_of_close _ n hn]
  exact clamp_of_abs_le _ _ hr

/-- Evaluation of `f32_round` at a positive `q` of the normal range. -/
theorem f32_round_eq_pos (q : ℚ) (e n : ℤ) (he1 : -126 ≤ e) (he2 : e ≤ 127)
    (hlo : 2 ^ e ≤ q) (hhi : q < 2 ^ (e + 1))
    (hn1 : (n : ℚ) - 1 / 2 < q / 2 ^ (e - 23)) (hn2 : q / 2 ^ (e - 23) < (n : ℚ) + 1 / 2)
    (hr : (n : ℚ) * 2 ^ (e - 23) ≤ 2 ^ 128) :
    f32_round q = n * 2 ^ (e - 23) := by
  have hq : 0 < q := lt_of_lt_of_le (two_zpow_pos e) hlo
  have hn0 : (0 : ℚ) ≤ n := by
    have h0 : round_even (0 : ℚ) = 0 := by simpa using round_even_int 0
    have h1 : round_even (q / 2 ^ (e - 23)) = n :=
      round_even_eq_of_close _ n (abs_lt.mpr ⟨by linarith only [hn1], by linarith only [hn2]⟩)
    have h2 := round_even_mono (div_nonneg hq.le (two_zpow_pos (e - 23)).le)
    rw [h0, h1] at h2
    exact_mod_cast h2
  apply f32_round_eq q e n hq.ne' he1 he2 (Or.inr (by rw [abs_of_pos hq]; exact hlo))
    (Or.inr (by rw [abs_of_pos hq]; exact hhi))
    (abs_lt.mpr ⟨by linarith only [hn1], by linarith only [hn2]⟩)
  rw [abs_of_nonneg (mul_nonneg hn0 (two_zpow_pos _).le)]
  exact hr

/-- Evaluation of `f32_round` at the negative of a positive `q` of the normal
range. -/
theorem f32_round_eq_neg (q : ℚ) (e n : ℤ) (he1 : -126 ≤ e) (he2 : e ≤ 127)
    (hlo : 2 ^ e ≤ q) (hhi : q < 2 ^ (e + 1))
    (hn1 : (n : ℚ) - 1 / 2 < q / 2 ^ (e - 23)) (hn2 : q / 2 ^ (e - 23) < (n : ℚ) + 1 / 2)
    (hr : (n : ℚ) * 2 ^ (e - 23) ≤ 2 ^ 128) :
    f32_round (-q) = -(n * 2 ^ (e - 23)) := by
  rw [f32_round_neg, f32_round_eq_pos q e n he1 he2 hlo hhi hn1 hn2 hr]

/-- The magnitude of a rounded value is at most twice that of the value. -/
theorem abs_f32_round_le (q : ℚ) : |f32_round q| ≤ 2 * |q| := by
  have key : ∀ x : ℚ, 0 ≤ x → f32_round x ≤ 2 * x := by
    intro x hx
    rw [f32_round_eq_clamp]
    apply max_le (by linarith [show (0 : ℚ) < 2 ^ 128 by norm_num])
    apply le_trans (min_le_right _ _)
    have hu := two_zpow_pos (f32_exponent x - 23)
    set u : ℚ := 2 ^ (f32_exponent x - 23) with hudef
    have hxu : x = x / u * u := by field_simp
    rcases lt_or_le (x / u) (1 / 2) with hsmall | hbig
    · have h0 : round_even (x / u) = 0 := by
        apply round_even_eq_of_close
        have : 0 ≤ x / u := div_nonneg hx hu.le
        rw [abs_lt]; push_cast; constructor <;> linarith
      rw [h0]; push_cast; linarith
    · have h1 := (abs_le.mp (round_even_sub_le (x / u))).2
      have h2 : (round_even (x / u) : ℚ) ≤ 2 * (x / u) := by linarith
      calc (round_even (x / u) : ℚ) * u ≤ 2 * (x / u) * u :=
            mul_le_mul_of_nonneg_right h2 hu.le
        _ = 2 * x := by rw [mul_assoc, ← hxu]
  rcases le_total 0 q with h | h
  · rw [abs_of_nonneg (f32_round_nonneg h), abs_of_nonneg h]
    exact key q h
  · have h' : 0 ≤ -q := neg_nonneg.mpr h
    have := key (-q) h'
    rw [f32_round_neg] at this
    have hn := f32_round_nonneg h'
    rw [f32_round_neg] at hn
    rw [abs_of_nonpos (by linarith), abs_of_nonpos h]
    linarith

/-- The rounding error of a value of magnitude at most `2^127`: at most
`2^-24` of the value, or `2^-150` below the normal range. -/
theorem f32_round_error (q : ℚ) (hq : |q| ≤ 2 ^ 127) :
    |f32_round q - q| ≤ |q| / 2 ^ 24 + 1 / 2 ^ 150 := by
  rcases eq_or_ne q 0 with h0 | h0
  · rw [h0, f32_round_zero]
    norm_num
  have hu := two_zpow_pos (f32_exponent q - 23)
  have herr := round_even_sub_le (q / 2 ^ (f32_exponent q - 23))
  have hgrid : |(round_even (q / 2 ^ (f32_exponent q - 23)) : ℚ) * 2 ^ (f32_exponent q - 23) - q|
      ≤ 2 ^ (f32_exponent q - 23) / 2 := by
    have e : (round_even (q / 2 ^ (f32_exponent q - 23)) : ℚ) * 2 ^ (f32_exponent q - 23) - q
        = ((round_even (q / 2 ^ (f32_exponent q - 23)) : ℚ) - q / 2 ^ (f32_exponent q - 23))
          * 2 ^ (f32_exponent q - 23) := by
      field_simp
    rw [e, abs_mul, abs_of_pos hu]
    calc _ ≤ 1 / 2 * 2 ^ (f32_exponent q - 23) := mul_le_mul_of_nonneg_right herr hu.le
      _ = _ := by ring
  have hq24 : (0 : ℚ) ≤ |q| / 2 ^ 24 := div_nonneg (abs_nonneg q) (by norm_num)
  have hulp : (2 : ℚ) ^ (f32_exponent q - 23) / 2 ≤ |q| / 2 ^ 24 + 1 / 2 ^ 150 := by
    rcases (f32_exponent_ge q).lt_or_eq with hgt | heq
    · have hlog : f32_exponent q ≤ Int.log 2 |q| := by
        unfold f32_exponent at hgt ⊢
        omega
      have h2 : (2 : ℚ) ^ f32_exponent q ≤ |q| := (log2_le_iff (abs_pos.mpr h0)).mpr hlog
      have e : (2 : ℚ) ^ (f32_exponent q - 23) / 2 = 2 ^ f32_exponent q / 2 ^ 24 := by
        rw [zpow_sub₀ (by norm_num : (2 : ℚ) ≠ 0)]
        norm_num
        ring
      rw [e]
      have h3 : (2 : ℚ) ^ f32_exponent q / 2 ^ 24 ≤ |q| / 2 ^ 24 :=
        div_le_div_of_nonneg_right h2 (by norm_num)
      have h4 : (0 : ℚ) < 1 / 2 ^ 150 := by norm_num
      linarith only [h3, h4]
    · rw [← heq]
      have h5 : (2 : ℚ) ^ ((-126 : ℤ) - 23) / 2 = 1 / 2 ^ 150 := by norm_num
      rw [h5]
      linarith only [hq24]
  have hg := le_trans hgrid hulp
  have hbig : |(round_even (q / 2 ^ (f32_exponent q - 23)) : ℚ) * 2 ^ (f32_exponent q - 23)|
      ≤ 2 ^ 128 := by
    have h6 := abs_sub_abs_le_abs_sub
      ((round_even (q / 2 ^ (f32_exponent q - 23)) : ℚ) * 2 ^ (f32_exponent q - 23)) q
    have h7 : |q| / 2 ^ 24 ≤ 2 ^ 127 / 2 ^ 24 := div_le_div_of_nonneg_right hq (by norm_num)
    have h8 : (2 : ℚ) ^ 127 + 2 ^ 127 / 2 ^ 24 + 1 / 2 ^ 150 ≤ 2 ^ 128 := by norm_num
    linarith only [h6, h7, h8, hg, hq]
  rw [f32_round_eq_clamp, clamp_of_abs_le _ _ hbig]
  exact hg

/-! ## Evaluation of single-precision expressions -/

/-- Evaluation of `f32_round` at a value of the normal range, of either
sign, from its binade `e` and the nearest grid point `n * 2^(e-23)`. -/
theorem f32_round_eval (q : ℚ) (e n : ℤ) (he : -126 ≤ e ∧ e ≤ 127)
    (hlo : 2 ^ e ≤ q ∨ 2 ^ e ≤ -q) (hhi : -(2 ^ (e + 1)) < q ∧ q < 2 ^ (e + 1))
    (hn : (n : ℚ) - 1 / 2 < q / 2 ^ (e - 23) ∧ q / 2 ^ (e - 23) < (n : ℚ) + 1 / 2)
    (hr : -(2 ^ 128) ≤ (n : ℚ) * 2 ^ (e - 23) ∧ (n : ℚ) * 2 ^ (e - 23) ≤ 2 ^ 128) :
    f32_round q = n * 2 ^ (e - 23) := by
  have hpos := two_zpow_pos e
  have hq : q ≠ 0 := by
    rintro rfl
    rcases hlo with h | h
    · exact absurd h (not_le.mpr hpos)
    · rw [neg_zero] at h
      exact absurd h (not_le.mpr hpos)
  apply f32_round_eq q e n hq he.1 he.2
  · right
    rcases hlo with h | h
    · exact le_trans h (le_abs_self q)
    · exact le_trans h (neg_le_abs q)
  · right
    exact abs_lt.mpr hhi
  · rw [abs_lt]
    constructor
    · linarith only [hn.1]
    · linarith only [hn.2]
  · exact abs_le.mpr hr

theorem round_even_tie (x : ℚ) (n : ℤ) (heven : n % 2 = 0)
    (htie : x = (n : ℚ) + 1 / 2 ∨ x = (n : ℚ) - 1 / 2) : round_even x = n := by
  rcases htie with h | h
  · have hf : ⌊x⌋ = n := by
      rw [Int.floor_eq_iff, h]; constructor <;> linarith
    unfold round_even
    rw [hf, h]
    rw [if_neg (by linarith), if_neg (by linarith), if_pos heven]
  · have hf : ⌊x⌋ = n - 1 := by
      rw [Int.floor_eq_iff, h]; push_cast; constructor <;> linarith
    have hodd : ¬ (n - 1) % 2 = 0 := by omega
    unfold round_even
    rw [hf, h]
    push_cast
    rw [if_neg (by linarith), if_neg (by linarith), if_neg hodd]
    ring

/-- Evaluation of `f32_round` at a value of the normal range that lies
midway between two grid points: the result is the one with the even `n`. -/
theorem f32_round_eval_tie (q : ℚ) (e n : ℤ) (he : -126 ≤ e ∧ e ≤ 127)
    (hlo : 2 ^ e ≤ q ∨ 2 ^ e ≤ -q) (hhi : -(2 ^ (e + 1)) < q ∧ q < 2 ^ (e + 1))
    (heven : n % 2 = 0)
    (htie : q / 2 ^ (e - 23) = (n : ℚ) + 1 / 2 ∨ q / 2 ^ (e - 23) = (n : ℚ) - 1 / 2)
    (hr : -(2 ^ 128) ≤ (n : ℚ) * 2 ^ (e - 23) ∧ (n : ℚ) * 2 ^ (e - 23) ≤ 2 ^ 128) :
    f32_round q = n * 2 ^ (e - 23) := by
  have hpos := two_zpow_pos e
  have hq : q ≠ 0 := by
    rintro rfl
    rcases hlo with h | h
    · exact absurd h (not_le.mpr hpos)
    · rw [neg_zero] at h
      exact absurd h (not_le.mpr hpos)
  have hexp : f32_exponent q = e := by
    apply f32_exponent_eq q e hq he.1 he.2
    · right
      rcases hlo with h | h
      · exact le_trans h (le_abs_self q)
      · exact le_trans h (neg_le_abs q)
    · right
      exact abs_lt.mpr hhi
  rw [f32_round_eq_clamp, hexp, round_even_tie _ n heven htie]
  exact clamp_of_abs_le _ _ (abs_le.mpr hr)

theorem abs_f32_round (q : ℚ) : |f32_round q| = f32_round |q| := by
  rcases le_total 0 q with h | h
  · rw [abs_of_nonneg h, abs_of_nonneg (f32_round_nonneg h)]
  · have h' := f32_round_nonneg (neg_nonneg.mpr h)
    rw [abs_of_nonpos h, f32_round_neg]
    rw [f32_round_neg] at h'
    exact abs_of_nonpos (by linarith only [h'])

theorem f32_round_127 : f32_round 127 = 127 := by
  rw [f32_round_eval _ 6 (127 * 2 ^ 17)] <;> norm_num

/-- The literal `0.2f`. -/
theorem f32_sig : f32_round (2 / 10) = 13421773 / 67108864 := by
  rw [f32_round_eval _ (-3) 13421773] <;> norm_num

/-- The value of `2.0f*sig*sig` with `sig = 0.2f`. -/
theorem f32_two_sig_sq :
    f32_mul (f32_mul 2 (f32_round (2 / 10))) (f32_round (2 / 10)) = 10737419 / 134217728 := by
  have h1 : f32_round (2 * (13421773 / 67108864)) = 13421773 / 33554432 := by
    rw [f32_round_eval _ (-2) 13421773] <;> norm_num
  have h2 : f32_round (13421773 / 33554432 * (13421773 / 67108864)) = 10737419 / 134217728 := by
    rw [f32_round_eval _ (-4) 10737419] <;> norm_num
  unfold f32_mul
  rw [f32_sig, h1, h2]

/-! ## Quantisation of the soft bits -/

/-- The `float` value of lines 163 and 224 with the constant `2.0f*sig*sig`
evaluated: four roundings of the quotients, one of the difference, one of the
product and one of the sum. -/
theorem soft_bit_value_eq (d0 d1 : ℚ) :
    soft_bit_value d0 d1
      = f32_round (f32_round (f32_round (f32_round (-d1 / (10737419 / 134217728))
          - f32_round (-d0 / (10737419 / 134217728))) * 16) + 127) := by
  unfold soft_bit_value
  simp only [f32_two_sig_sq]
  rfl

theorem soft_bit_value_mono {d0 d1 e0 e1 : ℚ} (h0 : d0 ≤ e0) (h1 : e1 ≤ d1) :
    soft_bit_value d0 d1 ≤ soft_bit_value e0 e1 := by
  rw [soft_bit_value_eq, soft_bit_value_eq]
  have hc : (0 : ℚ) < 10737419 / 134217728 := by norm_num
  have a1 : f32_round (-d1 / (10737419 / 134217728)) ≤ f32_round (-e1 / (10737419 / 134217728)) :=
    f32_round_mono (div_le_div_of_nonneg_right (by linarith only [h1]) hc.le)
  have a0 : f32_round (-e0 / (10737419 / 134217728)) ≤ f32_round (-d0 / (10737419 / 134217728)) :=
    f32_round_mono (div_le_div_of_nonneg_right (by linarith only [h0]) hc.le)
  apply f32_round_mono
  have hw := f32_round_mono (show f32_round (-d1 / (10737419 / 134217728))
      - f32_round (-d0 / (10737419 / 134217728))
    ≤ f32_round (-e1 / (10737419 / 134217728)) - f32_round (-e0 / (10737419 / 134217728)) by
      linarith only [a0, a1])
  have hy := f32_round_mono (show f32_round (f32_round (-d1 / (10737419 / 134217728))
      - f32_round (-d0 / (10737419 / 134217728))) * 16
    ≤ f32_round (f32_round (-e1 / (10737419 / 134217728))
      - f32_round (-e0 / (10737419 / 134217728))) * 16 by linarith only [hw])
  linarith only [hy]

/-- Equal minima give the `float` value 127. -/
theorem soft_bit_value_self (d : ℚ) : soft_bit_value d d = 127 := by
  rw [soft_bit_value_eq, sub_self, f32_round_zero, zero_mul, f32_round_zero, zero_add,
    f32_round_127]

/-- A bound on the magnitude of the `float` value of lines 163 and 224. -/
theorem soft_bit_value_abs_le (d0 d1 B : ℚ) (h0 : |d0| ≤ B) (h1 : |d1| ≤ B) :
    |soft_bit_value d0 d1| ≤ 6400 * B + 254 := by
  rw [soft_bit_value_eq]
  have hc : ∀ d : ℚ, |d| ≤ B → |f32_round (-d / (10737419 / 134217728))| ≤ 25 * B := by
    intro d hd
    have h := abs_f32_round_le (-d / (10737419 / 134217728))
    have e : |-d / (10737419 / 134217728 : ℚ)| = |d| * (134217728 / 10737419) := by
      rw [abs_div, abs_neg, abs_of_pos (show (0 : ℚ) < 10737419 / 134217728 by norm_num)]
      field_simp
    rw [e] at h
    have hB : |d| * (134217728 / 10737419 : ℚ) ≤ |d| * (25 / 2) :=
      mul_le_mul_of_nonneg_left (by norm_num) (abs_nonneg d)
    linarith only [h, hB, hd]
  have t1 := hc d1 h1
  have t0 := hc d0 h0
  have hw0 := abs_sub (f32_round (-d1 / (10737419 / 134217728)))
    (f32_round (-d0 / (10737419 / 134217728)))
  have hw := abs_f32_round_le (f32_round (-d1 / (10737419 / 134217728))
    - f32_round (-d0 / (10737419 / 134217728)))
  have hy := abs_f32_round_le (f32_round (f32_round (-d1 / (10737419 / 134217728))
    - f32_round (-d0 / (10737419 / 134217728))) * 16)
  rw [abs_mul, abs_of_pos (show (0 : ℚ) < 16 by norm_num)] at hy
  have hv := abs_f32_round_le (f32_round (f32_round (f32_round (-d1 / (10737419 / 134217728))
    - f32_round (-d0 / (10737419 / 134217728))) * 16) + 127)
  have hz := abs_add (f32_round (f32_round (f32_round (-d1 / (10737419 / 134217728))
    - f32_round (-d0 / (10737419 / 134217728))) * 16)) 127
  rw [abs_of_pos (show (0 : ℚ) < 127 by norm_num)] at hz
  linarith only [t1, t0, hw0, hw, hy, hv, hz]

theorem soft_bit_assign_le (dmin_0 dmin_1 : ℚ) : soft_bit_assign dmin_0 dmin_1 ≤ 255 := by
  unfold soft_bit_assign
  simp only
  generalize ftoi_int (soft_bit_value dmin_0 dmin_1) = z
  by_cases h1 : z > 255
  · simp only [h1, if_true]
    have : ¬ ((255 : ℤ) < 0) := by norm_num
    simp only [this, if_false]
    rw [to_uchar_of_range _ (by norm_num) (by norm_num)]
    omega
  · simp only [h1, if_false]
    by_cases h2 : z < 0
    · simp only [h2, if_true]
      rw [to_uchar_of_range _ (by norm_num) (by norm_num)]
      omega
    · simp only [h2, if_false]
      rw [to_uchar_of_range _ (by omega) (by omega)]
      omega

/-- The value stored by lines 163-166 and 224-227 when the `float` value is
within the range of `int`: its integer part limited to `[0, 255]`; below
zero the limitation hides the direction of the conversion, so this is the
limited floor. -/
theorem soft_bit_assign_of_range (d0 d1 : ℚ) (h : |soft_bit_value d0 d1| < 2 ^ 31) :
    soft_bit_assign d0 d1 = (max 0 (min 255 ⌊soft_bit_value d0 d1⌋)).toNat := by
  obtain ⟨hlo, hhi⟩ := abs_lt.mp h
  have hfl : -(2 ^ 31) ≤ ⌊soft_bit_value d0 d1⌋ := by
    rw [Int.le_floor]; push_cast; linarith only [hlo]
  have hfu : ⌊soft_bit_value d0 d1⌋ < 2 ^ 31 := by
    rw [Int.floor_lt]; push_cast; linarith only [hhi]
  have hcl : -(2 ^ 31) ≤ ⌈soft_bit_value d0 d1⌉ := le_trans hfl (Int.floor_le_ceil _)
  have hz : ftoi_int (soft_bit_value d0 d1) = ftoi (soft_bit_value d0 d1) := by
    unfold ftoi_int
    rw [if_pos]
    by_cases h0 : 0 ≤ soft_bit_value d0 d1
    · rw [ftoi_of_nonneg h0]; exact ⟨hfl, hfu⟩
    · have hneg := not_le.mp h0
      rw [ftoi_of_neg hneg]
      have : ⌈soft_bit_value d0 d1⌉ ≤ 0 := Int.ceil_le.mpr (by exact_mod_cast hneg.le)
      exact ⟨hcl, by omega⟩
  have hval : (max 0 (min 255 (ftoi (soft_bit_value d0 d1)))) 
      = max 0 (min 255 ⌊soft_bit_value d0 d1⌋) := by
    by_cases h0 : 0 ≤ soft_bit_value d0 d1
    · rw [ftoi_of_nonneg h0]
    · have hneg := not_le.mp h0
      rw [ftoi_of_neg hneg]
      have h1 : ⌈soft_bit_value d0 d1⌉ ≤ 0 := Int.ceil_le.mpr (by exact_mod_cast hneg.le)
      have h2 : ⌊soft_bit_value d0 d1⌋ ≤ 0 := le_trans (Int.floor_le_ceil _) h1
      omega
  rw [← hval]
  unfold soft_bit_assign
  simp only
  rw [hz]
  generalize ftoi (soft_bit_value d0 d1) = z
  by_cases h1 : z > 255
  · simp only [h1, if_true]
    have : ¬ ((255 : ℤ) < 0) := by norm_num
    simp only [this, if_false]
    rw [to_uchar_of_range _ (by norm_num) (by norm_num)]
    congr 1
    omega
  · simp only [h1, if_false]
    by_cases h2 : z < 0
    · simp only [h2, if_true]
      rw [to_uchar_of_range _ (by norm_num) (by norm_num)]
      congr 1
      omega
    · simp only [h2, if_false]
      rw [to_uchar_of_range _ (by omega) (by omega)]
      congr 1
      omega

/-- Minima of magnitude at most `2^16` keep the `float` value of lines 163
and 224 within the range of `int`. -/
theorem soft_bit_value_in_range (d0 d1 : ℚ) (h0 : |d0| ≤ 65536) (h1 : |d1| ≤ 65536) :
    |soft_bit_value d0 d1| < 2 ^ 31 := by
  have := soft_bit_value_abs_le d0 d1 65536 h0 h1
  have h2 : (6400 : ℚ) * 65536 + 254 < 2 ^ 31 := by norm_num
  linarith only [this, h2]

theorem soft_bit_assign_mono (d0 d1 e0 e1 : ℚ) (h0 : d0 ≤ e0) (h1 : e1 ≤ d1)
    (hd : |soft_bit_value d0 d1| < 2 ^ 31) (he : |soft_bit_value e0 e1| < 2 ^ 31) :
    soft_bit_assign d0 d1 ≤ soft_bit_assign e0 e1 := by
  rw [soft_bit_assign_of_range _ _ hd, soft_bit_assign_of_range _ _ he]
  have := Int.floor_le_floor (soft_bit_value_mono h0 h1)
  omega

theorem soft_bit_assign_self (d : ℚ) : soft_bit_assign d d = 127 := by
  have hv := soft_bit_value_self d
  rw [soft_bit_assign_of_range _ _ (by rw [hv]; norm_num), hv]
  have : ⌊(127 : ℚ)⌋ = 127 := by
    rw [Int.floor_eq_iff]; norm_num
  rw [this]
  decide

theorem soft_bit_assign_ge (d0 d1 : ℚ) (h : d1 ≤ d0)
    (hr : |soft_bit_value d0 d1| < 2 ^ 31) : 127 ≤ soft_bit_assign d0 d1 := by
  have := soft_bit_assign_mono d1 d1 d0 d1 h le_rfl
    (by rw [soft_bit_value_self]; norm_num) hr
  rwa [soft_bit_assign_self] at this

theorem soft_bit_assign_le_mid (d0 d1 : ℚ) (h : d0 ≤ d1)
    (hr : |soft_bit_value d0 d1| < 2 ^ 31) : soft_bit_assign d0 d1 ≤ 127 := by
  have := soft_bit_assign_mono d0 d1 d1 d1 h le_rfl hr
    (by rw [soft_bit_value_self]; norm_num)
  rwa [soft_bit_assign_self] at this

/-- The rounding error of a value of magnitude at most `B ≤ 2^127`. -/
theorem f32_round_error_le (q B : ℚ) (hB : |q| ≤ B) (hB2 : B ≤ 2 ^ 127) :
    |f32_round q - q| ≤ (B + 1) / 2 ^ 24 := by
  have h := f32_round_error q (le_trans hB hB2)
  have h1 : |q| / 2 ^ 24 ≤ B / 2 ^ 24 := div_le_div_of_nonneg_right hB (by norm_num)
  have h2 : (1 : ℚ) / 2 ^ 150 ≤ 1 / 2 ^ 24 := by norm_num
  have h3 : (B + 1) / 2 ^ 24 = B / 2 ^ 24 + 1 / 2 ^ 24 := by ring
  rw [h3]
  linarith only [h, h1, h2]

/-- For minima in `[0, 4]` the `float` value of lines 163 and 224 is within
`1/1000` of the exact value `200 * (dmin_0 - dmin_1) + 127`. -/
theorem soft_bit_value_close (d0 d1 : ℚ) (h0 : 0 ≤ d0 ∧ d0 ≤ 4) (h1 : 0 ≤ d1 ∧ d1 ≤ 4) :
    |soft_bit_value d0 d1 - (200 * (d0 - d1) + 127)| ≤ 1 / 1000 := by
  rw [soft_bit_value_eq]
  have hx : ∀ d : ℚ, 0 ≤ d ∧ d ≤ 4 →
      -d / (10737419 / 134217728) = -(d * (134217728 / 10737419)) ∧
      |(-d / (10737419 / 134217728 : ℚ))| ≤ 50 := by
    intro d hd
    have e : -d / (10737419 / 134217728 : ℚ) = -(d * (134217728 / 10737419)) := by
      field_simp
    refine ⟨e, ?_⟩
    rw [e, abs_neg, abs_of_nonneg (mul_nonneg hd.1 (by norm_num))]
    linarith only [hd.2]
  obtain ⟨e1, b1⟩ := hx d1 h1
  obtain ⟨e0, b0⟩ := hx d0 h0
  have big : (50 : ℚ) ≤ 2 ^ 127 := by norm_num
  have r1 := abs_le.mp (f32_round_error_le _ 50 b1 big)
  have r0 := abs_le.mp (f32_round_error_le _ 50 b0 big)
  have a1 := abs_le.mp b1
  have a0 := abs_le.mp b0
  set t1 := f32_round (-d1 / (10737419 / 134217728)) with ht1
  set t0 := f32_round (-d0 / (10737419 / 134217728)) with ht0
  have bw : |t1 - t0| ≤ 102 := by
    rw [abs_le]
    constructor
    · linarith only [r1.1, r0.2, a1.1, a0.2]
    · linarith only [r1.2, r0.1, a1.2, a0.1]
  have hrw := abs_le.mp (f32_round_error_le _ 102 bw (by norm_num))
  have aw := abs_le.mp bw
  set w := f32_round (t1 - t0) with hw
  have by0 : |w * 16| ≤ 1640 := by
    rw [abs_le]
    constructor
    · linarith only [hrw.1, aw.1]
    · linarith only [hrw.2, aw.2]
  have ry := abs_le.mp (f32_round_error_le _ 1640 by0 (by norm_num))
  have ay := abs_le.mp by0
  set y := f32_round (w * 16) with hy
  have bz : |y + 127| ≤ 1770 := by
    rw [abs_le]
    constructor
    · linarith only [ry.1, ay.1]
    · linarith only [ry.2, ay.2]
  have rz := abs_le.mp (f32_round_error_le _ 1770 bz (by norm_num))
  rw [e1] at r1
  rw [e0] at r0
  rw [abs_le]
  constructor
  · linarith only [r1.1, r1.2, r0.1, r0.2, hrw.1, hrw.2, ry.1, ry.2, rz.1, rz.2, h0.1, h0.2,
      h1.1, h1.2]
  · linarith only [r1.1, r1.2, r0.1, r0.2, hrw.1, hrw.2, ry.1, ry.2, rz.1, rz.2, h0.1, h0.2,
      h1.1, h1.2]

/-! ## The analytic soft bit -/

theorem tanh_soft_bit_le (lib : Lib) (t : ℚ) : tanh_soft_bit lib t ≤ 255 := by
  have := to_uchar_lt (ftoi (255 * (5 / 10 + 5 / 10 * lib.tanhf t)))
  unfold tanh_soft_bit
  omega

/-- For a `tanhf` value in `[-1, 1]` the cast of lines 247, 263 and 264 is the
floor of its argument. -/
theorem tanh_soft_bit_floor (lib : Lib) (t : ℚ) (hlo : -1 ≤ lib.tanhf t) (hhi : lib.tanhf t ≤ 1) :
    tanh_soft_bit lib t = ⌊255 * (1 / 2 + 1 / 2 * lib.tanhf t)⌋.toNat := by
  have e : (255 : ℚ) * (5 / 10 + 5 / 10 * lib.tanhf t) = 255 * (1 / 2 + 1 / 2 * lib.tanhf t) := by
    ring
  have h0 : (0 : ℚ) ≤ 255 * (1 / 2 + 1 / 2 * lib.tanhf t) := by linarith
  have h1 : 255 * (1 / 2 + 1 / 2 * lib.tanhf t) ≤ ((255 : ℤ) : ℚ) := by push_cast; linarith
  unfold tanh_soft_bit
  rw [e, ftoi_of_nonneg h0]
  have hf0 : 0 ≤ ⌊255 * (1 / 2 + 1 / 2 * lib.tanhf t)⌋ := Int.floor_nonneg.mpr h0
  have hf1 : ⌊255 * (1 / 2 + 1 / 2 * lib.tanhf t)⌋ ≤ 255 :=
    Int.floor_le_iff.mpr (by push_cast at h1 ⊢; linarith)
  exact to_uchar_of_range _ hf0 hf1

/-- The soft bit is `n` when `tanhf` lies in the interval that
`255*(0.5 + 0.5*t)` maps to `[n, n+1)`. -/
theorem tanh_soft_bit_eq_of_bounds (lib : Lib) (t : ℚ) (n : ℕ) (hn : n ≤ 255)
    (hlo : ((n : ℚ) - 255 / 2) / (255 / 2) ≤ lib.tanhf t)
    (hhi : lib.tanhf t < ((n : ℚ) + 1 - 255 / 2) / (255 / 2)) :
    tanh_soft_bit lib t = n := by
  have h1 : ((n : ℤ) : ℚ) ≤ 255 * (5 / 10 + 5 / 10 * lib.tanhf t) := by
    rw [div_le_iff₀ (by norm_num)] at hlo
    push_cast; linarith
  have h2 : 255 * (5 / 10 + 5 / 10 * lib.tanhf t) < ((n : ℤ) : ℚ) + 1 := by
    rw [lt_div_iff₀ (by norm_num)] at hhi
    push_cast; linarith
  have h0 : (0 : ℚ) ≤ 255 * (5 / 10 + 5 / 10 * lib.tanhf t) :=
    le_trans (by positivity) h1
  unfold tanh_soft_bit
  rw [ftoi_eq_of_nonneg h0 h1 h2, to_uchar_of_range _ (by omega) (by omega)]
  simp

/-! ## The squared distance -/

/-- The squared distance of the source, operation by operation. -/
theorem dist2_def (r x : Cplx) :
    dist2 r x = f32_round (f32_round (f32_round (r.re - x.re) * f32_round (r.re - x.re))
      - f32_round (f32_round (r.im - x.im) * -f32_round (r.im - x.im))) := rfl

/-- The squared distance of the source is the rounded sum of the two rounded
squares of the rounded differences. -/
theorem dist2_eq (r x : Cplx) :
    dist2 r x = f32_round (f32_round (f32_round (r.re - x.re) * f32_round (r.re - x.re))
      + f32_round (f32_round (r.im - x.im) * f32_round (r.im - x.im))) := by
  rw [dist2_def, mul_neg, f32_round_neg, sub_neg_eq_add]

theorem dist2_nonneg (r x : Cplx) : 0 ≤ dist2 r x := by
  rw [dist2_eq]
  exact f32_round_nonneg (add_nonneg (f32_round_nonneg (mul_self_nonneg _))
    (f32_round_nonneg (mul_self_nonneg _)))

/-- The squared distance of two points of the real axis. -/
theorem dist2_real (u v : ℚ) :
    dist2 ⟨u, 0⟩ ⟨v, 0⟩ = f32_round (f32_round (f32_round (u - v) * f32_round (u - v))) := by
  rw [dist2_eq]
  show f32_round (f32_round (f32_round (u - v) * f32_round (u - v))
      + f32_round (f32_round (0 - 0) * f32_round (0 - 0))) = _
  rw [sub_self, f32_round_zero, mul_zero, f32_round_zero, add_zero]

/-- A point whose two coordinates are not further from those of the sample
is not further from the sample, also in single precision. -/
theorem dist2_le_of_abs_le (r x y : Cplx) (hre : |r.re - x.re| ≤ |r.re - y.re|)
    (him : |r.im - x.im| ≤ |r.im - y.im|) : dist2 r x ≤ dist2 r y := by
  rw [dist2_eq, dist2_eq]
  have sq : ∀ a b : ℚ, |a| ≤ |b| → f32_round (f32_round a * f32_round a)
      ≤ f32_round (f32_round b * f32_round b) := by
    intro a b hab
    apply f32_round_mono
    apply abs_le_iff_mul_self_le.mp
    rw [abs_f32_round, abs_f32_round]
    exact f32_round_mono hab
  exact f32_round_mono (add_le_add (sq _ _ hre) (sq _ _ him))

theorem bit_of_eq_testBit (x n : Nat) : bit_of x n = Nat.testBit x n := by
  unfold bit_of Nat.testBit
  rw [Nat.land_comm]

/-- Reading `w` soft bits that copy the bits of `s`, most significant first,
gives back `s` modulo `2^w`. -/
theorem msb_first_value (w : Nat) : ∀ s : Nat,
    ((List.range w).map fun i => if Nat.testBit s (w - i - 1) then 255 else 0).foldl
      (fun acc b => 2 * acc + (if b = 255 then 1 else 0)) 0 = s % 2 ^ w := by
  induction w with
  | zero => intro s; simp [Nat.mod_one]
  | succ w ih =>
    intro s
    rw [List.range_succ, List.map_append, List.foldl_append]
    have hmap : ((List.range w).map fun i => if Nat.testBit s (w + 1 - i - 1) then 255 else 0)
        = (List.range w).map fun i => if Nat.testBit (s / 2) (w - i - 1) then 255 else 0 := by
      apply List.map_congr_left
      intro i hi
      have hi' : i < w := List.mem_range.mp hi
      have e : w + 1 - i - 1 = (w - i - 1) + 1 := by omega
      rw [e, Nat.testBit_succ]
    rw [hmap, ih (s / 2)]
    simp only [List.map_cons, List.map_nil, List.foldl_cons, List.foldl_nil]
    have e0 : w + 1 - w - 1 = 0 := by omega
    rw [e0, Nat.testBit_zero]
    have h2 : s % 2 ^ (w + 1) = 2 * (s / 2 % 2 ^ w) + s % 2 := by
      rw [pow_succ, Nat.mul_comm, Nat.mod_mul, Nat.add_comm]
    rw [h2]
    rcases Nat.mod_two_eq_zero_or_one s with h | h <;> simp [h]

/-! ## The hyperbolic tangent at the two sample points -/

theorem tanh_eq_exp (x : ℝ) : Real.tanh x = (Real.exp x ^ 2 - 1) / (Real.exp x ^ 2 + 1) := by
  have hpos := Real.exp_pos x
  rw [Real.tanh_eq_sinh_div_cosh, Real.sinh_eq, Real.cosh_eq, Real.exp_neg]
  field_simp
  ring

theorem tanh_ge_of_exp_ge {x a L : ℝ} (ha0 : 0 ≤ a) (ha : a ≤ Real.exp x)
    (h : 1 + L ≤ a ^ 2 * (1 - L)) : L ≤ Real.tanh x := by
  have hpos := Real.exp_pos x
  have hsq : a ^ 2 ≤ Real.exp x ^ 2 := pow_le_pow_left₀ ha0 ha 2
  rw [tanh_eq_exp, le_div_iff₀ (by positivity)]
  nlinarith

theorem tanh_le_of_exp_le {x b U : ℝ} (hb : Real.exp x ≤ b)
    (h : b ^ 2 * (1 - U) ≤ 1 + U) : Real.tanh x ≤ U := by
  have hpos := Real.exp_pos x
  have hsq : Real.exp x ^ 2 ≤ b ^ 2 := pow_le_pow_left₀ hpos.le hb 2
  rw [tanh_eq_exp, div_le_iff₀ (by positivity)]
  nlinarith

theorem tanh_one_bounds : (7615 / 10000 : ℝ) ≤ Real.tanh 1 ∧ Real.tanh 1 ≤ 7617 / 10000 := by
  constructor
  · exact tanh_ge_of_exp_ge (a := 2.7182818283) (by norm_num) Real.exp_one_gt_d9.le
      (by norm_num)
  · exact tanh_le_of_exp_le (b := 2.7182818286) Real.exp_one_lt_d9.le (by norm_num)

theorem lib0_tanhf_one : lib0.tanhf 1 = 1051 / 1380 := by
  norm_num [lib0]

theorem lib0_tanhf_14142 :
    lib0.tanhf (14142 / 10000) = 189705079501443632013 / 213539535558110225000 := by
  norm_num [lib0]

/-- The `tanhf` of `lib0` is within `1/1000` of the hyperbolic tangent at 1. -/
theorem lib0_tanhf_one_close : |((lib0.tanhf 1 : ℚ) : ℝ) - Real.tanh 1| ≤ 1 / 1000 := by
  rw [lib0_tanhf_one, abs_le]
  obtain ⟨h1, h2⟩ := tanh_one_bounds
  push_cast
  constructor <;> norm_num <;> linarith

theorem arb_step_s (symbol_map : List Cplx) (bps : Nat) (r : Cplx) (st : ArbState) (i : Nat) :
    (arb_step symbol_map bps r st i).s
      = if dist2 r (symbol_map.getD i default) < st.dmin ∨ i = 0 then i else st.s := rfl

theorem arb_step_dmin (symbol_map : List Cplx) (bps : Nat) (r : Cplx) (st : ArbState) (i : Nat) :
    (arb_step symbol_map bps r st i).dmin
      = if dist2 r (symbol_map.getD i default) < st.dmin ∨ i = 0
        then dist2 r (symbol_map.getD i default) else st.dmin := rfl

/-- After the scan of the symbols `0 .. n-1` (`n ≥ 1`), from any initial
values: `s` is one of them, `dmin` is its distance, no scanned symbol is
nearer, and every symbol before `s` is strictly farther. -/
theorem arb_fold_hard (symbol_map : List Cplx) (bps : Nat) (r : Cplx) (st0 : ArbState) (n : Nat)
    (hn : 0 < n) :
    ((List.range n).foldl (arb_step symbol_map bps r) st0).s < n ∧
    ((List.range n).foldl (arb_step symbol_map bps r) st0).dmin
      = dist2 r (symbol_map.getD ((List.range n).foldl (arb_step symbol_map bps r) st0).s default) ∧
    (∀ i, i < n →
      dist2 r (symbol_map.getD ((List.range n).foldl (arb_step symbol_map bps r) st0).s default)
        ≤ dist2 r (symbol_map.getD i default)) ∧
    (∀ i, i < ((List.range n).foldl (arb_step symbol_map bps r) st0).s →
      dist2 r (symbol_map.getD ((List.range n).foldl (arb_step symbol_map bps r) st0).s default)
        < dist2 r (symbol_map.getD i default)) := by
  induction n with
  | zero => exact absurd hn (lt_irrefl 0)
  | succ n ih =>
    rw [List.range_succ, List.foldl_append, List.foldl_cons, List.foldl_nil]
    rcases Nat.eq_zero_or_pos n with h0 | hpos
    · subst h0
      simp only [List.range_zero, List.foldl_nil]
      rw [arb_step_s, arb_step_dmin]
      simp only [or_true, if_true]
      refine ⟨Nat.zero_lt_one, trivial, ?_, ?_⟩
      · intro i hi
        have hi0 : i = 0 := by omega
        rw [hi0]
      · intro i hi
        exact absurd hi (Nat.not_lt_zero i)
    · obtain ⟨h1, h2, h3, h4⟩ := ih hpos
      generalize (List.range n).foldl (arb_step symbol_map bps r) st0 = st at h1 h2 h3 h4
      rw [arb_step_s, arb_step_dmin]
      have hn0 : n ≠ 0 := Nat.pos_iff_ne_zero.mp hpos
      by_cases hd : dist2 r (symbol_map.getD n default) < st.dmin
      · simp only [hd, true_or, if_true]
        have hd' : dist2 r (symbol_map.getD n default)
            < dist2 r (symbol_map.getD st.s default) := by
          rw [← h2]
          exact hd
        refine ⟨Nat.lt_succ_self n, trivial, ?_, ?_⟩
        · intro i hi
          rcases Nat.lt_succ_iff_lt_or_eq.mp hi with hlt | heq
          · exact le_of_lt (lt_of_lt_of_le hd' (h3 i hlt))
          · subst heq
            exact le_refl _
        · intro i hi
          exact lt_of_lt_of_le hd' (h3 i hi)
      · simp only [hd, hn0, or_self, if_false]
        refine ⟨Nat.lt_succ_of_lt h1, h2, ?_, h4⟩
        intro i hi
        rcases Nat.lt_succ_iff_lt_or_eq.mp hi with hlt | heq
        · exact h3 i hlt
        · subst heq
          rw [← h2]
          exact not_lt.mp hd

theorem arb_s_eq (lib : Lib) (q : modem) (r : Cplx) :
    (modem_demodulate_soft_arb lib q r).s = (arb_scan q r).s := rfl

theorem arb_soft_bits_eq (lib : Lib) (q : modem) (r : Cplx) :
    (modem_demodulate_soft_arb lib q r).soft_bits
      = (List.range q.m).map fun k =>
          soft_bit_assign ((arb_scan q r).dmin_0.getD k 0) ((arb_scan q r).dmin_1.getD k 0) := rfl

theorem table_soft_bits_eq (lib : Lib) (q : modem) (r : Cplx) :
    (modem_demodulate_soft_table lib q r).soft_bits
      = (List.range (lib.modem_demodulate q r).1.m).map fun k =>
          soft_bit_assign
            (table_dmin lib (lib.modem_demodulate q r).1 r (lib.modem_demodulate q r).2
              (lib.modem_demodulate q r).1.m ((lib.modem_demodulate q r).1.demod_soft_neighbors.getD [])
              (lib.modem_demodulate q r).1.demod_soft_p k).1
            (table_dmin lib (lib.modem_demodulate q r).1 r (lib.modem_demodulate q r).2
              (lib.modem_demodulate q r).1.m ((lib.modem_demodulate q r).1.demod_soft_neighbors.getD [])
              (lib.modem_demodulate q r).1.demod_soft_p k).2 := rfl

/-- The scan of a constellation of two points with one bit per symbol. -/
theorem arb_scan_two (q : modem) (r p0 p1 : Cplx) (hm : q.m = 1) (hM : q.M = 2)
    (hmap : q.symbol_map = [p0, p1]) :
    arb_scan q r =
      if dist2 r p1 < dist2 r p0 then
        { s := 1, dmin := dist2 r p1, dmin_0 := [min 4 (dist2 r p0)],
          dmin_1 := [min 4 (dist2 r p1)] }
      else
        { s := 0, dmin := dist2 r p0, dmin_0 := [min (min 4 (dist2 r p0)) (dist2 r p1)],
          dmin_1 := [4] } := by
  have b0 : bit_of 0 0 = false := by decide
  have b1 : bit_of 1 0 = true := by decide
  unfold arb_scan
  rw [hm, hM, hmap]
  simp only [List.range_succ, List.range_zero, List.nil_append, List.cons_append,
    List.foldl_cons, List.foldl_nil, arb_step, arb_bit_step, List.getD_cons_zero,
    List.getD_cons_succ, List.replicate, or_true, if_true, Nat.sub_self, Nat.zero_sub,
    b0, Bool.false_eq_true, if_false, List.set_cons_zero, one_ne_zero, or_false]
  generalize dist2 r p0 = d0
  generalize dist2 r p1 = d1
  by_cases h : d1 < d0
  · simp only [h, if_true, b1, List.getD_cons_zero, List.set_cons_zero]
    by_cases h4 : d0 < 4 <;> by_cases h5 : d1 < 4 <;>
      simp [h4, h5, min_eq_right, min_eq_left, le_of_lt, not_lt.mp]
  · simp only [h, if_false, b0, Bool.false_eq_true, List.getD_cons_zero]
    by_cases h4 : d0 < 4
    · simp only [h4, if_true, List.getD_cons_zero, List.set_cons_zero, min_eq_right h4.le]
      by_cases h5 : d1 < d0
      · exact absurd h5 h
      · simp [h5, min_eq_left (not_lt.mp h5)]
    · simp only [h4, if_false, List.getD_cons_zero, min_eq_left (not_lt.mp h4)]
      by_cases h5 : d1 < 4
      · simp [h5, min_eq_right h5.le]
      · simp [h5, min_eq_left (not_lt.mp h5)]

/-- The soft bits of the arbitrary path with one bit per symbol. -/
theorem arb_soft_bits_one (lib : Lib) (q : modem) (r : Cplx) (hm : q.m = 1) :
    (modem_demodulate_soft_arb lib q r).soft_bits
      = [soft_bit_assign ((arb_scan q r).dmin_0.getD 0 0) ((arb_scan q r).dmin_1.getD 0 0)] := by
  rw [arb_soft_bits_eq, hm]
  rfl

/-! ## Arrays of per-bit minima -/

theorem getD_set_self (l : List ℚ) (k : Nat) (d : ℚ) (hk : k < l.length) :
    (l.set k d).getD k 0 = d := by
  simp [List.getD_eq_getElem?_getD, hk]

theorem getD_set_ne (l : List ℚ) (k j : Nat) (d : ℚ) (hkj : k ≠ j) :
    (l.set k d).getD j 0 = l.getD j 0 := by
  simp [List.getD_eq_getElem?_getD, List.getElem?_set_ne hkj]

theorem ite_lt_eq_min (a d : ℚ) : (if d < a then d else a) = min a d := by
  by_cases h : d < a
  · rw [if_pos h, min_eq_right h.le]
  · rw [if_neg h, min_eq_left (not_lt.mp h)]

/-- One pass of the inner loop changes position `k` of the array of the class
`bit k of s` and nothing else. -/
theorem arb_bit_step_spec (s bps : Nat) (d : ℚ) (st : List ℚ × List ℚ) (k : Nat)
    (h0 : k < st.1.length) (h1 : k < st.2.length) :
    (arb_bit_step s bps d st k).1.length = st.1.length ∧
    (arb_bit_step s bps d st k).2.length = st.2.length ∧
    (∀ j, (arb_bit_step s bps d st k).1.getD j 0
      = if j = k ∧ bit_of s (bps - k - 1) = false then min (st.1.getD j 0) d else st.1.getD j 0) ∧
    (∀ j, (arb_bit_step s bps d st k).2.getD j 0
      = if j = k ∧ bit_of s (bps - k - 1) = true then min (st.2.getD j 0) d else st.2.getD j 0) := by
  unfold arb_bit_step
  by_cases hb : bit_of s (bps - k - 1) = true
  · simp only [hb, if_true]
    refine ⟨trivial, ?_, ?_, ?_⟩
    · split <;> simp
    · intro j; simp
    · intro j
      by_cases hj : j = k
      · subst hj
        simp only [true_and, if_true]
        rw [← ite_lt_eq_min]
        by_cases hd : d < st.2.getD j 0
        · rw [if_pos hd, if_pos hd, getD_set_self _ _ _ h1]
        · rw [if_neg hd, if_neg hd]
      · simp only [hj, false_and, if_false]
        split
        · exact getD_set_ne _ _ _ _ (Ne.symm hj)
        · rfl
  · have hb' : bit_of s (bps - k - 1) = false := by simpa using hb
    simp only [hb', Bool.false_eq_true, if_false]
    refine ⟨?_, trivial, ?_, ?_⟩
    · split <;> simp
    · intro j
      by_cases hj : j = k
      · subst hj
        simp only [true_and, if_true]
        rw [← ite_lt_eq_min]
        by_cases hd : d < st.1.getD j 0
        · rw [if_pos hd, if_pos hd, getD_set_self _ _ _ h0]
        · rw [if_neg hd, if_neg hd]
      · simp only [hj, false_and, if_false]
        split
        · exact getD_set_ne _ _ _ _ (Ne.symm hj)
        · rfl
    · intro j; simp

/-- The inner loop over the first `n` bit positions. -/
theorem arb_bit_fold_spec (s bps : Nat) (d : ℚ) (st : List ℚ × List ℚ) (n : Nat)
    (h0 : n ≤ st.1.length) (h1 : n ≤ st.2.length) :
    ((List.range n).foldl (arb_bit_step s bps d) st).1.length = st.1.length ∧
    ((List.range n).foldl (arb_bit_step s bps d) st).2.length = st.2.length ∧
    (∀ j, ((List.range n).foldl (arb_bit_step s bps d) st).1.getD j 0
      = if j < n ∧ bit_of s (bps - j - 1) = false then min (st.1.getD j 0) d else st.1.getD j 0) ∧
    (∀ j, ((List.range n).foldl (arb_bit_step s bps d) st).2.getD j 0
      = if j < n ∧ bit_of s (bps - j - 1) = true then min (st.2.getD j 0) d else st.2.getD j 0) := by
  induction n with
  | zero => simp
  | succ n ih =>
    obtain ⟨l0, l1, g0, g1⟩ := ih (Nat.le_of_succ_le h0) (Nat.le_of_succ_le h1)
    rw [List.range_succ, List.foldl_append, List.foldl_cons, List.foldl_nil]
    generalize (List.range n).foldl (arb_bit_step s bps d) st = mid at l0 l1 g0 g1
    obtain ⟨m0, m1, s0, s1⟩ := arb_bit_step_spec s bps d mid n (by omega) (by omega)
    refine ⟨m0.trans l0, m1.trans l1, ?_, ?_⟩
    · intro j
      rw [s0 j, g0 j]
      by_cases hj : j = n
      · subst hj
        simp
      · have : (j < n + 1) ↔ j < n := by omega
        simp only [hj, false_and, if_false, this]
    · intro j
      rw [s1 j, g1 j]
      by_cases hj : j = n
      · subst hj
        simp
      · have : (j < n + 1) ↔ j < n := by omega
        simp only [hj, false_and, if_false, this]

/-- One pass of the outer loop, seen at bit position `k`: the distance of
symbol `i` enters the minimum of the class given by bit `k` of the running
hard decision. -/
theorem arb_step_spec (symbol_map : List Cplx) (bps : Nat) (r : Cplx) (st : ArbState) (i : Nat)
    (h0 : st.dmin_0.length = bps) (h1 : st.dmin_1.length = bps) :
    (arb_step symbol_map bps r st i).dmin_0.length = bps ∧
    (arb_step symbol_map bps r st i).dmin_1.length = bps ∧
    (∀ k, k < bps → (arb_step symbol_map bps r st i).dmin_0.getD k 0
      = if bit_of (arb_step symbol_map bps r st i).s (bps - k - 1) = false
        then min (st.dmin_0.getD k 0) (dist2 r (symbol_map.getD i default))
        else st.dmin_0.getD k 0) ∧
    (∀ k, k < bps → (arb_step symbol_map bps r st i).dmin_1.getD k 0
      = if bit_of (arb_step symbol_map bps r st i).s (bps - k - 1) = true
        then min (st.dmin_1.getD k 0) (dist2 r (symbol_map.getD i default))
        else st.dmin_1.getD k 0) := by
  obtain ⟨l0, l1, g0, g1⟩ := arb_bit_fold_spec (arb_step symbol_map bps r st i).s bps
    (dist2 r (symbol_map.getD i default)) (st.dmin_0, st.dmin_1) bps (by simp [h0]) (by simp [h1])
  refine ⟨l0.trans h0, l1.trans h1, ?_, ?_⟩
  · intro k hk
    have := g0 k
    simp only [hk, true_and] at this
    exact this
  · intro k hk
    have := g1 k
    simp only [hk, true_and] at this
    exact this

/-! ## The invariant of the scan of the arbitrary path -/

theorem arb_scan_eq_upto (q : modem) (r : Cplx) :
    arb_scan q r = arb_scan_upto q.symbol_map q.m r q.M := rfl

/-- After the scan of the symbols `0 .. n-1` (`n ≥ 1`) from the initial values
of lines 193-199: at every bit position both minima lie between
`min(4, dmin)` and 4, and the minimum of the class of bit `k` of `s` is
`min(4, dmin)`. -/
theorem arb_fold_classes (symbol_map : List Cplx) (bps : Nat) (r : Cplx) (n : Nat) (hn : 0 < n) :
    (arb_scan_upto symbol_map bps r n).dmin_0.length = bps ∧
    (arb_scan_upto symbol_map bps r n).dmin_1.length = bps ∧
    ∀ k, k < bps →
      min 4 (arb_scan_upto symbol_map bps r n).dmin
        ≤ (arb_scan_upto symbol_map bps r n).dmin_0.getD k 0 ∧
      (arb_scan_upto symbol_map bps r n).dmin_0.getD k 0 ≤ 4 ∧
      min 4 (arb_scan_upto symbol_map bps r n).dmin
        ≤ (arb_scan_upto symbol_map bps r n).dmin_1.getD k 0 ∧
      (arb_scan_upto symbol_map bps r n).dmin_1.getD k 0 ≤ 4 ∧
      (bit_of (arb_scan_upto symbol_map bps r n).s (bps - k - 1) = true →
        (arb_scan_upto symbol_map bps r n).dmin_1.getD k 0
          = min 4 (arb_scan_upto symbol_map bps r n).dmin) ∧
      (bit_of (arb_scan_upto symbol_map bps r n).s (bps - k - 1) = false →
        (arb_scan_upto symbol_map bps r n).dmin_0.getD k 0
          = min 4 (arb_scan_upto symbol_map bps r n).dmin) := by
  simp only [arb_scan_upto]
  induction n with
  | zero => exact absurd hn (lt_irrefl 0)
  | succ n ih =>
    rw [List.range_succ, List.foldl_append, List.foldl_cons, List.foldl_nil]
    rcases Nat.eq_zero_or_pos n with h0 | hpos
    · subst h0
      simp only [List.range_zero, List.foldl_nil]
      obtain ⟨l0, l1, g0, g1⟩ := arb_step_spec symbol_map bps r
        { s := 0, dmin := 0, dmin_0 := List.replicate bps 4, dmin_1 := List.replicate bps 4 } 0
        (by simp) (by simp)
      refine ⟨l0, l1, ?_⟩
      intro k hk
      have e4 : (List.replicate bps (4 : ℚ)).getD k 0 = 4 := by
        simp [List.getD_eq_getElem?_getD, hk]
      rw [g0 k hk, g1 k hk, arb_step_dmin]
      simp only [e4, or_true, if_true]
      generalize dist2 r (symbol_map.getD 0 default) = d
      by_cases hb : bit_of (arb_step symbol_map bps r
          { s := 0, dmin := 0, dmin_0 := List.replicate bps 4,
            dmin_1 := List.replicate bps 4 } 0).s (bps - k - 1) = true
      · simp [hb]
      · have hb' : bit_of (arb_step symbol_map bps r
          { s := 0, dmin := 0, dmin_0 := List.replicate bps 4,
            dmin_1 := List.replicate bps 4 } 0).s (bps - k - 1) = false := by simpa using hb
        simp [hb']
    · obtain ⟨l0, l1, inv⟩ := ih hpos
      generalize (List.range n).foldl (arb_step symbol_map bps r)
        { s := 0, dmin := 0, dmin_0 := List.replicate bps 4,
          dmin_1 := List.replicate bps 4 } = st at l0 l1 inv
      obtain ⟨m0, m1, g0, g1⟩ := arb_step_spec symbol_map bps r st n l0 l1
      refine ⟨m0, m1, ?_⟩
      intro k hk
      obtain ⟨a0, b0, a1, b1, c1, c0⟩ := inv k hk
      have hn0 : n ≠ 0 := Nat.pos_iff_ne_zero.mp hpos
      rw [g0 k hk, g1 k hk, arb_step_dmin, arb_step_s]
      generalize dist2 r (symbol_map.getD n default) = d
      by_cases hd : d < st.dmin
      · simp only [hd, true_or, if_true]
        have hmm : min 4 d ≤ min 4 st.dmin := min_le_min le_rfl hd.le
        by_cases hb : bit_of n (bps - k - 1) = true
        · simp only [hb, if_true, Bool.true_eq_false, if_false, forall_true_left,
            false_implies, and_true]
          have e : min (st.dmin_1.getD k 0) d = min 4 d :=
            le_antisymm (le_min (le_trans (min_le_left _ _) b1) (min_le_right _ _))
              (le_min (le_trans hmm a1) (min_le_right _ _))
          refine ⟨le_trans hmm a0, b0, ?_, le_trans (min_le_left _ _) b1, e⟩
          rw [e]
        · have hb' : bit_of n (bps - k - 1) = false := by simpa using hb
          simp only [hb', if_true, Bool.false_eq_true, if_false, forall_true_left,
            false_implies, true_and]
          have e : min (st.dmin_0.getD k 0) d = min 4 d :=
            le_antisymm (le_min (le_trans (min_le_left _ _) b0) (min_le_right _ _))
              (le_min (le_trans hmm a0) (min_le_right _ _))
          refine ⟨?_, le_trans (min_le_left _ _) b0, le_trans hmm a1, b1, e⟩
          rw [e]
      · simp only [hd, hn0, or_self, if_false]
        have hge : st.dmin ≤ d := not_lt.mp hd
        by_cases hb : bit_of st.s (bps - k - 1) = true
        · simp only [hb, if_true, Bool.true_eq_false, if_false, forall_true_left,
            false_implies, and_true]
          have e : min (st.dmin_1.getD k 0) d = st.dmin_1.getD k 0 :=
            min_eq_left (by rw [c1 hb]; exact le_trans (min_le_right _ _) hge)
          rw [e]
          exact ⟨a0, b0, a1, b1, c1 hb⟩
        · have hb' : bit_of st.s (bps - k - 1) = false := by simpa using hb
          simp only [hb', if_true, Bool.false_eq_true, if_false, forall_true_left,
            false_implies, true_and]
          have e : min (st.dmin_0.getD k 0) d = st.dmin_0.getD k 0 :=
            min_eq_left (by rw [c0 hb']; exact le_trans (min_le_right _ _) hge)
          rw [e]
          exact ⟨a0, b0, a1, b1, c0 hb'⟩

theorem arb_soft_bit_get (lib : Lib) (q : modem) (r : Cplx) (k : Nat) (hk : k < q.m) :
    (modem_demodulate_soft_arb lib q r).soft_bits.getD k 0
      = soft_bit_assign ((arb_scan q r).dmin_0.getD k 0) ((arb_scan q r).dmin_1.getD k 0) := by
  rw [arb_soft_bits_eq, List.getD_eq_getElem?_getD, List.getElem?_map, List.getElem?_range hk]
  rfl

/-- Every per-bit minimum of the scan lies in `[0, 4]`. -/
theorem arb_dmin_range (q : modem) (r : Cplx) (k : Nat) (hk : k < q.m) :
    (0 ≤ (arb_scan q r).dmin_0.getD k 0 ∧ (arb_scan q r).dmin_0.getD k 0 ≤ 4) ∧
    (0 ≤ (arb_scan q r).dmin_1.getD k 0 ∧ (arb_scan q r).dmin_1.getD k 0 ≤ 4) := by
  rcases Nat.eq_zero_or_pos q.M with h0 | hpos
  · have e : arb_scan q r
        = { s := 0, dmin := 0, dmin_0 := List.replicate q.m 4,
            dmin_1 := List.replicate q.m 4 } := by
      unfold arb_scan
      rw [h0]
      rfl
    have e4 : (List.replicate q.m (4 : ℚ)).getD k 0 = 4 := by
      simp [List.getD_eq_getElem?_getD, hk]
    rw [e]
    simp only [e4]
    norm_num
  · obtain ⟨_, hdmin, _, _⟩ := arb_fold_hard q.symbol_map q.m r
      { s := 0, dmin := 0, dmin_0 := List.replicate q.m 4, dmin_1 := List.replicate q.m 4 }
      q.M hpos
    obtain ⟨_, _, inv⟩ := arb_fold_classes q.symbol_map q.m r q.M hpos
    obtain ⟨a0, b0, a1, b1, _, _⟩ := inv k hk
    rw [← arb_scan_eq_upto] at a0 b0 a1 b1
    have hD : (arb_scan q r).dmin
        = dist2 r (q.symbol_map.getD (arb_scan q r).s default) := hdmin
    have hnn : 0 ≤ min 4 (arb_scan q r).dmin := by
      rw [hD]
      exact le_min (by norm_num) (dist2_nonneg _ _)
    exact ⟨⟨le_trans hnn a0, b0⟩, ⟨le_trans hnn a1, b1⟩⟩

/-! ## The minima of the table path as folds -/

theorem foldl_min_least (l : List ℚ) : ∀ a : ℚ, is_least_of (l.foldl min a) (a :: l) := by
  induction l with
  | nil =>
    intro a
    refine ⟨List.mem_singleton.mpr rfl, fun x hx => ?_⟩
    rw [List.mem_singleton.mp hx]
    exact le_refl a
  | cons x xs ih =>
    intro a
    obtain ⟨hmem, hle⟩ := ih (min a x)
    rw [List.foldl_cons]
    constructor
    · rcases List.mem_cons.mp hmem with h | h
      · rw [h]
        rcases min_choice a x with e | e
        · rw [e]; exact List.mem_cons_self _ _
        · rw [e]; exact List.mem_cons_of_mem _ (List.mem_cons_self _ _)
      · exact List.mem_cons_of_mem _ (List.mem_cons_of_mem _ h)
    · intro y hy
      rcases List.mem_cons.mp hy with h | h
      · rw [h]; exact le_trans (hle _ (List.mem_cons_self _ _)) (min_le_left _ _)
      · rcases List.mem_cons.mp h with h' | h'
        · rw [h']; exact le_trans (hle _ (List.mem_cons_self _ _)) (min_le_right _ _)
        · exact hle _ (List.mem_cons_of_mem _ h')

/-- One pass of the loop over the neighbours, with the comparisons written
as minima. -/
theorem table_neighbor_step_eq (lib : Lib) (d : modem) (r : Cplx) (s bps : Nat)
    (softab : List Nat) (p k : Nat) (st : ℚ × ℚ) (i : Nat) :
    table_neighbor_step lib d r s bps softab p k st i
      = if bit_of (softab.getD (s * p + i) 0) (bps - k - 1) then
          (st.1, min st.2 (dist2 r (table_remodulate lib d (softab.getD (s * p + i) 0))))
        else
          (min st.1 (dist2 r (table_remodulate lib d (softab.getD (s * p + i) 0))), st.2) := by
  show (if bit_of (softab.getD (s * p + i) 0) (bps - k - 1) then
      (st.1, if dist2 r (table_remodulate lib d (softab.getD (s * p + i) 0)) < st.2
        then dist2 r (table_remodulate lib d (softab.getD (s * p + i) 0)) else st.2)
    else
      (if dist2 r (table_remodulate lib d (softab.getD (s * p + i) 0)) < st.1
        then dist2 r (table_remodulate lib d (softab.getD (s * p + i) 0)) else st.1, st.2)) = _
  rw [ite_lt_eq_min, ite_lt_eq_min]

/-- The loop over the neighbours (lines 133-155), run over any list of
neighbour numbers: each minimum is folded with the distances of the
neighbours of its class. -/
theorem table_fold_spec (lib : Lib) (d : modem) (r : Cplx) (s bps : Nat) (softab : List Nat)
    (p k : Nat) (is : List Nat) : ∀ st : ℚ × ℚ,
    is.foldl (table_neighbor_step lib d r s bps softab p k) st
      = ((((is.map fun i => softab.getD (s * p + i) 0).filter
            fun j => bit_of j (bps - k - 1) == false).map
            fun j => dist2 r (table_remodulate lib d j)).foldl min st.1,
         (((is.map fun i => softab.getD (s * p + i) 0).filter
            fun j => bit_of j (bps - k - 1) == true).map
            fun j => dist2 r (table_remodulate lib d j)).foldl min st.2) := by
  have e1 : (true == false) = false := rfl
  have e2 : (true == true) = true := rfl
  have e3 : (false == false) = true := rfl
  have e4 : (false == true) = false := rfl
  induction is with
  | nil => intro st; rfl
  | cons i is ih =>
    intro st
    rw [List.foldl_cons, ih, table_neighbor_step_eq]
    by_cases hb : bit_of (softab.getD (s * p + i) 0) (bps - k - 1) = true
    · simp only [List.map_cons, List.filter_cons, hb, e1, e2, if_true, List.foldl_cons,
        Bool.false_eq_true, if_false]
    · have hb' : bit_of (softab.getD (s * p + i) 0) (bps - k - 1) = false := by simpa using hb
      simp only [List.map_cons, List.filter_cons, hb', e3, e4, if_true, List.foldl_cons,
        Bool.false_eq_true, if_false]

/-- The pair of minima at line 162 as two folds. -/
theorem table_dmin_eq (lib : Lib) (d : modem) (r : Cplx) (s bps : Nat) (softab : List Nat)
    (p k : Nat) :
    table_dmin lib d r s bps softab p k
      = if bit_of s (bps - k - 1) then
          ((table_class_distances lib d r s bps softab p k false).foldl min 1,
           (table_class_distances lib d r s bps softab p k true).foldl min (dist2 r d.x_hat))
        else
          ((table_class_distances lib d r s bps softab p k false).foldl min (dist2 r d.x_hat),
           (table_class_distances lib d r s bps softab p k true).foldl min 1) := by
  unfold table_dmin
  simp only [table_fold_spec]
  by_cases hb : bit_of s (bps - k - 1) = true
  · simp only [hb, if_true]
    rfl
  · have hb' : bit_of s (bps - k - 1) = false := by simpa using hb
    simp only [hb', Bool.false_eq_true, if_false]
    rfl

/-- The minima of the table path are not negative, and one of them, that of
the class opposite to the hard decision, is at most the initial value 1. -/
theorem table_dmin_range (lib : Lib) (d : modem) (r : Cplx) (s bps : Nat) (softab : List Nat)
    (p k : Nat) :
    0 ≤ (table_dmin lib d r s bps softab p k).1 ∧
    0 ≤ (table_dmin lib d r s bps softab p k).2 ∧
    ((table_dmin lib d r s bps softab p k).1 ≤ 1 ∨
      (table_dmin lib d r s bps softab p k).2 ≤ 1) := by
  have key : ∀ (b : Bool) (x : ℚ), x ∈ table_class_distances lib d r s bps softab p k b →
      0 ≤ x := by
    intro b x hx
    unfold table_class_distances at hx
    obtain ⟨j, _, hj⟩ := List.mem_map.mp hx
    rw [← hj]
    exact dist2_nonneg _ _
  have hnn : ∀ (b : Bool) (a : ℚ), 0 ≤ a →
      0 ≤ (table_class_distances lib d r s bps softab p k b).foldl min a := by
    intro b a ha
    obtain ⟨hmem, _⟩ := foldl_min_least (table_class_distances lib d r s bps softab p k b) a
    rcases List.mem_cons.mp hmem with h | h
    · rw [h]; exact ha
    · exact key b _ h
  have hle : ∀ (b : Bool) (a : ℚ),
      (table_class_distances lib d r s bps softab p k b).foldl min a ≤ a := by
    intro b a
    exact (foldl_min_least (table_class_distances lib d r s bps softab p k b) a).2 a
      (List.mem_cons_self _ _)
  rw [table_dmin_eq]
  by_cases hb : bit_of s (bps - k - 1) = true
  · rw [if_pos hb]
    exact ⟨hnn false 1 (by norm_num), hnn true _ (dist2_nonneg _ _), Or.inl (hle false 1)⟩
  · rw [if_neg hb]
    exact ⟨hnn false _ (dist2_nonneg _ _), hnn true 1 (by norm_num), Or.inr (hle true 1)⟩

/-! ## Objects that differ only in `x_hat` and `r` -/

theorem same_configuration_symm {q1 q2 : modem} (h : same_configuration q1 q2) :
    same_configuration q2 q1 := by
  obtain ⟨a, b, c, d, e, f, g⟩ := h
  exact ⟨a.symm, b.symm, c.symm, d.symm, e.symm, f.symm, g.symm⟩

theorem same_configuration_trans {q1 q2 q3 : modem} (h : same_configuration q1 q2)
    (h' : same_configuration q2 q3) : same_configuration q1 q3 := by
  obtain ⟨a, b, c, d, e, f, g⟩ := h
  obtain ⟨a', b', c', d', e', f', g'⟩ := h'
  exact ⟨a.trans a', b.trans b', c.trans c', d.trans d', e.trans e', f.trans f', g.trans g'⟩

theorem same_configuration_update (q : modem) (a b : Cplx) :
    same_configuration { q with x_hat := a, r := b } q :=
  ⟨rfl, rfl, rfl, rfl, rfl, rfl, rfl⟩

theorem arb_scan_congr {q1 q2 : modem} (h : same_configuration q1 q2) (r : Cplx) :
    arb_scan q1 r = arb_scan q2 r := by
  obtain ⟨_, hm, hM, hmap, _, _, _⟩ := h
  simp only [arb_scan, hm, hM, hmap]

theorem table_dmin_congr (lib : Lib) {d1 d2 : modem} (h : same_configuration d1 d2)
    (hx : d1.x_hat = d2.x_hat) (hmod : ∀ s, lib.modem_modulate d1 s = lib.modem_modulate d2 s)
    (r : Cplx) (s bps : Nat) (softab : List Nat) (p k : Nat) :
    table_dmin lib d1 r s bps softab p k = table_dmin lib d2 r s bps softab p k := by
  obtain ⟨_, _, _, hmap, huse, _, _⟩ := h
  have hstep : table_neighbor_step lib d1 r s bps softab p k
      = table_neighbor_step lib d2 r s bps softab p k := by
    funext st i
    simp only [table_neighbor_step, hmap, huse, hmod]
  simp only [table_dmin, hstep, hx]

/-- The outputs of the arbitrary, BPSK and QPSK paths on two objects that
differ at most in `x_hat` and `r`. -/
theorem scan_paths_agree (lib : Lib) (q1 q2 : modem) (x : Cplx)
    (hcfg : same_configuration q1 q2) :
    outputs (modem_demodulate_soft_arb lib q1 x)
      = outputs (modem_demodulate_soft_arb lib q2 x) ∧
    outputs (modem_demodulate_soft_bpsk lib q1 x)
      = outputs (modem_demodulate_soft_bpsk lib q2 x) ∧
    outputs (modem_demodulate_soft_qpsk lib q1 x)
      = outputs (modem_demodulate_soft_qpsk lib q2 x) := by
  refine ⟨?_, rfl, rfl⟩
  have hs : (modem_demodulate_soft_arb lib q1 x).s = (modem_demodulate_soft_arb lib q2 x).s := by
    rw [arb_s_eq, arb_s_eq, arb_scan_congr hcfg]
  have hbits : (modem_demodulate_soft_arb lib q1 x).soft_bits
      = (modem_demodulate_soft_arb lib q2 x).soft_bits := by
    rw [arb_soft_bits_eq, arb_soft_bits_eq, arb_scan_congr hcfg, hcfg.2.1]
  exact Prod.ext hs hbits

/-- The outputs of the table path on two objects that differ at most in
`x_hat` and `r`, for a hard demodulator and a modulator that keep to their
contract. -/
theorem table_path_agrees (lib : Lib) (q1 q2 : modem) (x : Cplx)
    (hcfg : same_configuration q1 q2) (hlib : demodulator_contract lib) :
    outputs (modem_demodulate_soft_table lib q1 x)
      = outputs (modem_demodulate_soft_table lib q2 x) := by
  obtain ⟨⟨hframe, hsym⟩, hxhat, hmod⟩ := hlib
  have hs : (lib.modem_demodulate q1 x).2 = (lib.modem_demodulate q2 x).2 := hsym q1 q2 x hcfg
  have hpost : same_configuration (lib.modem_demodulate q1 x).1 (lib.modem_demodulate q2 x).1 :=
    same_configuration_trans (same_configuration_symm (hframe q1 x))
      (same_configuration_trans hcfg (hframe q2 x))
  have hx : (lib.modem_demodulate q1 x).1.x_hat = (lib.modem_demodulate q2 x).1.x_hat := by
    rw [hxhat q1 x, hxhat q2 x, hs, hmod q1 q2 _ hcfg]
  have hbits : (modem_demodulate_soft_table lib q1 x).soft_bits
      = (modem_demodulate_soft_table lib q2 x).soft_bits := by
    rw [table_soft_bits_eq, table_soft_bits_eq, hs, hpost.2.1, hpost.2.2.2.2.2.1,
      hpost.2.2.2.2.2.2]
    apply List.map_congr_left
    intro k _
    rw [table_dmin_congr lib hpost hx (fun s => hmod _ _ s hpost)]
  exact Prod.ext hs hbits

/-- The outputs of the copy of the hard-demodulated bits (lines 60-69) on two
objects that differ at most in `x_hat` and `r`. -/
theorem copy_path_agrees (lib : Lib) (q1 q2 : modem) (x : Cplx)
    (hcfg : same_configuration q1 q2) (hf : keeps_configuration lib.demodulate_func) :
    outputs (modem_demodulate_soft_copy lib q1 x)
      = outputs (modem_demodulate_soft_copy lib q2 x) := by
  obtain ⟨hframe, hsym⟩ := hf
  have hs : (lib.demodulate_func q1 x).2 = (lib.demodulate_func q2 x).2 := hsym q1 q2 x hcfg
  have hm : (lib.demodulate_func q1 x).1.m = (lib.demodulate_func q2 x).1.m :=
    (same_configuration_trans (same_configuration_symm (hframe q1 x))
      (same_configuration_trans hcfg (hframe q2 x))).2.1
  simp only [outputs, modem_demodulate_soft_copy, hs, hm]

/-- The outputs of `modem_demodulate_soft` on two objects that differ at most
in `x_hat` and `r`. -/
theorem dispatcher_agrees (lib : Lib) (q1 q2 : modem) (x : Cplx)
    (hcfg : same_configuration q1 q2) (hlib : demodulator_contract lib)
    (hf : keeps_configuration lib.demodulate_func) :
    outputs (modem_demodulate_soft lib q1 x) = outputs (modem_demodulate_soft lib q2 x) := by
  have hsch : q2.scheme = q1.scheme := hcfg.1.symm
  have hnb : q2.demod_soft_neighbors = q1.demod_soft_neighbors := hcfg.2.2.2.2.2.1.symm
  have hp : q2.demod_soft_p = q1.demod_soft_p := hcfg.2.2.2.2.2.2.symm
  unfold modem_demodulate_soft
  rw [hsch, hnb, hp]
  cases q1.scheme with
  | LIQUID_MODEM_ARB => exact (scan_paths_agree lib q1 q2 x hcfg).1
  | LIQUID_MODEM_BPSK => exact (scan_paths_agree lib q1 q2 x hcfg).2.1
  | LIQUID_MODEM_QPSK => exact (scan_paths_agree lib q1 q2 x hcfg).2.2
  | LIQUID_MODEM_OTHER c =>
    by_cases hc : q1.demod_soft_neighbors ≠ none ∧ q1.demod_soft_p ≠ 0
    · rw [if_pos hc, if_pos hc]
      exact table_path_agrees lib q1 q2 x hcfg hlib
    · rw [if_neg hc, if_neg hc]
      exact copy_path_agrees lib q1 q2 x hcfg hf

/-- The object `modem_demodulate_soft` leaves differs from the incoming one at
most in `x_hat` and `r`. -/
theorem dispatcher_keeps_configuration (lib : Lib) (q : modem) (x : Cplx)
    (hlib : demodulator_contract lib) (hf : keeps_configuration lib.demodulate_func) :
    same_configuration (modem_demodulate_soft lib q x).demod q := by
  unfold modem_demodulate_soft
  cases q.scheme with
  | LIQUID_MODEM_ARB => exact same_configuration_update q _ _
  | LIQUID_MODEM_BPSK => exact same_configuration_update q _ _
  | LIQUID_MODEM_QPSK => exact same_configuration_update q _ _
  | LIQUID_MODEM_OTHER c =>
    by_cases hc : q.demod_soft_neighbors ≠ none ∧ q.demod_soft_p ≠ 0
    · rw [if_pos hc]
      exact same_configuration_symm (hlib.1.1 q x)
    · rw [if_neg hc]
      exact same_configuration_symm (hf.1 q x)

/-- The library `lib0` keeps to the contract. -/
theorem lib0_contract :
    demodulator_contract lib0 ∧ keeps_configuration lib0.demodulate_func := by
  refine ⟨⟨⟨?_, ?_⟩, ?_, ?_⟩, ?_, ?_⟩
  · intro d y
    exact same_configuration_symm (same_configuration_update d _ _)
  · intro d1 d2 y _
    rfl
  · intro d y
    rfl
  · intro d1 d2 s h
    show d1.symbol_map.getD s default = d2.symbol_map.getD s default
    rw [h.2.2.2.1]
  · intro d y
    exact same_configuration_symm (same_configuration_update d _ _)
  · intro d1 d2 y _
    rfl

/-! ## C1: range of the outputs -/

/-- C1: for every library, every correctly configured state (`M = 2^m` with
a symbol map of `M` points; `M = 2` when the scheme is BPSK and `M = 4` when
it is QPSK; hard demodulators that return a symbol below `M`) and every
sample: every soft bit emitted by the table, arbitrary, BPSK and QPSK paths
is at most 255; the hard symbol of the table path and of the arbitrary path
is below `M`, that of the BPSK path is below `M` on a BPSK state and that of
the QPSK path is below `M` on a QPSK state; and `modem_demodulate_soft`, which
calls the four paths, returns soft bits of at most 255 and a hard symbol
below `M`. -/
theorem C1_soft_outputs_in_range (lib : Lib) (q : modem) (x : Cplx)
    (hM : q.M = 2 ^ q.m) (_hlen : q.symbol_map.length = q.M)
    (hbpsk : q.scheme = .LIQUID_MODEM_BPSK → q.M = 2)
    (hqpsk : q.scheme = .LIQUID_MODEM_QPSK → q.M = 4)
    (hhard : (lib.modem_demodulate q x).2 < q.M)
    (hfunc : (lib.demodulate_func q x).2 < q.M) :
    ((∀ b ∈ (modem_demodulate_soft_table lib q x).soft_bits, b ≤ 255) ∧
      (modem_demodulate_soft_table lib q x).s < q.M) ∧
    ((∀ b ∈ (modem_demodulate_soft_arb lib q x).soft_bits, b ≤ 255) ∧
      (modem_demodulate_soft_arb lib q x).s < q.M) ∧
    ((∀ b ∈ (modem_demodulate_soft_bpsk lib q x).soft_bits, b ≤ 255) ∧
      (q.scheme = .LIQUID_MODEM_BPSK → (modem_demodulate_soft_bpsk lib q x).s < q.M)) ∧
    ((∀ b ∈ (modem_demodulate_soft_qpsk lib q x).soft_bits, b ≤ 255) ∧
      (q.scheme = .LIQUID_MODEM_QPSK → (modem_demodulate_soft_qpsk lib q x).s < q.M)) ∧
    ((∀ b ∈ (modem_demodulate_soft lib q x).soft_bits, b ≤ 255) ∧
      (modem_demodulate_soft lib q x).s < q.M) := by
  have hpos : 0 < q.M := by rw [hM]; exact Nat.pow_pos (by norm_num)
  have htab : ∀ b ∈ (modem_demodulate_soft_table lib q x).soft_bits, b ≤ 255 := by
    intro b hb
    rw [table_soft_bits_eq, List.mem_map] at hb
    obtain ⟨k, _, rfl⟩ := hb
    exact soft_bit_assign_le _ _
  have harb : ∀ b ∈ (modem_demodulate_soft_arb lib q x).soft_bits, b ≤ 255 := by
    intro b hb
    rw [arb_soft_bits_eq, List.mem_map] at hb
    obtain ⟨k, _, rfl⟩ := hb
    exact soft_bit_assign_le _ _
  have harbs : (modem_demodulate_soft_arb lib q x).s < q.M := by
    rw [arb_s_eq]
    exact (arb_fold_hard q.symbol_map q.m x _ q.M hpos).1
  have hbp : ∀ b ∈ (modem_demodulate_soft_bpsk lib q x).soft_bits, b ≤ 255 := by
    intro b hb
    simp only [modem_demodulate_soft_bpsk, List.mem_singleton] at hb
    rw [hb]
    exact tanh_soft_bit_le _ _
  have hbps : (modem_demodulate_soft_bpsk lib q x).s < 2 := by
    simp only [modem_demodulate_soft_bpsk]
    split <;> omega
  have hqp : ∀ b ∈ (modem_demodulate_soft_qpsk lib q x).soft_bits, b ≤ 255 := by
    intro b hb
    simp only [modem_demodulate_soft_qpsk, List.mem_cons, List.mem_singleton,
      List.mem_nil_iff, or_false] at hb
    rcases hb with hb | hb <;> rw [hb] <;> exact tanh_soft_bit_le _ _
  have hqps : (modem_demodulate_soft_qpsk lib q x).s < 4 := by
    simp only [modem_demodulate_soft_qpsk]
    split <;> split <;> omega
  have hcp : ∀ b ∈ (modem_demodulate_soft_copy lib q x).soft_bits, b ≤ 255 := by
    intro b hb
    simp only [modem_demodulate_soft_copy, List.mem_map] at hb
    obtain ⟨i, _, rfl⟩ := hb
    split
    · exact le_refl 255
    · exact Nat.zero_le 255
  refine ⟨⟨htab, hhard⟩, ⟨harb, harbs⟩, ⟨hbp, fun h => by rw [hbpsk h]; exact hbps⟩,
    ⟨hqp, fun h => by rw [hqpsk h]; exact hqps⟩, ?_⟩
  unfold modem_demodulate_soft
  cases hs : q.scheme with
  | LIQUID_MODEM_ARB => exact ⟨harb, harbs⟩
  | LIQUID_MODEM_BPSK => exact ⟨hbp, by rw [hbpsk hs]; exact hbps⟩
  | LIQUID_MODEM_QPSK => exact ⟨hqp, by rw [hqpsk hs]; exact hqps⟩
  | LIQUID_MODEM_OTHER c =>
    by_cases hc : q.demod_soft_neighbors ≠ none ∧ q.demod_soft_p ≠ 0
    · simp only [if_pos hc]
      exact ⟨htab, hhard⟩
    · simp only [if_neg hc]
      exact ⟨hcp, hfunc⟩

/-- Witness of C1: the BPSK modem `modem2` with the sample `1/4` and the QPSK
modem `modem4` with the sample `-1-i`. -/
theorem C1_soft_outputs_in_range_witness :
    (modem2.M = 2 ^ modem2.m ∧ modem2.symbol_map.length = modem2.M ∧ modem2.M = 2 ∧
      (lib0.modem_demodulate modem2 ⟨1 / 4, 0⟩).2 < modem2.M ∧
      (modem_demodulate_soft lib0 modem2 ⟨1 / 4, 0⟩).s < modem2.M) ∧
    (modem4.M = 2 ^ modem4.m ∧ modem4.symbol_map.length = modem4.M ∧ modem4.M = 4 ∧
      (lib0.modem_demodulate modem4 ⟨-1, -1⟩).2 < modem4.M ∧
      (modem_demodulate_soft lib0 modem4 ⟨-1, -1⟩).s < modem4.M) := by
  have h2 : (lib0.modem_demodulate modem2 ⟨1 / 4, 0⟩).2 < modem2.M := by
    norm_num [lib0, modem2]
  have h4 : (lib0.modem_demodulate modem4 ⟨-1, -1⟩).2 < modem4.M := by
    norm_num [lib0, modem4]
  exact ⟨⟨rfl, rfl, rfl, h2,
      (C1_soft_outputs_in_range lib0 modem2 ⟨1 / 4, 0⟩ rfl rfl (fun _ => rfl)
        (fun h => absurd h (by decide)) h2 h2).2.2.2.2.2⟩,
    ⟨rfl, rfl, rfl, h4,
      (C1_soft_outputs_in_range lib0 modem4 ⟨-1, -1⟩ rfl rfl
        (fun h => absurd h (by decide)) (fun _ => rfl) h4 h4).2.2.2.2.2⟩⟩

/-! ## C2: the hard decision of the arbitrary path -/

theorem dist2_c2_pos : dist2 ⟨-(1 / 67108864), 0⟩ ⟨1, 0⟩ = 1 := by
  have h1 : f32_round (-(1 / 67108864) - 1) = -1 := by
    rw [f32_round_eval _ (0) (-8388608)] <;> norm_num
  have h2 : f32_round (-1 * (-1)) = 1 := by
    rw [f32_round_eval _ (0) (8388608)] <;> norm_num
  have h3 : f32_round (1) = 1 := by
    rw [f32_round_eval _ (0) (8388608)] <;> norm_num
  rw [dist2_real, h1, h2, h3]

theorem dist2_c2_neg : dist2 ⟨-(1 / 67108864), 0⟩ ⟨-1, 0⟩ = 1 := by
  have h1 : f32_round (-(1 / 67108864) - -1) = 1 := by
    rw [f32_round_eval _ (-1) (16777216)] <;> norm_num
  have h2 : f32_round (1 * 1) = 1 := by
    rw [f32_round_eval _ (0) (8388608)] <;> norm_num
  have h3 : f32_round (1) = 1 := by
    rw [f32_round_eval _ (0) (8388608)] <;> norm_num
  rw [dist2_real, h1, h2, h3]

/-- The scan of `modem2` for the sample `-2^-26`: both computed distances are
`1.0`, and the scan keeps symbol 0. -/
theorem arb_scan_modem2_tiny :
    arb_scan modem2 ⟨-(1 / 67108864), 0⟩
      = { s := 0, dmin := 1, dmin_0 := [1], dmin_1 := [4] } := by
  rw [arb_scan_two modem2 _ ⟨1, 0⟩ ⟨-1, 0⟩ rfl rfl rfl, dist2_c2_pos, dist2_c2_neg]
  norm_num

/-- C2 (as amended): for every state with `M ≥ 1` and every sample `r`, the
hard symbol `s` of `modem_demodulate_soft_arb` is below `M`, the squared
distance from `r` to `symbol_map[s]` as the source computes it (in single
precision) is at most the computed squared distance to `symbol_map[i]` for
every `i < M`, and `s` is the least index whose computed distance attains
that minimum. -/
theorem C2_arb_hard_decision_nearest (lib : Lib) (q : modem) (r : Cplx) (hM : 1 ≤ q.M) :
    (modem_demodulate_soft_arb lib q r).s < q.M ∧
    (∀ i, i < q.M →
      dist2 r (q.symbol_map.getD (modem_demodulate_soft_arb lib q r).s default)
        ≤ dist2 r (q.symbol_map.getD i default)) ∧
    (∀ i, i < q.M →
      dist2 r (q.symbol_map.getD i default)
        = dist2 r (q.symbol_map.getD (modem_demodulate_soft_arb lib q r).s default) →
      (modem_demodulate_soft_arb lib q r).s ≤ i) := by
  obtain ⟨h1, _, h3, h4⟩ := arb_fold_hard q.symbol_map q.m r
    { s := 0, dmin := 0, dmin_0 := List.replicate q.m 4, dmin_1 := List.replicate q.m 4 } q.M hM
  rw [arb_s_eq]
  refine ⟨h1, h3, ?_⟩
  intro i _ heq
  by_contra hlt
  have := h4 i (not_le.mp hlt)
  rw [heq] at this
  exact lt_irrefl _ this

/-- Witness of C2: the two-point constellation and the sample `-2^-26`, for
which the hard symbol is 0. -/
theorem C2_arb_hard_decision_nearest_witness :
    1 ≤ modem2.M ∧
    (modem_demodulate_soft_arb lib0 modem2 ⟨-(1 / 67108864), 0⟩).s = 0 ∧
    dist2 ⟨-(1 / 67108864), 0⟩
        (modem2.symbol_map.getD (modem_demodulate_soft_arb lib0 modem2 ⟨-(1 / 67108864), 0⟩).s
          default)
      ≤ dist2 ⟨-(1 / 67108864), 0⟩ (modem2.symbol_map.getD 1 default) := by
  have hs : (modem_demodulate_soft_arb lib0 modem2 ⟨-(1 / 67108864), 0⟩).s = 0 := by
    rw [arb_s_eq, arb_scan_modem2_tiny]
  exact ⟨by decide, hs,
    (C2_arb_hard_decision_nearest lib0 modem2 ⟨-(1 / 67108864), 0⟩ (by decide)).2.1 1
      (by decide)⟩

/-- C2 fails as stated: for the constellation `+1, -1` and the sample
`-2^-26 + 0i` (a binary32 value) the source computes the squared distance
`1.0` to both points and returns the hard symbol 0, although the point of
symbol 1 is strictly nearer in exact squared distance. -/
theorem C2_counterexample :
    modem2.symbol_map = [⟨1, 0⟩, ⟨-1, 0⟩] ∧ 1 ≤ modem2.M ∧
    dist2 ⟨-(1 / 67108864), 0⟩ ⟨1, 0⟩ = 1 ∧ dist2 ⟨-(1 / 67108864), 0⟩ ⟨-1, 0⟩ = 1 ∧
    (modem_demodulate_soft_arb lib0 modem2 ⟨-(1 / 67108864), 0⟩).s = 0 ∧
    dist2_exact ⟨-(1 / 67108864), 0⟩ (modem2.symbol_map.getD 1 default)
      < dist2_exact ⟨-(1 / 67108864), 0⟩ (modem2.symbol_map.getD 0 default) := by
  refine ⟨rfl, by decide, dist2_c2_pos, dist2_c2_neg, ?_, ?_⟩
  · rw [arb_s_eq, arb_scan_modem2_tiny]
  · norm_num [dist2_exact, modem2]

/-! ## C3: routing of `modem_demodulate_soft` -/

/-- C3: on every state in which a positive neighbour count comes with a
neighbour table (the data model: the table is there whenever the count is
positive), `modem_demodulate_soft` gives the result of the arbitrary path for
the scheme `LIQUID_MODEM_ARB`, of the BPSK path for `LIQUID_MODEM_BPSK`, of
the QPSK path for `LIQUID_MODEM_QPSK`, whatever the neighbour table; for any
other scheme it gives the result of the table path when the neighbour count
is positive, and the copy of the hard-demodulated bits otherwise. -/
theorem C3_routing (lib : Lib) (q : modem) (x : Cplx)
    (hvalid : 0 < q.demod_soft_p → q.demod_soft_neighbors ≠ none) :
    (q.scheme = .LIQUID_MODEM_ARB →
      modem_demodulate_soft lib q x = modem_demodulate_soft_arb lib q x) ∧
    (q.scheme = .LIQUID_MODEM_BPSK →
      modem_demodulate_soft lib q x = modem_demodulate_soft_bpsk lib q x) ∧
    (q.scheme = .LIQUID_MODEM_QPSK →
      modem_demodulate_soft lib q x = modem_demodulate_soft_qpsk lib q x) ∧
    (∀ c, q.scheme = .LIQUID_MODEM_OTHER c → 0 < q.demod_soft_p →
      modem_demodulate_soft lib q x = modem_demodulate_soft_table lib q x) ∧
    (∀ c, q.scheme = .LIQUID_MODEM_OTHER c → ¬ 0 < q.demod_soft_p →
      modem_demodulate_soft lib q x = modem_demodulate_soft_copy lib q x) := by
  refine ⟨?_, ?_, ?_, ?_, ?_⟩
  · intro h; simp [modem_demodulate_soft, h]
  · intro h; simp [modem_demodulate_soft, h]
  · intro h; simp [modem_demodulate_soft, h]
  · intro c h hp
    have hp0 : q.demod_soft_p ≠ 0 := Nat.pos_iff_ne_zero.mp hp
    have hn := hvalid hp
    simp [modem_demodulate_soft, h, hn, hp0]
  · intro c h hp
    have hc : ¬ (q.demod_soft_neighbors ≠ none ∧ q.demod_soft_p ≠ 0) := by
      rintro ⟨_, h2⟩
      exact hp (Nat.pos_of_ne_zero h2)
    simp only [modem_demodulate_soft, h, hc, if_false]

/-- Witness of C3: the modem `modem2_other`, of a scheme other than the three
named ones, with a neighbour table and the neighbour count 1, is routed to
the table path. -/
theorem C3_routing_witness :
    (0 < modem2_other.demod_soft_p → modem2_other.demod_soft_neighbors ≠ none) ∧
    0 < modem2_other.demod_soft_p ∧
    modem_demodulate_soft lib0 modem2_other ⟨1 / 4, 0⟩
      = modem_demodulate_soft_table lib0 modem2_other ⟨1 / 4, 0⟩ :=
  ⟨fun _ => by decide, by decide,
    (C3_routing lib0 modem2_other ⟨1 / 4, 0⟩ (fun _ => by decide)).2.2.2.1 0 rfl (by decide)⟩

/-! ## C4: the soft bits of the analytic paths against the hard symbol -/

/-- C4 (the code at the failing inputs): for every sample with positive real
and imaginary part, where `tanhf` lies in `[1/100, 1]` at the three arguments the
source passes to it, the BPSK path returns the hard symbol 0, whose bit is 0,
with a soft bit above 127, and the QPSK path returns the hard symbol 0, whose
two bits are 0, with both soft bits above 127. -/
theorem C4_analytic_soft_bits_oppose_hard_symbol (lib : Lib) (q : modem) (x : Cplx)
    (hx : 0 < x.re) (hy : 0 < x.im)
    (hb : 1 / 100 ≤ lib.tanhf x.re ∧ lib.tanhf x.re ≤ 1)
    (hq0 : 1 / 100 ≤ lib.tanhf (14142 / 10000 * x.re) ∧ lib.tanhf (14142 / 10000 * x.re) ≤ 1)
    (hq1 : 1 / 100 ≤ lib.tanhf (14142 / 10000 * x.im) ∧ lib.tanhf (14142 / 10000 * x.im) ≤ 1) :
    ((modem_demodulate_soft_bpsk lib q x).s = 0 ∧
      Nat.testBit (modem_demodulate_soft_bpsk lib q x).s 0 = false ∧
      ∃ b, (modem_demodulate_soft_bpsk lib q x).soft_bits = [b] ∧ 127 < b) ∧
    ((modem_demodulate_soft_qpsk lib q x).s = 0 ∧
      Nat.testBit (modem_demodulate_soft_qpsk lib q x).s 1 = false ∧
      Nat.testBit (modem_demodulate_soft_qpsk lib q x).s 0 = false ∧
      ∃ b0 b1, (modem_demodulate_soft_qpsk lib q x).soft_bits = [b0, b1] ∧
        127 < b0 ∧ 127 < b1) := by
  have hgt : ∀ t : ℚ, 1 / 100 ≤ lib.tanhf t → lib.tanhf t ≤ 1 → 127 < tanh_soft_bit lib t := by
    intro t hlo hhi
    rw [tanh_soft_bit_floor lib t (by linarith) hhi]
    have h128 : (128 : ℤ) ≤ ⌊255 * (1 / 2 + 1 / 2 * lib.tanhf t)⌋ := by
      rw [Int.le_floor]; push_cast; linarith
    omega
  have hsb : (modem_demodulate_soft_bpsk lib q x).s = 0 := by
    simp [modem_demodulate_soft_bpsk, crealf, hx]
  have hsq : (modem_demodulate_soft_qpsk lib q x).s = 0 := by
    simp [modem_demodulate_soft_qpsk, crealf, cimagf, hx, hy]
  refine ⟨⟨hsb, by rw [hsb]; rfl, tanh_soft_bit lib x.re, rfl, hgt _ hb.1 hb.2⟩,
    hsq, by rw [hsq]; rfl, by rw [hsq]; rfl, tanh_soft_bit lib (14142 / 10000 * x.re),
    tanh_soft_bit lib (14142 / 10000 * x.im), rfl, hgt _ hq0.1 hq0.2, hgt _ hq1.1 hq1.2⟩

/-- Witness of C4: the sample `1+1i` with the library `lib0`. -/
theorem C4_analytic_soft_bits_oppose_hard_symbol_witness :
    (1 / 100 ≤ lib0.tanhf 1 ∧ lib0.tanhf 1 ≤ 1) ∧
    (1 / 100 ≤ lib0.tanhf (14142 / 10000 * 1) ∧ lib0.tanhf (14142 / 10000 * 1) ≤ 1) ∧
    (modem_demodulate_soft_bpsk lib0 modem2 ⟨1, 1⟩).s = 0 ∧
    (modem_demodulate_soft_qpsk lib0 modem2 ⟨1, 1⟩).s = 0 := by
  have h1 : 1 / 100 ≤ lib0.tanhf 1 ∧ lib0.tanhf 1 ≤ 1 := by
    rw [lib0_tanhf_one]; norm_num
  have h2 : 1 / 100 ≤ lib0.tanhf (14142 / 10000 * 1) ∧ lib0.tanhf (14142 / 10000 * 1) ≤ 1 := by
    rw [mul_one, lib0_tanhf_14142]; norm_num
  have h := C4_analytic_soft_bits_oppose_hard_symbol lib0 modem2 ⟨1, 1⟩
    (by norm_num) (by norm_num) h1 h2 h2
  exact ⟨h1, h2, h.1.1, h.2.1⟩

/-! ## C5: the BPSK path -/

/-- C5 (as amended): for every sample `x` the BPSK path returns the hard
symbol 0 if `Re x > 0` and 1 otherwise, and, for a `tanhf` value in `[-1, 1]`,
its single soft bit is `255 * (0.5 + 0.5 * tanhf (Re x))` rounded down to an
integer. -/
theorem C5_bpsk_closed_form (lib : Lib) (q : modem) (x : Cplx)
    (hlo : -1 ≤ lib.tanhf x.re) (hhi : lib.tanhf x.re ≤ 1) :
    (modem_demodulate_soft_bpsk lib q x).s = (if x.re > 0 then 0 else 1) ∧
    (modem_demodulate_soft_bpsk lib q x).soft_bits
      = [⌊255 * (1 / 2 + 1 / 2 * lib.tanhf x.re)⌋.toNat] := by
  refine ⟨rfl, ?_⟩
  simp only [modem_demodulate_soft_bpsk, crealf]
  rw [tanh_soft_bit_floor lib x.re hlo hhi]

/-- Witness of C5: the sample `1+0i` with the library `lib0`. -/
theorem C5_bpsk_closed_form_witness :
    -1 ≤ lib0.tanhf 1 ∧ lib0.tanhf 1 ≤ 1 ∧
    (modem_demodulate_soft_bpsk lib0 modem2 ⟨1, 0⟩).s = 0 :=
  ⟨by rw [lib0_tanhf_one]; norm_num, by rw [lib0_tanhf_one]; norm_num,
    (C5_bpsk_closed_form lib0 modem2 ⟨1, 0⟩
      (by show -1 ≤ lib0.tanhf 1; rw [lib0_tanhf_one]; norm_num)
      (by show lib0.tanhf 1 ≤ 1; rw [lib0_tanhf_one]; norm_num)).1⟩

/-- C5 fails as stated: for the sample `1+0i` and a `tanhf` within `1/1000` of the
hyperbolic tangent, the soft bit is 224, and `255 * (0.5 + 0.5 * tanhf 1)`
rounded to the nearest integer is 225. -/
theorem C5_counterexample :
    |((lib0.tanhf 1 : ℚ) : ℝ) - Real.tanh 1| ≤ 1 / 1000 ∧
    (modem_demodulate_soft_bpsk lib0 modem2 ⟨1, 0⟩).soft_bits = [224] ∧
    round ((255 : ℚ) * (1 / 2 + 1 / 2 * lib0.tanhf 1)) = 225 := by
  refine ⟨lib0_tanhf_one_close, ?_, ?_⟩
  · have : tanh_soft_bit lib0 1 = 224 :=
      tanh_soft_bit_eq_of_bounds lib0 1 224 (by norm_num)
        (by rw [lib0_tanhf_one]; norm_num) (by rw [lib0_tanhf_one]; norm_num)
    simp [modem_demodulate_soft_bpsk, crealf, this]
  · rw [lib0_tanhf_one, round_eq, Int.floor_eq_iff]
    norm_num

/-! ## C6: the QPSK path -/

theorem dist2_c7_pos : dist2 ⟨-(5 / 32), 0⟩ ⟨1, 0⟩ = 1369 / 1024 := by
  have h1 : f32_round (-(5 / 32) - 1) = -(37 / 32) := by
    rw [f32_round_eval _ (0) (-9699328)] <;> norm_num
  have h2 : f32_round (-(37 / 32) * (-(37 / 32))) = 1369 / 1024 := by
    rw [f32_round_eval _ (0) (11214848)] <;> norm_num
  have h3 : f32_round (1369 / 1024) = 1369 / 1024 := by
    rw [f32_round_eval _ (0) (11214848)] <;> norm_num
  rw [dist2_real, h1, h2, h3]

theorem dist2_c7_neg : dist2 ⟨-(5 / 32), 0⟩ ⟨-1, 0⟩ = 729 / 1024 := by
  have h1 : f32_round (-(5 / 32) - -1) = 27 / 32 := by
    rw [f32_round_eval _ (-1) (14155776)] <;> norm_num
  have h2 : f32_round (27 / 32 * (27 / 32)) = 729 / 1024 := by
    rw [f32_round_eval _ (-1) (11943936)] <;> norm_num
  have h3 : f32_round (729 / 1024) = 729 / 1024 := by
    rw [f32_round_eval _ (-1) (11943936)] <;> norm_num
  rw [dist2_real, h1, h2, h3]

/-- The quantisation of the minima `1369/1024` and `729/1024`: the `float` value is
`251.99998...`, not `252`. -/
theorem soft_bit_assign_c7 : soft_bit_assign (1369 / 1024) (729 / 1024) = 251 := by
  have h1 : f32_round (-(729 / 1024) / (10737419 / 134217728)) = -(9331199 / 1048576) := by
    rw [f32_round_eval _ (3) (-9331199)] <;> norm_num
  have h0 : f32_round (-(1369 / 1024) / (10737419 / 134217728)) = -(8761599 / 524288) := by
    rw [f32_round_eval _ (4) (-8761599)] <;> norm_num
  have hw : f32_round (-(9331199 / 1048576) - -(8761599 / 524288)) = 8191999 / 1048576 := by
    rw [f32_round_eval _ (2) (16383998)] <;> norm_num
  have hy : f32_round (8191999 / 1048576 * 16) = 8191999 / 65536 := by
    rw [f32_round_eval _ (6) (16383998)] <;> norm_num
  have hv : f32_round (8191999 / 65536 + 127) = 16515071 / 65536 := by
    rw [f32_round_eval _ (7) (16515071)] <;> norm_num
  have hval : soft_bit_value (1369 / 1024) (729 / 1024) = 16515071 / 65536 := by
    rw [soft_bit_value_eq, h1, h0, hw, hy, hv]
  have hf : ⌊(16515071 / 65536 : ℚ)⌋ = 251 := by
    rw [Int.floor_eq_iff]; norm_num
  rw [soft_bit_assign_of_range _ _ (by rw [hval]; norm_num [abs_lt]), hval, hf]
  decide

/-- The scan of `modem2` for the sample `-5/32`. -/
theorem arb_scan_modem2_c7 :
    arb_scan modem2 ⟨-(5 / 32), 0⟩
      = { s := 1, dmin := 729 / 1024, dmin_0 := [1369 / 1024], dmin_1 := [729 / 1024] } := by
  rw [arb_scan_two modem2 _ ⟨1, 0⟩ ⟨-1, 0⟩ rfl rfl rfl, dist2_c7_pos, dist2_c7_neg]
  norm_num

/-- Two values within `1/1000` of each other have floors that differ by at
most 1, also after the limitation to `[0, 255]`. -/
theorem clamp_floor_close (v w : ℚ) (h : |v - w| ≤ 1 / 1000) :
    (max 0 (min 255 ⌊v⌋)).toNat ≤ (max 0 (min 255 ⌊w⌋)).toNat + 1 ∧
    (max 0 (min 255 ⌊w⌋)).toNat ≤ (max 0 (min 255 ⌊v⌋)).toNat + 1 := by
  obtain ⟨h1, h2⟩ := abs_le.mp h
  have a : ⌊v⌋ ≤ ⌊w⌋ + 1 := by
    have : ⌊v⌋ ≤ ⌊w + 1⌋ := Int.floor_le_floor (by linarith only [h2])
    rwa [Int.floor_add_one] at this
  have b : ⌊w⌋ ≤ ⌊v⌋ + 1 := by
    have : ⌊w⌋ ≤ ⌊v + 1⌋ := Int.floor_le_floor (by linarith only [h1])
    rwa [Int.floor_add_one] at this
  omega

/-- C7 (as amended): in the arbitrary and the table path there are as many
soft bits as bits per symbol, and soft bit `k` is `soft_bit_assign` of the
final minima `dmin_0`, `dmin_1` of bit `k` in that path; the minima are not
negative, on the arbitrary path both are at most 4, and on the table path one
of them is at most 1.  For such minima (not negative, one of them at most 4)
the value `soft_bit_assign` stores is obtained from the single-precision
value `V` of `((-dmin_1/(2.0f*sig*sig)) - (-dmin_0/(2.0f*sig*sig)))*16 + 127`,
in which `2.0f*sig*sig` is `10737419/2^27` and each operation is rounded to
binary32: when `V` is within the range of `int` the stored value is the
integer part of `V` limited to `[0, 255]`; and when both minima are at most 4,
`V` is within `1/1000` of the exact `200 * (dmin_0 - dmin_1) + 127`, so that
the stored value differs by at most 1 from the limited floor of the exact
value. -/
theorem C7_soft_bit_quantisation (lib : Lib) (q : modem) (r : Cplx) :
    ((modem_demodulate_soft_arb lib q r).soft_bits.length = q.m ∧
      ∀ k, k < q.m →
        (modem_demodulate_soft_arb lib q r).soft_bits.getD k 0
          = soft_bit_assign ((arb_scan q r).dmin_0.getD k 0) ((arb_scan q r).dmin_1.getD k 0) ∧
        (0 ≤ (arb_scan q r).dmin_0.getD k 0 ∧ (arb_scan q r).dmin_0.getD k 0 ≤ 4) ∧
        (0 ≤ (arb_scan q r).dmin_1.getD k 0 ∧ (arb_scan q r).dmin_1.getD k 0 ≤ 4)) ∧
    ((modem_demodulate_soft_table lib q r).soft_bits.length = (lib.modem_demodulate q r).1.m ∧
      ∀ k, k < (lib.modem_demodulate q r).1.m → ∀ dm : ℚ × ℚ,
        dm = table_dmin lib (lib.modem_demodulate q r).1 r (lib.modem_demodulate q r).2
              (lib.modem_demodulate q r).1.m
              ((lib.modem_demodulate q r).1.demod_soft_neighbors.getD [])
              (lib.modem_demodulate q r).1.demod_soft_p k →
        (modem_demodulate_soft_table lib q r).soft_bits.getD k 0 = soft_bit_assign dm.1 dm.2 ∧
        0 ≤ dm.1 ∧ 0 ≤ dm.2 ∧ (dm.1 ≤ 1 ∨ dm.2 ≤ 1)) ∧
    (∀ d0 d1 : ℚ, 0 ≤ d0 → 0 ≤ d1 → d0 ≤ 4 ∨ d1 ≤ 4 →
      soft_bit_value d0 d1
        = f32_round (f32_round (f32_round (f32_round (-d1 / (10737419 / 134217728))
            - f32_round (-d0 / (10737419 / 134217728))) * 16) + 127) ∧
      (|soft_bit_value d0 d1| < 2 ^ 31 →
        soft_bit_assign d0 d1 = (max 0 (min 255 ⌊soft_bit_value d0 d1⌋)).toNat) ∧
      (d0 ≤ 4 → d1 ≤ 4 →
        |soft_bit_value d0 d1 - (200 * (d0 - d1) + 127)| ≤ 1 / 1000 ∧
        soft_bit_assign d0 d1 ≤ (max 0 (min 255 ⌊200 * (d0 - d1) + 127⌋)).toNat + 1 ∧
        (max 0 (min 255 ⌊200 * (d0 - d1) + 127⌋)).toNat ≤ soft_bit_assign d0 d1 + 1)) := by
  refine ⟨⟨?_, ?_⟩, ⟨?_, ?_⟩, ?_⟩
  · rw [arb_soft_bits_eq, List.length_map, List.length_range]
  · intro k hk
    exact ⟨arb_soft_bit_get lib q r k hk, arb_dmin_range q r k hk⟩
  · rw [table_soft_bits_eq, List.length_map, List.length_range]
  · intro k hk dm hdm
    rw [hdm]
    refine ⟨?_, table_dmin_range _ _ _ _ _ _ _ _⟩
    rw [table_soft_bits_eq, List.getD_eq_getElem?_getD, List.getElem?_map, List.getElem?_range hk]
    rfl
  · intro d0 d1 hd0 hd1 _
    refine ⟨soft_bit_value_eq d0 d1, soft_bit_assign_of_range d0 d1, ?_⟩
    intro h0 h1
    have hclose := soft_bit_value_close d0 d1 ⟨hd0, h0⟩ ⟨hd1, h1⟩
    have hr : |soft_bit_value d0 d1| < 2 ^ 31 :=
      soft_bit_value_in_range d0 d1
        (by rw [abs_of_nonneg hd0]; linarith only [h0])
        (by rw [abs_of_nonneg hd1]; linarith only [h1])
    rw [soft_bit_assign_of_range d0 d1 hr]
    exact ⟨hclose, clamp_floor_close _ _ hclose⟩

/-- C7 fails as stated: for the constellation `+1, -1` and the sample `-5/32`
the arbitrary path ends with `dmin_0 = 1369/1024` and `dmin_1 = 729/1024` and
emits the soft bit 251, while the expression of the claim is exactly
`200 * (1369/1024 - 729/1024) + 127 = 252`, which rounded to the nearest
integer and limited to `[0, 255]` is 252. -/
theorem C7_counterexample :
    (arb_scan modem2 ⟨-(5 / 32), 0⟩).dmin_0 = [1369 / 1024] ∧
    (arb_scan modem2 ⟨-(5 / 32), 0⟩).dmin_1 = [729 / 1024] ∧
    (modem_demodulate_soft_arb lib0 modem2 ⟨-(5 / 32), 0⟩).soft_bits = [251] ∧
    max 0 (min 255 (round ((((-(729 / 1024) : ℚ) / (2 * (2 / 10) * (2 / 10)))
      - (-(1369 / 1024) / (2 * (2 / 10) * (2 / 10)))) * 16 + 127))) = 252 ∧
    max 0 (min 255 (round ((200 : ℚ) * (1369 / 1024 - 729 / 1024) + 127))) = 252 := by
  refine ⟨by rw [arb_scan_modem2_c7], by rw [arb_scan_modem2_c7], ?_, ?_, ?_⟩
  · rw [arb_soft_bits_one lib0 modem2 _ rfl, arb_scan_modem2_c7]
    simp only [List.getD_cons_zero]
    rw [soft_bit_assign_c7]
  · have e : ((((-(729 / 1024) : ℚ) / (2 * (2 / 10) * (2 / 10)))
        - (-(1369 / 1024) / (2 * (2 / 10) * (2 / 10)))) * 16 + 127) = ((252 : ℤ) : ℚ) := by
      norm_num
    rw [e, round_intCast]
    decide
  · have e : ((200 : ℚ) * (1369 / 1024 - 729 / 1024) + 127) = ((252 : ℤ) : ℚ) := by
      norm_num
    rw [e, round_intCast]
    decide

/-! ## C8: the copy of the hard-demodulated bits -/

/-- C8: when the scheme is none of the three named ones and there is no
neighbour table (or the neighbour count is zero), `modem_demodulate_soft` returns
the symbol of the hard demodulator `demodulate_func` and leaves the object as
that demodulator left it; with `m` the bits per symbol of that object there are
`m` soft bits, soft bit `i` is 255 when bit `m-1-i` of the symbol is 1 and 0
when it is 0, and reading the soft bits most significant first, 255 as 1 and 0
as 0, gives the symbol back when it is below `2^m`. -/
theorem C8_fallback_copies_hard_bits (lib : Lib) (q : modem) (x : Cplx) (c : Nat)
    (hs : q.scheme = .LIQUID_MODEM_OTHER c)
    (hn : q.demod_soft_neighbors = none ∨ q.demod_soft_p = 0) :
    (modem_demodulate_soft lib q x).s = (lib.demodulate_func q x).2 ∧
    (modem_demodulate_soft lib q x).demod = (lib.demodulate_func q x).1 ∧
    (modem_demodulate_soft lib q x).soft_bits.length = (lib.demodulate_func q x).1.m ∧
    (∀ i, i < (lib.demodulate_func q x).1.m →
      (modem_demodulate_soft lib q x).soft_bits.getD i 0
        = if Nat.testBit (lib.demodulate_func q x).2 ((lib.demodulate_func q x).1.m - 1 - i)
          then 255 else 0) ∧
    ((lib.demodulate_func q x).2 < 2 ^ (lib.demodulate_func q x).1.m →
      (modem_demodulate_soft lib q x).soft_bits.foldl
        (fun acc b => 2 * acc + (if b = 255 then 1 else 0)) 0 = (lib.demodulate_func q x).2) := by
  have hroute : modem_demodulate_soft lib q x = modem_demodulate_soft_copy lib q x := by
    have : ¬ (q.demod_soft_neighbors ≠ none ∧ q.demod_soft_p ≠ 0) := by
      rintro ⟨h1, h2⟩
      rcases hn with hn | hn
      · exact h1 hn
      · exact h2 hn
    simp only [modem_demodulate_soft, hs, this, if_false]
  have hbits : (modem_demodulate_soft_copy lib q x).soft_bits
      = (List.range (lib.demodulate_func q x).1.m).map fun i =>
          if Nat.testBit (lib.demodulate_func q x).2 ((lib.demodulate_func q x).1.m - i - 1)
          then 255 else 0 := by
    simp only [modem_demodulate_soft_copy, bit_of_eq_testBit, LIQUID_FEC_SOFTBIT_1,
      LIQUID_FEC_SOFTBIT_0]
  rw [hroute]
  refine ⟨rfl, rfl, ?_, ?_, ?_⟩
  · rw [hbits, List.length_map, List.length_range]
  · intro i hi
    rw [hbits, List.getD_eq_getElem?_getD, List.getElem?_map, List.getElem?_range hi]
    have e : (lib.demodulate_func q x).1.m - i - 1 = (lib.demodulate_func q x).1.m - 1 - i := by
      omega
    simp [e]
  · intro hlt
    rw [hbits, msb_first_value, Nat.mod_eq_of_lt hlt]

/-- Witness of C8: the modem without a neighbour table and the sample `-3/10`,
whose hard symbol is 1. -/
theorem C8_fallback_copies_hard_bits_witness :
    modem_no_table.scheme = .LIQUID_MODEM_OTHER 0 ∧
    (modem_no_table.demod_soft_neighbors = none ∨ modem_no_table.demod_soft_p = 0) ∧
    (modem_demodulate_soft lib0 modem_no_table ⟨-(3 / 10), 0⟩).s
      = (lib0.demodulate_func modem_no_table ⟨-(3 / 10), 0⟩).2 :=
  ⟨rfl, Or.inl rfl,
    (C8_fallback_copies_hard_bits lib0 modem_no_table ⟨-(3 / 10), 0⟩ 0 rfl (Or.inl rfl)).1⟩

/-! ## C9: what the arbitrary, BPSK and QPSK paths store -/

/-- C9: after the arbitrary, BPSK or QPSK path has run on the sample `r`, the
object is the one before the call with `r` in the field `r` and the
modulation of the returned hard symbol in the field `x_hat`, every other
field being as before; for the arbitrary path, when its modulator reads the
symbol map, `x_hat` is `symbol_map[s]`. -/
theorem C9_state_update (lib : Lib) (q : modem) (r : Cplx) :
    ((modem_demodulate_soft_arb lib q r).demod
        = { q with x_hat := lib.modem_modulate_arb q (modem_demodulate_soft_arb lib q r).s,
                   r := r }) ∧
    ((modem_demodulate_soft_bpsk lib q r).demod
        = { q with x_hat := lib.modem_modulate_bpsk q (modem_demodulate_soft_bpsk lib q r).s,
                   r := r }) ∧
    ((modem_demodulate_soft_qpsk lib q r).demod
        = { q with x_hat := lib.modem_modulate_qpsk q (modem_demodulate_soft_qpsk lib q r).s,
                   r := r }) ∧
    ((∀ (d : modem) (s : Nat), lib.modem_modulate_arb d s = d.symbol_map.getD s default) →
      (modem_demodulate_soft_arb lib q r).demod.x_hat
        = q.symbol_map.getD (modem_demodulate_soft_arb lib q r).s default) := by
  refine ⟨rfl, rfl, rfl, ?_⟩
  intro harb
  simp only [modem_demodulate_soft_arb, harb]

/-- Witness of C9: the library `lib0`, whose arbitrary modulator reads the
symbol map. -/
theorem C9_state_update_witness :
    (∀ (d : modem) (s : Nat), lib0.modem_modulate_arb d s = d.symbol_map.getD s default) ∧
    (modem_demodulate_soft_arb lib0 modem2 ⟨3 / 10, 0⟩).demod.x_hat
      = modem2.symbol_map.getD (modem_demodulate_soft_arb lib0 modem2 ⟨3 / 10, 0⟩).s default :=
  ⟨fun _ _ => rfl, (C9_state_update lib0 modem2 ⟨3 / 10, 0⟩).2.2.2 (fun _ _ => rfl)⟩

/-! ## C10: the outputs do not depend on `x_hat` and `r` -/

/-- C10: for two objects that differ at most in `x_hat` and `r` and every
sample, the arbitrary, BPSK and QPSK paths return the same hard symbol and
soft bits on both, and a second call of such a path, on the object the first
call left and with the same sample, returns the hard symbol and soft bits of
the first call; the same holds of the table path when the hard demodulator
and the modulator keep to their contract (the demodulator changes `x_hat` and
`r` only and stores in `x_hat` the modulation of its decision, and neither
depends on the incoming `x_hat` and `r`), and of `modem_demodulate_soft` when
`demodulate_func` too changes `x_hat` and `r` only and does not depend on
them. -/
theorem C10_outputs_independent_of_stored_samples (lib : Lib) (q1 q2 : modem) (x : Cplx)
    (hcfg : same_configuration q1 q2) :
    (outputs (modem_demodulate_soft_arb lib q1 x)
        = outputs (modem_demodulate_soft_arb lib q2 x) ∧
      outputs (modem_demodulate_soft_bpsk lib q1 x)
        = outputs (modem_demodulate_soft_bpsk lib q2 x) ∧
      outputs (modem_demodulate_soft_qpsk lib q1 x)
        = outputs (modem_demodulate_soft_qpsk lib q2 x)) ∧
    (outputs (modem_demodulate_soft_arb lib (modem_demodulate_soft_arb lib q1 x).demod x)
        = outputs (modem_demodulate_soft_arb lib q1 x) ∧
      outputs (modem_demodulate_soft_bpsk lib (modem_demodulate_soft_bpsk lib q1 x).demod x)
        = outputs (modem_demodulate_soft_bpsk lib q1 x) ∧
      outputs (modem_demodulate_soft_qpsk lib (modem_demodulate_soft_qpsk lib q1 x).demod x)
        = outputs (modem_demodulate_soft_qpsk lib q1 x)) ∧
    (demodulator_contract lib →
      outputs (modem_demodulate_soft_table lib q1 x)
        = outputs (modem_demodulate_soft_table lib q2 x) ∧
      outputs (modem_demodulate_soft_table lib (modem_demodulate_soft_table lib q1 x).demod x)
        = outputs (modem_demodulate_soft_table lib q1 x)) ∧
    (demodulator_contract lib → keeps_configuration lib.demodulate_func →
      outputs (modem_demodulate_soft lib q1 x)
        = outputs (modem_demodulate_soft lib q2 x) ∧
      outputs (modem_demodulate_soft lib (modem_demodulate_soft lib q1 x).demod x)
        = outputs (modem_demodulate_soft lib q1 x)) := by
  refine ⟨scan_paths_agree lib q1 q2 x hcfg, ⟨?_, ?_, ?_⟩, ?_, ?_⟩
  · exact (scan_paths_agree lib _ q1 x (same_configuration_update q1 _ _)).1
  · exact (scan_paths_agree lib _ q1 x (same_configuration_update q1 _ _)).2.1
  · exact (scan_paths_agree lib _ q1 x (same_configuration_update q1 _ _)).2.2
  · intro hlib
    exact ⟨table_path_agrees lib q1 q2 x hcfg hlib,
      table_path_agrees lib _ q1 x (same_configuration_symm (hlib.1.1 q1 x)) hlib⟩
  · intro hlib hf
    exact ⟨dispatcher_agrees lib q1 q2 x hcfg hlib hf,
      dispatcher_agrees lib _ q1 x (dispatcher_keeps_configuration lib q1 x hlib hf) hlib hf⟩

/-- Witness of C10: `modem2_used` differs from `modem2` in `x_hat` and `r` only,
and the library `lib0` keeps to the contract. -/
theorem C10_outputs_independent_of_stored_samples_witness :
    same_configuration modem2_used modem2 ∧ demodulator_contract lib0 ∧
    keeps_configuration lib0.demodulate_func ∧
    outputs (modem_demodulate_soft_table lib0 modem2_used ⟨3 / 10, 0⟩)
      = outputs (modem_demodulate_soft_table lib0 modem2 ⟨3 / 10, 0⟩) ∧
    outputs (modem_demodulate_soft lib0 modem2_used ⟨3 / 10, 0⟩)
      = outputs (modem_demodulate_soft lib0 modem2 ⟨3 / 10, 0⟩) :=
  ⟨same_configuration_update modem2 _ _, lib0_contract.1, lib0_contract.2,
    ((C10_outputs_independent_of_stored_samples lib0 modem2_used modem2 ⟨3 / 10, 0⟩
      (same_configuration_update modem2 _ _)).2.2.1 lib0_contract.1).1,
    ((C10_outputs_independent_of_stored_samples lib0 modem2_used modem2 ⟨3 / 10, 0⟩
      (same_configuration_update modem2 _ _)).2.2.2 lib0_contract.1 lib0_contract.2).1⟩

/-! ## C11: the arbitrary path on the BPSK constellation -/

/-- The hard decision of the scan over the two points `+1`, `-1`: symbol 1
when its computed distance is strictly the smaller one. -/
theorem arb_two_point_s (q : modem) (x : Cplx) (hm : q.m = 1) (hM : q.M = 2)
    (hmap : q.symbol_map = [⟨1, 0⟩, ⟨-1, 0⟩]) :
    (arb_scan q x).s = if dist2 x ⟨-1, 0⟩ < dist2 x ⟨1, 0⟩ then 1 else 0 := by
  rw [arb_scan_two q x ⟨1, 0⟩ ⟨-1, 0⟩ hm hM hmap]
  split <;> rfl

/-- A sample of non-negative real part is, in single precision too, not
further from `+1` than from `-1`. -/
theorem dist2_plus_le (x : Cplx) (h : 0 ≤ x.re) : dist2 x ⟨1, 0⟩ ≤ dist2 x ⟨-1, 0⟩ := by
  apply dist2_le_of_abs_le
  · show |x.re - 1| ≤ |x.re - -1|
    rw [abs_le]
    have h2 : x.re - -1 = x.re + 1 := by ring
    rw [h2, abs_of_nonneg (by linarith only [h])]
    constructor <;> linarith only [h]
  · exact le_refl _

/-- C11 (as amended): on the two-point constellation `symbol_map[0] = +1`,
`symbol_map[1] = -1` with one bit per symbol, for every sample of positive
real part the arbitrary path and the BPSK path return the hard symbol 0; for
a sample of real part zero the arbitrary path returns 0 and the BPSK path 1;
for a sample of negative real part the BPSK path returns 1, and the arbitrary
path returns the same exactly when the squared distance to `-1` it computes
in single precision is strictly smaller than the one to `+1`, which rounding
can prevent: for the sample `-2^-26 + 0i` the arbitrary path returns 0. -/
theorem C11_arb_bpsk_hard_symbols (lib : Lib) (q : modem) (x : Cplx)
    (hm : q.m = 1) (hM : q.M = 2) (hmap : q.symbol_map = [⟨1, 0⟩, ⟨-1, 0⟩]) :
    (0 < x.re →
      (modem_demodulate_soft_arb lib q x).s = 0 ∧ (modem_demodulate_soft_bpsk lib q x).s = 0) ∧
    (x.re = 0 →
      (modem_demodulate_soft_arb lib q x).s = 0 ∧ (modem_demodulate_soft_bpsk lib q x).s = 1) ∧
    (x.re < 0 →
      (modem_demodulate_soft_bpsk lib q x).s = 1 ∧
      ((modem_demodulate_soft_arb lib q x).s = (modem_demodulate_soft_bpsk lib q x).s ↔
        dist2 x ⟨-1, 0⟩ < dist2 x ⟨1, 0⟩)) ∧
    ((modem_demodulate_soft_arb lib q ⟨-(1 / 67108864), 0⟩).s = 0 ∧
      (modem_demodulate_soft_bpsk lib q ⟨-(1 / 67108864), 0⟩).s = 1) := by
  have hb : ∀ y : Cplx, (modem_demodulate_soft_bpsk lib q y).s = if y.re > 0 then 0 else 1 :=
    fun _ => rfl
  have ha : ∀ y : Cplx, (modem_demodulate_soft_arb lib q y).s
      = if dist2 y ⟨-1, 0⟩ < dist2 y ⟨1, 0⟩ then 1 else 0 := by
    intro y
    rw [arb_s_eq, arb_two_point_s q y hm hM hmap]
  refine ⟨?_, ?_, ?_, ?_, ?_⟩
  · intro h
    rw [ha, hb, if_neg (not_lt.mpr (dist2_plus_le x h.le)), if_pos h]
    exact ⟨rfl, rfl⟩
  · intro h
    rw [ha, hb, if_neg (not_lt.mpr (dist2_plus_le x h.ge)), if_neg (by rw [h]; exact lt_irrefl 0)]
    exact ⟨rfl, rfl⟩
  · intro h
    rw [ha, hb, if_neg (not_lt.mpr h.le)]
    refine ⟨rfl, ?_⟩
    by_cases hd : dist2 x ⟨-1, 0⟩ < dist2 x ⟨1, 0⟩
    · rw [if_pos hd]
      exact ⟨fun _ => hd, fun _ => rfl⟩
    · rw [if_neg hd]
      exact ⟨fun h01 => absurd h01 (by decide), fun h' => absurd h' hd⟩
  · rw [ha, dist2_c2_pos, dist2_c2_neg]
    rfl
  · rw [hb]
    rw [if_neg]
    show ¬ (-(1 / 67108864 : ℚ) > 0)
    norm_num

/-- Witness of C11: the modem `modem2` and the sample `1/4`. -/
theorem C11_arb_bpsk_hard_symbols_witness :
    modem2.m = 1 ∧ modem2.M = 2 ∧ modem2.symbol_map = [⟨1, 0⟩, ⟨-1, 0⟩] ∧
    (modem_demodulate_soft_arb lib0 modem2 ⟨1 / 4, 0⟩).s = 0 ∧
    (modem_demodulate_soft_bpsk lib0 modem2 ⟨1 / 4, 0⟩).s = 0 :=
  ⟨rfl, rfl, rfl,
    (C11_arb_bpsk_hard_symbols lib0 modem2 ⟨1 / 4, 0⟩ rfl rfl rfl).1
      (show (0 : ℚ) < 1 / 4 by norm_num)⟩

/-- C11 fails as stated: for the sample `0+0i` both points are at squared
distance 1, the arbitrary path keeps the first one (symbol 0) and the BPSK
path, which tests `Re > 0`, returns symbol 1. -/
theorem C11_counterexample :
    modem2.m = 1 ∧ modem2.M = 2 ∧ modem2.symbol_map = [⟨1, 0⟩, ⟨-1, 0⟩] ∧
    (modem_demodulate_soft_arb lib0 modem2 ⟨0, 0⟩).s = 0 ∧
    (modem_demodulate_soft_bpsk lib0 modem2 ⟨0, 0⟩).s = 1 := by
  refine ⟨rfl, rfl, rfl, ?_, ?_⟩
  · rw [arb_s_eq, arb_two_point_s modem2 _ rfl rfl rfl,
      if_neg (not_lt.mpr (dist2_plus_le ⟨0, 0⟩ (le_refl (0 : ℚ))))]
  · simp [modem_demodulate_soft_bpsk, crealf]

/-! ## C12: the BPSK path at `+1` and `-1` -/

theorem lib0_tanhf_neg_one : lib0.tanhf (-1) = -(1051 / 1380) := by
  norm_num [lib0]

/-- The `tanhf` of `lib0` is within `1/1000` of the hyperbolic tangent at -1. -/
theorem lib0_tanhf_neg_one_close : |((lib0.tanhf (-1) : ℚ) : ℝ) - Real.tanh (-1)| ≤ 1 / 1000 := by
  rw [lib0_tanhf_neg_one, Real.tanh_neg, abs_le]
  obtain ⟨h1, h2⟩ := tanh_one_bounds
  push_cast
  constructor <;> norm_num <;> linarith

/-- C12 (as amended): with a `tanhf` within `1/1000` of the hyperbolic tangent at
`1` and at `-1`, the BPSK path returns for the sample `1+0i` the hard symbol 0
and the soft bit 224, and for the sample `-1+0i` the hard symbol 1 and the soft
bit 30. -/
theorem C12_bpsk_unit_samples (lib : Lib) (q : modem)
    (hpos : |((lib.tanhf 1 : ℚ) : ℝ) - Real.tanh 1| ≤ 1 / 1000)
    (hneg : |((lib.tanhf (-1) : ℚ) : ℝ) - Real.tanh (-1)| ≤ 1 / 1000) :
    ((modem_demodulate_soft_bpsk lib q ⟨1, 0⟩).s = 0 ∧
      (modem_demodulate_soft_bpsk lib q ⟨1, 0⟩).soft_bits = [224]) ∧
    ((modem_demodulate_soft_bpsk lib q ⟨-1, 0⟩).s = 1 ∧
      (modem_demodulate_soft_bpsk lib q ⟨-1, 0⟩).soft_bits = [30]) := by
  obtain ⟨hl, hu⟩ := tanh_one_bounds
  obtain ⟨p1, p2⟩ := abs_le.mp hpos
  rw [Real.tanh_neg] at hneg
  obtain ⟨n1, n2⟩ := abs_le.mp hneg
  have a1 : ((7605 / 10000 : ℚ) : ℝ) ≤ ((lib.tanhf 1 : ℚ) : ℝ) := by push_cast; linarith
  have a2 : ((lib.tanhf 1 : ℚ) : ℝ) ≤ ((7627 / 10000 : ℚ) : ℝ) := by push_cast; linarith
  have b1 : ((-(7627 / 10000) : ℚ) : ℝ) ≤ ((lib.tanhf (-1) : ℚ) : ℝ) := by push_cast; linarith
  have b2 : ((lib.tanhf (-1) : ℚ) : ℝ) ≤ ((-(7605 / 10000) : ℚ) : ℝ) := by push_cast; linarith
  have a1' : (7605 / 10000 : ℚ) ≤ lib.tanhf 1 := by exact_mod_cast a1
  have a2' : lib.tanhf 1 ≤ (7627 / 10000 : ℚ) := by exact_mod_cast a2
  have b1' : (-(7627 / 10000) : ℚ) ≤ lib.tanhf (-1) := by exact_mod_cast b1
  have b2' : lib.tanhf (-1) ≤ (-(7605 / 10000) : ℚ) := by exact_mod_cast b2
  have h224 : tanh_soft_bit lib 1 = 224 :=
    tanh_soft_bit_eq_of_bounds lib 1 224 (by norm_num) (by norm_num; linarith)
      (by norm_num; linarith)
  have h30 : tanh_soft_bit lib (-1) = 30 :=
    tanh_soft_bit_eq_of_bounds lib (-1) 30 (by norm_num) (by norm_num; linarith)
      (by norm_num; linarith)
  refine ⟨⟨?_, ?_⟩, ?_, ?_⟩
  · norm_num [modem_demodulate_soft_bpsk, crealf]
  · simp [modem_demodulate_soft_bpsk, crealf, h224]
  · norm_num [modem_demodulate_soft_bpsk, crealf]
  · simp [modem_demodulate_soft_bpsk, crealf, h30]

/-- Witness of C12: the library `lib0`. -/
theorem C12_bpsk_unit_samples_witness :
    |((lib0.tanhf 1 : ℚ) : ℝ) - Real.tanh 1| ≤ 1 / 1000 ∧
    |((lib0.tanhf (-1) : ℚ) : ℝ) - Real.tanh (-1)| ≤ 1 / 1000 ∧
    (modem_demodulate_soft_bpsk lib0 modem2 ⟨-1, 0⟩).soft_bits = [30] :=
  ⟨lib0_tanhf_one_close, lib0_tanhf_neg_one_close,
    (C12_bpsk_unit_samples lib0 modem2 lib0_tanhf_one_close lib0_tanhf_neg_one_close).2.2⟩

/-- C12 fails as stated: with a `tanhf` within `1/1000` of the hyperbolic tangent,
the soft bit of `1+0i` is 224, which is not within 1 of 234 (and
`255 * (0.5 + 0.5 * tanhf 1)` rounded to the nearest integer is 225, not 234), and
the soft bit of `-1+0i` is 30, which is not within 1 of 21. -/
theorem C12_counterexample :
    |((lib0.tanhf 1 : ℚ) : ℝ) - Real.tanh 1| ≤ 1 / 1000 ∧
    |((lib0.tanhf (-1) : ℚ) : ℝ) - Real.tanh (-1)| ≤ 1 / 1000 ∧
    (modem_demodulate_soft_bpsk lib0 modem2 ⟨1, 0⟩).soft_bits = [224] ∧
    ¬ (234 ≤ 224 + 1) ∧
    round ((255 : ℚ) * (1 / 2 + 1 / 2 * lib0.tanhf 1)) = 225 ∧
    (modem_demodulate_soft_bpsk lib0 modem2 ⟨-1, 0⟩).soft_bits = [30] ∧
    ¬ (30 ≤ 21 + 1) := by
  have h224 : tanh_soft_bit lib0 1 = 224 :=
    tanh_soft_bit_eq_of_bounds lib0 1 224 (by norm_num)
      (by rw [lib0_tanhf_one]; norm_num) (by rw [lib0_tanhf_one]; norm_num)
  have h30 : tanh_soft_bit lib0 (-1) = 30 :=
    tanh_soft_bit_eq_of_bounds lib0 (-1) 30 (by norm_num)
      (by rw [lib0_tanhf_neg_one]; norm_num) (by rw [lib0_tanhf_neg_one]; norm_num)
  refine ⟨lib0_tanhf_one_close, lib0_tanhf_neg_one_close, ?_, by decide, ?_, ?_, by decide⟩
  · simp [modem_demodulate_soft_bpsk, crealf, h224]
  · rw [lib0_tanhf_one, round_eq, Int.floor_eq_iff]
    norm_num
  · simp [modem_demodulate_soft_bpsk, crealf, h30]

/-! ## C13: monotonicity and saturation of the BPSK soft bit -/

theorem tanh_soft_bit_mono (lib : Lib) (a b : ℚ)
    (ha : -1 ≤ lib.tanhf a ∧ lib.tanhf a ≤ 1) (hb : -1 ≤ lib.tanhf b ∧ lib.tanhf b ≤ 1)
    (hab : lib.tanhf a ≤ lib.tanhf b) : tanh_soft_bit lib a ≤ tanh_soft_bit lib b := by
  rw [tanh_soft_bit_floor lib a ha.1 ha.2, tanh_soft_bit_floor lib b hb.1 hb.2]
  apply Int.toNat_le_toNat
  apply Int.floor_le_floor
  linarith

/-- C13: for a `tanhf` that is non-decreasing, has its values in `[-1, 1]`,
returns exactly 1 at some `T` and a value below `-253/255` at `-T`, the BPSK
soft bit is a non-decreasing function of the real part of the sample, does
not depend on the imaginary part, is 255 for every sample
with real part at least `T` and 0 for every sample with real part at most
`-T`. -/
theorem C13_bpsk_soft_bit_monotone_saturating (lib : Lib) (T : ℚ)
    (hmono : ∀ a b, a ≤ b → lib.tanhf a ≤ lib.tanhf b)
    (hrange : ∀ t, -1 ≤ lib.tanhf t ∧ lib.tanhf t ≤ 1)
    (hT : lib.tanhf T = 1) (hT' : lib.tanhf (-T) < -(253 / 255)) :
    (∀ (q : modem) (x y : Cplx), x.re ≤ y.re →
      (modem_demodulate_soft_bpsk lib q x).soft_bits.getD 0 0
        ≤ (modem_demodulate_soft_bpsk lib q y).soft_bits.getD 0 0) ∧
    (∀ (q : modem) (x y : Cplx), x.re = y.re →
      (modem_demodulate_soft_bpsk lib q x).soft_bits
        = (modem_demodulate_soft_bpsk lib q y).soft_bits) ∧
    (∀ (q : modem) (x : Cplx), T ≤ x.re →
      (modem_demodulate_soft_bpsk lib q x).soft_bits = [255]) ∧
    (∀ (q : modem) (x : Cplx), x.re ≤ -T →
      (modem_demodulate_soft_bpsk lib q x).soft_bits = [0]) := by
  refine ⟨?_, ?_, ?_, ?_⟩
  · intro q x y hxy
    simp only [modem_demodulate_soft_bpsk, crealf, List.getD_cons_zero]
    exact tanh_soft_bit_mono lib _ _ (hrange _) (hrange _) (hmono _ _ hxy)
  · intro q x y hxy
    simp only [modem_demodulate_soft_bpsk, crealf, hxy]
  · intro q x hx
    have h1 : lib.tanhf x.re = 1 :=
      le_antisymm (hrange _).2 (hT ▸ hmono _ _ hx)
    have : tanh_soft_bit lib x.re = 255 :=
      tanh_soft_bit_eq_of_bounds lib _ 255 (by norm_num) (by rw [h1]; norm_num)
        (by rw [h1]; norm_num)
    simp [modem_demodulate_soft_bpsk, crealf, this]
  · intro q x hx
    have h1 : lib.tanhf x.re < -(253 / 255) := lt_of_le_of_lt (hmono _ _ hx) hT'
    have : tanh_soft_bit lib x.re = 0 :=
      tanh_soft_bit_eq_of_bounds lib _ 0 (by norm_num)
        (by norm_num; exact (hrange _).1) (by norm_num; linarith)
    simp [modem_demodulate_soft_bpsk, crealf, this]

/-- Witness of C13: the library `lib_clip` with `T = 1`. -/
theorem C13_bpsk_soft_bit_monotone_saturating_witness :
    (∀ a b : ℚ, a ≤ b → lib_clip.tanhf a ≤ lib_clip.tanhf b) ∧
    (∀ t : ℚ, -1 ≤ lib_clip.tanhf t ∧ lib_clip.tanhf t ≤ 1) ∧
    lib_clip.tanhf 1 = 1 ∧ lib_clip.tanhf (-1) < -(253 / 255) ∧
    (modem_demodulate_soft_bpsk lib_clip modem2 ⟨3, 7⟩).soft_bits = [255] ∧
    (modem_demodulate_soft_bpsk lib_clip modem2 ⟨-3, 7⟩).soft_bits = [0] := by
  have hmono : ∀ a b : ℚ, a ≤ b → lib_clip.tanhf a ≤ lib_clip.tanhf b := by
    intro a b hab
    exact max_le_max le_rfl (min_le_min le_rfl hab)
  have hrange : ∀ t : ℚ, -1 ≤ lib_clip.tanhf t ∧ lib_clip.tanhf t ≤ 1 := by
    intro t
    exact ⟨le_max_left _ _, max_le (by norm_num) (min_le_left _ _)⟩
  have hT : lib_clip.tanhf 1 = 1 := by norm_num [lib_clip]
  have hT' : lib_clip.tanhf (-1) < -(253 / 255) := by norm_num [lib_clip]
  have h := C13_bpsk_soft_bit_monotone_saturating lib_clip 1 hmono hrange hT hT'
  exact ⟨hmono, hrange, hT, hT', h.2.2.1 modem2 ⟨3, 7⟩ (by norm_num),
    h.2.2.2 modem2 ⟨-3, 7⟩ (by norm_num)⟩

/-! ## C14: the table path against the max-log search -/

theorem list_min_least : ∀ (l : List ℚ) (m : ℚ), list_min l = some m → is_least_of m l := by
  intro l
  induction l with
  | nil => intro m h; simp [list_min] at h
  | cons d ds ih =>
    intro m h
    unfold list_min at h
    cases hds : list_min ds with
    | none =>
      rw [hds] at h
      have hm : d = m := Option.some.inj h
      have hnil : ds = [] := by
        cases ds with
        | nil => rfl
        | cons e es =>
          unfold list_min at hds
          cases h' : list_min es <;> rw [h'] at hds <;> simp at hds
      subst hm hnil
      exact ⟨List.mem_singleton.mpr rfl, fun x hx => by rw [List.mem_singleton.mp hx]⟩
    | some e =>
      rw [hds] at h
      have hm : min d e = m := Option.some.inj h
      obtain ⟨hmem, hle⟩ := ih e hds
      subst hm
      constructor
      · rcases min_choice d e with c | c
        · rw [c]; exact List.mem_cons_self _ _
        · rw [c]; exact List.mem_cons_of_mem _ hmem
      · intro x hx
        rcases List.mem_cons.mp hx with h1 | h1
        · rw [h1]; exact min_le_left _ _
        · exact le_trans (min_le_right _ _) (hle x h1)

theorem least_unique {v w : ℚ} {l l' : List ℚ} (hv : is_least_of v l) (hw : is_least_of w l')
    (hsame : ∀ x, x ∈ l ↔ x ∈ l') : v = w :=
  le_antisymm (hv.2 w ((hsame w).mpr hw.1)) (hw.2 v ((hsame v).mp hv.1))

theorem mem_table_class_distances (lib : Lib) (d : modem) (r : Cplx) (s bps : Nat)
    (softab : List Nat) (p k : Nat) (b : Bool) (x : ℚ) :
    x ∈ table_class_distances lib d r s bps softab p k b ↔
      ∃ j, j ∈ table_neighbors softab s p ∧ bit_of j (bps - k - 1) = b ∧
        dist2 r (table_remodulate lib d j) = x := by
  unfold table_class_distances
  rw [List.mem_map]
  constructor
  · rintro ⟨j, hj, rfl⟩
    rw [List.mem_filter] at hj
    exact ⟨j, hj.1, by simpa using hj.2, rfl⟩
  · rintro ⟨j, hj, hb, rfl⟩
    exact ⟨j, List.mem_filter.mpr ⟨hj, by simpa using hb⟩, rfl⟩

theorem mem_ml_class_distances (symbol_map : List Cplx) (M bps : Nat) (r : Cplx) (k : Nat)
    (b : Bool) (x : ℚ) :
    x ∈ ml_class_distances symbol_map M bps r k b ↔
      ∃ i, i < M ∧ bit_of i (bps - k - 1) = b ∧ dist2 r (symbol_map.getD i default) = x := by
  unfold ml_class_distances
  rw [List.mem_map]
  constructor
  · rintro ⟨j, hj, rfl⟩
    rw [List.mem_filter, List.mem_range] at hj
    exact ⟨j, hj.1, by simpa using hj.2, rfl⟩
  · rintro ⟨j, hj, hb, rfl⟩
    exact ⟨j, List.mem_filter.mpr ⟨List.mem_range.mpr hj, by simpa using hb⟩, rfl⟩

/-- The minimum of the class of the hard decision, when the hard decision is
a nearest point and every neighbour is a symbol: it is the distance of the
hard decision, which is also the minimum of the max-log search. -/
theorem table_same_class_min (lib : Lib) (d : modem) (r : Cplx) (s bps : Nat)
    (softab : List Nat) (p k : Nat) (b : Bool) (m : ℚ)
    (hs : s < d.M) (hx : d.x_hat = d.symbol_map.getD s default)
    (hmod : ∀ j, table_remodulate lib d j = d.symbol_map.getD j default)
    (hnear : ∀ i, i < d.M →
      dist2 r (d.symbol_map.getD s default) ≤ dist2 r (d.symbol_map.getD i default))
    (hnb : ∀ j, j ∈ table_neighbors softab s p → j < d.M)
    (hb : bit_of s (bps - k - 1) = b)
    (hm : ml_dmin d.symbol_map d.M bps r k b = some m) :
    (table_class_distances lib d r s bps softab p k b).foldl min (dist2 r d.x_hat) = m ∧
    m = dist2 r (d.symbol_map.getD s default) := by
  obtain ⟨hvm, hvl⟩ := foldl_min_least (table_class_distances lib d r s bps softab p k b)
    (dist2 r d.x_hat)
  obtain ⟨hmm, hml⟩ := list_min_least _ _ hm
  have hm_eq : m = dist2 r (d.symbol_map.getD s default) := by
    apply le_antisymm
    · exact hml _ ((mem_ml_class_distances _ _ _ _ _ _ _).mpr ⟨s, hs, hb, rfl⟩)
    · obtain ⟨i, hi, _, rfl⟩ := (mem_ml_class_distances _ _ _ _ _ _ _).mp hmm
      exact hnear i hi
  refine ⟨?_, hm_eq⟩
  rw [hm_eq]
  apply le_antisymm
  · rw [← hx]; exact hvl _ (List.mem_cons_self _ _)
  · rcases List.mem_cons.mp hvm with h | h
    · rw [h, hx]
    · obtain ⟨j, hj, _, hd⟩ := (mem_table_class_distances _ _ _ _ _ _ _ _ _ _).mp h
      rw [← hd, hmod j]
      exact hnear j (hnb j hj)

/-- The minimum of the class opposite to the hard decision, when the
neighbours of the hard decision are all other symbols: it is the minimum of
the max-log search capped at the initial value 1. -/
theorem table_other_class_min (lib : Lib) (d : modem) (r : Cplx) (s bps : Nat)
    (softab : List Nat) (p k : Nat) (b : Bool) (m : ℚ)
    (hmod : ∀ j, table_remodulate lib d j = d.symbol_map.getD j default)
    (hfull : ∀ j, j ∈ table_neighbors softab s p ↔ (j < d.M ∧ j ≠ s))
    (hb : bit_of s (bps - k - 1) ≠ b)
    (hm : ml_dmin d.symbol_map d.M bps r k b = some m) :
    (table_class_distances lib d r s bps softab p k b).foldl min 1 = min 1 m := by
  have hv := foldl_min_least (table_class_distances lib d r s bps softab p k b) 1
  obtain ⟨hmm, hml⟩ := list_min_least _ _ hm
  have hsame : ∀ x, x ∈ table_class_distances lib d r s bps softab p k b ↔
      x ∈ ml_class_distances d.symbol_map d.M bps r k b := by
    intro x
    rw [mem_table_class_distances, mem_ml_class_distances]
    constructor
    · rintro ⟨j, hj, hjb, hd⟩
      exact ⟨j, ((hfull j).mp hj).1, hjb, by rw [← hmod j]; exact hd⟩
    · rintro ⟨j, hj, hjb, hd⟩
      refine ⟨j, (hfull j).mpr ⟨hj, ?_⟩, hjb, by rw [hmod j]; exact hd⟩
      intro hjs
      rw [hjs] at hjb
      exact hb hjb
  have hw : is_least_of (min 1 m) (1 :: table_class_distances lib d r s bps softab p k b) := by
    constructor
    · rcases min_choice 1 m with c | c
      · rw [c]; exact List.mem_cons_self _ _
      · rw [c]; exact List.mem_cons_of_mem _ ((hsame m).mpr hmm)
    · intro x hx
      rcases List.mem_cons.mp hx with h | h
      · rw [h]; exact min_le_left _ _
      · exact le_trans (min_le_right _ _) (hml x ((hsame x).mp h))
  exact least_unique hv hw (fun _ => Iff.rfl)

theorem table_soft_bit_get (lib : Lib) (q : modem) (r : Cplx) (d : modem) (s k : Nat)
    (hd : lib.modem_demodulate q r = (d, s)) (hk : k < d.m) :
    (modem_demodulate_soft_table lib q r).soft_bits.getD k 0
      = soft_bit_assign
          (table_dmin lib d r s d.m (d.demod_soft_neighbors.getD []) d.demod_soft_p k).1
          (table_dmin lib d r s d.m (d.demod_soft_neighbors.getD []) d.demod_soft_p k).2 := by
  have h1 : (lib.modem_demodulate q r).1 = d := by rw [hd]
  have h2 : (lib.modem_demodulate q r).2 = s := by rw [hd]
  rw [table_soft_bits_eq, h1, h2, List.getD_eq_getElem?_getD, List.getElem?_map,
    List.getElem?_range hk]
  rfl

/-- C14 (as amended): when the hard decision `s` is a nearest symbol (in the
squared distance the source computes) and is stored re-modulated in `x_hat`,
the neighbours of `s` in the table are exactly the other symbols and
re-modulation agrees with the symbol map, soft bit `k` of the table path is
the quantisation of the source applied to the two max-log minima with the
minimum of the class opposite to bit `k` of `s` capped at the initial value
1.0.  Hence, when the nearest squared distance is at most 1.0 and the two
max-log minima are at most `2^16` (so that the conversion to `int` does not
overflow), it lies between 127 and the max-log soft bit: the table path is
never more confident than the max-log search. -/
theorem C14_table_soft_bit_against_max_log (lib : Lib) (q : modem) (r : Cplx) (d : modem)
    (s k : Nat) (ml0 ml1 : ℚ)
    (hd : lib.modem_demodulate q r = (d, s))
    (hk : k < d.m) (hs : s < d.M)
    (hx : d.x_hat = d.symbol_map.getD s default)
    (hmod : d.modulate_using_map = true ∨
      ∀ j, lib.modem_modulate d j = d.symbol_map.getD j default)
    (hnear : ∀ i, i < d.M →
      dist2 r (d.symbol_map.getD s default) ≤ dist2 r (d.symbol_map.getD i default))
    (hfull : ∀ j, j ∈ table_neighbors (d.demod_soft_neighbors.getD []) s d.demod_soft_p ↔
      (j < d.M ∧ j ≠ s))
    (h0 : ml_dmin d.symbol_map d.M d.m r k false = some ml0)
    (h1 : ml_dmin d.symbol_map d.M d.m r k true = some ml1) :
    ml_soft_bit d.symbol_map d.M d.m r k = some (soft_bit_assign ml0 ml1) ∧
    (modem_demodulate_soft_table lib q r).soft_bits.getD k 0
      = (if Nat.testBit s (d.m - 1 - k) then soft_bit_assign (min 1 ml0) ml1
         else soft_bit_assign ml0 (min 1 ml1)) ∧
    (dist2 r (d.symbol_map.getD s default) ≤ 1 → ml0 ≤ 65536 → ml1 ≤ 65536 →
      (Nat.testBit s (d.m - 1 - k) = true →
        127 ≤ (modem_demodulate_soft_table lib q r).soft_bits.getD k 0 ∧
        (modem_demodulate_soft_table lib q r).soft_bits.getD k 0 ≤ soft_bit_assign ml0 ml1) ∧
      (Nat.testBit s (d.m - 1 - k) = false →
        soft_bit_assign ml0 ml1 ≤ (modem_demodulate_soft_table lib q r).soft_bits.getD k 0 ∧
        (modem_demodulate_soft_table lib q r).soft_bits.getD k 0 ≤ 127)) := by
  have hmod' : ∀ j, table_remodulate lib d j = d.symbol_map.getD j default := by
    intro j
    unfold table_remodulate
    rcases hmod with h | h
    · rw [if_pos h]
    · split
      · rfl
      · exact h j
  have hnb : ∀ j, j ∈ table_neighbors (d.demod_soft_neighbors.getD []) s d.demod_soft_p →
      j < d.M := fun j hj => ((hfull j).mp hj).1
  have hshift : d.m - 1 - k = d.m - k - 1 := by omega
  have hml : ml_soft_bit d.symbol_map d.M d.m r k = some (soft_bit_assign ml0 ml1) := by
    simp only [ml_soft_bit, h0, h1]
  have hnn0 : 0 ≤ ml0 := by
    obtain ⟨hmm, _⟩ := list_min_least _ _ h0
    obtain ⟨i, _, _, hdi⟩ := (mem_ml_class_distances _ _ _ _ _ _ _).mp hmm
    rw [← hdi]
    exact dist2_nonneg _ _
  have hnn1 : 0 ≤ ml1 := by
    obtain ⟨hmm, _⟩ := list_min_least _ _ h1
    obtain ⟨i, _, _, hdi⟩ := (mem_ml_class_distances _ _ _ _ _ _ _).mp hmm
    rw [← hdi]
    exact dist2_nonneg _ _
  have hrange : ∀ a b : ℚ, 0 ≤ a → a ≤ 65536 → 0 ≤ b → b ≤ 65536 →
      |soft_bit_value a b| < 2 ^ 31 := by
    intro a b ha ha' hb hb'
    exact soft_bit_value_in_range a b (by rw [abs_of_nonneg ha]; exact ha')
      (by rw [abs_of_nonneg hb]; exact hb')
  have hmin0 : 0 ≤ min 1 ml0 := le_min (by norm_num) hnn0
  have hmin1 : 0 ≤ min 1 ml1 := le_min (by norm_num) hnn1
  have hmin0' : min 1 ml0 ≤ 65536 := le_trans (min_le_left _ _) (by norm_num)
  have hmin1' : min 1 ml1 ≤ 65536 := le_trans (min_le_left _ _) (by norm_num)
  rw [table_soft_bit_get lib q r d s k hd hk, table_dmin_eq, hshift, ← bit_of_eq_testBit]
  by_cases hb : bit_of s (d.m - k - 1) = true
  · obtain ⟨e1, e1'⟩ := table_same_class_min lib d r s d.m _ d.demod_soft_p k true ml1 hs hx hmod'
      hnear hnb hb h1
    have e0 := table_other_class_min lib d r s d.m _ d.demod_soft_p k false ml0 hmod' hfull
      (by rw [hb]; decide) h0
    simp only [hb, if_true, e0, e1]
    refine ⟨hml, trivial, ?_⟩
    intro hle hb0 hb1
    refine ⟨fun _ => ⟨?_, ?_⟩, fun h => absurd h (by decide)⟩
    · apply soft_bit_assign_ge _ _ _ (hrange _ _ hmin0 hmin0' hnn1 hb1)
      have hge : ml1 ≤ ml0 := by
        obtain ⟨hmm, _⟩ := list_min_least _ _ h0
        obtain ⟨i, hi, _, hdi⟩ := (mem_ml_class_distances _ _ _ _ _ _ _).mp hmm
        rw [e1', ← hdi]
        exact hnear i hi
      exact le_min (by rw [e1']; exact hle) hge
    · exact soft_bit_assign_mono _ _ _ _ (min_le_right _ _) le_rfl
        (hrange _ _ hmin0 hmin0' hnn1 hb1) (hrange _ _ hnn0 hb0 hnn1 hb1)
  · have hb' : bit_of s (d.m - k - 1) = false := by simpa using hb
    obtain ⟨e0, e0'⟩ := table_same_class_min lib d r s d.m _ d.demod_soft_p k false ml0 hs hx hmod'
      hnear hnb hb' h0
    have e1 := table_other_class_min lib d r s d.m _ d.demod_soft_p k true ml1 hmod' hfull
      (by rw [hb']; decide) h1
    simp only [hb', Bool.false_eq_true, if_false, e0, e1]
    refine ⟨hml, trivial, ?_⟩
    intro hle hb0 hb1
    refine ⟨fun h => absurd h (by decide), fun _ => ⟨?_, ?_⟩⟩
    · exact soft_bit_assign_mono _ _ _ _ le_rfl (min_le_right _ _)
        (hrange _ _ hnn0 hb0 hnn1 hb1) (hrange _ _ hnn0 hb0 hmin1 hmin1')
    · apply soft_bit_assign_le_mid _ _ _ (hrange _ _ hnn0 hb0 hmin1 hmin1')
      have hge : ml0 ≤ ml1 := by
        obtain ⟨hmm, _⟩ := list_min_least _ _ h1
        obtain ⟨i, hi, _, hdi⟩ := (mem_ml_class_distances _ _ _ _ _ _ _).mp hmm
        rw [e0', ← hdi]
        exact hnear i hi
      exact le_min (by rw [e0']; exact hle) hge

theorem dist2_quarter_pos : dist2 ⟨1 / 4, 0⟩ ⟨1, 0⟩ = 9 / 16 := by
  have h1 : f32_round (1 / 4 - 1) = -(3 / 4) := by
    rw [f32_round_eval _ (-1) (-12582912)] <;> norm_num
  have h2 : f32_round (-(3 / 4) * (-(3 / 4))) = 9 / 16 := by
    rw [f32_round_eval _ (-1) (9437184)] <;> norm_num
  have h3 : f32_round (9 / 16) = 9 / 16 := by
    rw [f32_round_eval _ (-1) (9437184)] <;> norm_num
  rw [dist2_real, h1, h2, h3]

theorem dist2_quarter_neg : dist2 ⟨1 / 4, 0⟩ ⟨-1, 0⟩ = 25 / 16 := by
  have h1 : f32_round (1 / 4 - -1) = 5 / 4 := by
    rw [f32_round_eval _ (0) (10485760)] <;> norm_num
  have h2 : f32_round (5 / 4 * (5 / 4)) = 25 / 16 := by
    rw [f32_round_eval _ (0) (13107200)] <;> norm_num
  have h3 : f32_round (25 / 16) = 25 / 16 := by
    rw [f32_round_eval _ (0) (13107200)] <;> norm_num
  rw [dist2_real, h1, h2, h3]

theorem soft_bit_assign_quarter_table : soft_bit_assign (9 / 16) (1) = 39 := by
  have h1 : f32_round (-1 / (10737419 / 134217728)) = -(13107199 / 1048576) := by
    rw [f32_round_eval _ (3) (-13107199)] <;> norm_num
  have h0 : f32_round (-(9 / 16) / (10737419 / 134217728)) = -(14745599 / 2097152) := by
    rw [f32_round_eval _ (2) (-14745599)] <;> norm_num
  have hw : f32_round (-(13107199 / 1048576) - -(14745599 / 2097152)) = -(11468799 / 2097152) := by
    rw [f32_round_eval _ (2) (-11468799)] <;> norm_num
  have hy : f32_round (-(11468799 / 2097152) * 16) = -(11468799 / 131072) := by
    rw [f32_round_eval _ (6) (-11468799)] <;> norm_num
  have hv : f32_round (-(11468799 / 131072) + 127) = 5177345 / 131072 := by
    rw [f32_round_eval _ (5) (10354690)] <;> norm_num
  have hval : soft_bit_value (9 / 16) (1) = 5177345 / 131072 := by
    rw [soft_bit_value_eq, h1, h0, hw, hy, hv]
  have hf : ⌊(5177345 / 131072 : ℚ)⌋ = 39 := by
    rw [Int.floor_eq_iff]; norm_num
  rw [soft_bit_assign_of_range _ _ (by rw [hval]; norm_num [abs_lt]), hval, hf]
  decide

theorem soft_bit_assign_quarter_ml : soft_bit_assign (9 / 16) (25 / 16) = 0 := by
  have h1 : f32_round (-(25 / 16) / (10737419 / 134217728)) = -(10239999 / 524288) := by
    rw [f32_round_eval _ (4) (-10239999)] <;> norm_num
  have h0 : f32_round (-(9 / 16) / (10737419 / 134217728)) = -(14745599 / 2097152) := by
    rw [f32_round_eval _ (2) (-14745599)] <;> norm_num
  have hw : f32_round (-(10239999 / 524288) - -(14745599 / 2097152)) = -(6553599 / 524288) := by
    rw [f32_round_eval_tie _ (3) (-13107198)] <;> norm_num
  have hy : f32_round (-(6553599 / 524288) * 16) = -(6553599 / 32768) := by
    rw [f32_round_eval _ (7) (-13107198)] <;> norm_num
  have hv : f32_round (-(6553599 / 32768) + 127) = -(2392063 / 32768) := by
    rw [f32_round_eval _ (6) (-9568252)] <;> norm_num
  have hval : soft_bit_value (9 / 16) (25 / 16) = -(2392063 / 32768) := by
    rw [soft_bit_value_eq, h1, h0, hw, hy, hv]
  have hf : ⌊(-(2392063 / 32768) : ℚ)⌋ = -73 := by
    rw [Int.floor_eq_iff]; norm_num
  rw [soft_bit_assign_of_range _ _ (by rw [hval]; norm_num [abs_lt]), hval, hf]
  decide

theorem lib0_hard_modem2 : lib0.modem_demodulate modem2 ⟨1 / 4, 0⟩ = (modem2_after, 0) := by
  norm_num [lib0, modem2, modem2_after]

theorem modem2_after_nearest : ∀ i, i < modem2_after.M →
    dist2 ⟨1 / 4, 0⟩ (modem2_after.symbol_map.getD 0 default)
      ≤ dist2 ⟨1 / 4, 0⟩ (modem2_after.symbol_map.getD i default) := by
  intro i hi
  have hi2 : i < 2 := hi
  interval_cases i
  · exact le_refl _
  · exact dist2_plus_le ⟨1 / 4, 0⟩ (show (0 : ℚ) ≤ 1 / 4 by norm_num)

theorem modem2_after_neighbors : ∀ j,
    j ∈ table_neighbors (modem2_after.demod_soft_neighbors.getD []) 0 modem2_after.demod_soft_p ↔
      (j < modem2_after.M ∧ j ≠ 0) := by
  intro j
  have : table_neighbors (modem2_after.demod_soft_neighbors.getD []) 0 modem2_after.demod_soft_p
      = [1] := by
    simp [table_neighbors, modem2_after, modem2, List.range_succ]
  rw [this]
  have hM : modem2_after.M = 2 := rfl
  rw [hM, List.mem_singleton]
  omega

theorem modem2_after_ml :
    ml_dmin modem2_after.symbol_map modem2_after.M modem2_after.m ⟨1 / 4, 0⟩ 0 false
      = some (9 / 16) ∧
    ml_dmin modem2_after.symbol_map modem2_after.M modem2_after.m ⟨1 / 4, 0⟩ 0 true
      = some (25 / 16) := by
  have e0 : ml_class_distances modem2_after.symbol_map modem2_after.M modem2_after.m
      ⟨1 / 4, 0⟩ 0 false = [dist2 ⟨1 / 4, 0⟩ ⟨1, 0⟩] := by
    simp [ml_class_distances, List.range_succ, List.filter, bit_of, modem2_after, modem2]
  have e1 : ml_class_distances modem2_after.symbol_map modem2_after.M modem2_after.m
      ⟨1 / 4, 0⟩ 0 true = [dist2 ⟨1 / 4, 0⟩ ⟨-1, 0⟩] := by
    simp [ml_class_distances, List.range_succ, List.filter, bit_of, modem2_after, modem2]
  unfold ml_dmin
  rw [e0, e1, dist2_quarter_pos, dist2_quarter_neg]
  exact ⟨rfl, rfl⟩

theorem modem2_table_soft_bits :
    (modem_demodulate_soft_table lib0 modem2 ⟨1 / 4, 0⟩).soft_bits = [39] := by
  have c0 : table_class_distances lib0 modem2_after ⟨1 / 4, 0⟩ 0 1 [1, 0] 1 0 false = [] := by
    simp [table_class_distances, table_neighbors, List.range_succ, List.filter, bit_of]
  have c1 : table_class_distances lib0 modem2_after ⟨1 / 4, 0⟩ 0 1 [1, 0] 1 0 true
      = [dist2 ⟨1 / 4, 0⟩ ⟨-1, 0⟩] := by
    simp [table_class_distances, table_neighbors, table_remodulate, List.range_succ,
      List.filter, bit_of, modem2_after, modem2]
  have hx : dist2 ⟨1 / 4, 0⟩ modem2_after.x_hat = 9 / 16 := dist2_quarter_pos
  have hdm : table_dmin lib0 modem2_after ⟨1 / 4, 0⟩ 0 1 [1, 0] 1 0 = (9 / 16, 1) := by
    rw [table_dmin_eq, c0, c1, hx, dist2_quarter_neg]
    have b0 : bit_of 0 (1 - 0 - 1) = false := by decide
    rw [b0]
    simp only [Bool.false_eq_true, if_false, List.foldl_nil, List.foldl_cons]
    norm_num
  rw [table_soft_bits_eq, lib0_hard_modem2]
  simp only [Prod.fst, Prod.snd]
  have e1 : modem2_after.m = 1 := rfl
  have e2 : modem2_after.demod_soft_neighbors.getD [] = [1, 0] := rfl
  have e3 : modem2_after.demod_soft_p = 1 := rfl
  rw [e1, e2, e3]
  simp only [List.range_succ, List.range_zero, List.nil_append, List.map_cons, List.map_nil,
    hdm, soft_bit_assign_quarter_table]

/-- Witness of C14: the library `lib0`, the modem `modem2` (its table lists
for each symbol the other one) and the sample `0.25+0i`: the table path emits
39, between the max-log soft bit 0 and 127. -/
theorem C14_table_soft_bit_against_max_log_witness :
    lib0.modem_demodulate modem2 ⟨1 / 4, 0⟩ = (modem2_after, 0) ∧
    dist2 ⟨1 / 4, 0⟩ (modem2_after.symbol_map.getD 0 default) ≤ 1 ∧
    soft_bit_assign (9 / 16) (25 / 16)
      ≤ (modem_demodulate_soft_table lib0 modem2 ⟨1 / 4, 0⟩).soft_bits.getD 0 0 ∧
    (modem_demodulate_soft_table lib0 modem2 ⟨1 / 4, 0⟩).soft_bits.getD 0 0 ≤ 127 := by
  have hle : dist2 ⟨1 / 4, 0⟩ (modem2_after.symbol_map.getD 0 default) ≤ 1 := by
    have e : modem2_after.symbol_map.getD 0 default = ⟨1, 0⟩ := rfl
    rw [e, dist2_quarter_pos]
    norm_num
  have h := (C14_table_soft_bit_against_max_log lib0 modem2 ⟨1 / 4, 0⟩ modem2_after 0 0
    (9 / 16) (25 / 16) lib0_hard_modem2 (by decide) (by decide) rfl (Or.inl rfl)
    modem2_after_nearest modem2_after_neighbors modem2_after_ml.1 modem2_after_ml.2).2.2 hle
    (by norm_num) (by norm_num)
  exact ⟨lib0_hard_modem2, hle, h.2 (by decide)⟩

/-- C14 fails as stated: for `modem2` (full neighbour enumeration, nearest
hard decision) and the sample `0.25+0i` the table path gives soft bit 39, the
max-log search gives 0; 39 is nearer to 127 than 0 is, so the table path is
the less confident of the two. -/
theorem C14_counterexample :
    lib0.modem_demodulate modem2 ⟨1 / 4, 0⟩ = (modem2_after, 0) ∧
    modem2_after.demod_soft_p = modem2_after.M - 1 ∧
    (∀ j, j ∈ table_neighbors (modem2_after.demod_soft_neighbors.getD []) 0
        modem2_after.demod_soft_p ↔ (j < modem2_after.M ∧ j ≠ 0)) ∧
    (∀ i, i < modem2_after.M →
      dist2 ⟨1 / 4, 0⟩ (modem2_after.symbol_map.getD 0 default)
        ≤ dist2 ⟨1 / 4, 0⟩ (modem2_after.symbol_map.getD i default)) ∧
    (modem_demodulate_soft_table lib0 modem2 ⟨1 / 4, 0⟩).soft_bits = [39] ∧
    ml_soft_bit modem2_after.symbol_map modem2_after.M modem2_after.m ⟨1 / 4, 0⟩ 0 = some 0 ∧
    127 - 39 < 127 - 0 := by
  refine ⟨lib0_hard_modem2, rfl, modem2_after_neighbors, modem2_after_nearest,
    modem2_table_soft_bits, ?_, by decide⟩
  simp only [ml_soft_bit, modem2_after_ml.1, modem2_after_ml.2, soft_bit_assign_quarter_ml]

/-! ## C15: the minima of the table path -/

/-- C15: the table path returns the hard decision `s` of the hard
demodulator and quantises, for each bit position, the pair of minima
`table_dmin`; with `b` = bit `k` of `s` (0 = most significant of `bps`), the
minimum kept for `b` is the least of the squared distance to `x_hat` (the
re-modulated hard decision) and the squared distances to the neighbours of `s`
whose bit `k` is `b`, the minimum kept for the other bit value is the least of
1.0 and the squared distances to the neighbours whose bit `k` is not `b`; a
neighbour is re-modulated as `symbol_map[neighbour]` when `modulate_using_map`
is set and by `modem_modulate` otherwise. -/
theorem C15_table_minima (lib : Lib) (q : modem) (r : Cplx) (d : modem) (s bps : Nat)
    (softab : List Nat) (p k : Nat) :
    (modem_demodulate_soft_table lib q r).s = (lib.modem_demodulate q r).2 ∧
    (modem_demodulate_soft_table lib q r).soft_bits
      = ((List.range (lib.modem_demodulate q r).1.m).map fun j =>
          soft_bit_assign
            (table_dmin lib (lib.modem_demodulate q r).1 r (lib.modem_demodulate q r).2
              (lib.modem_demodulate q r).1.m
              ((lib.modem_demodulate q r).1.demod_soft_neighbors.getD [])
              (lib.modem_demodulate q r).1.demod_soft_p j).1
            (table_dmin lib (lib.modem_demodulate q r).1 r (lib.modem_demodulate q r).2
              (lib.modem_demodulate q r).1.m
              ((lib.modem_demodulate q r).1.demod_soft_neighbors.getD [])
              (lib.modem_demodulate q r).1.demod_soft_p j).2) ∧
    (Nat.testBit s (bps - k - 1) = true →
      is_least_of (table_dmin lib d r s bps softab p k).2
        (dist2 r d.x_hat :: table_class_distances lib d r s bps softab p k true) ∧
      is_least_of (table_dmin lib d r s bps softab p k).1
        (1 :: table_class_distances lib d r s bps softab p k false)) ∧
    (Nat.testBit s (bps - k - 1) = false →
      is_least_of (table_dmin lib d r s bps softab p k).1
        (dist2 r d.x_hat :: table_class_distances lib d r s bps softab p k false) ∧
      is_least_of (table_dmin lib d r s bps softab p k).2
        (1 :: table_class_distances lib d r s bps softab p k true)) ∧
    (∀ j, table_remodulate lib d j
      = if d.modulate_using_map then d.symbol_map.getD j default
        else lib.modem_modulate d j) := by
  refine ⟨rfl, rfl, ?_, ?_, fun _ => rfl⟩
  · intro hb
    rw [← bit_of_eq_testBit] at hb
    rw [table_dmin_eq, hb]
    exact ⟨foldl_min_least _ _, foldl_min_least _ _⟩
  · intro hb
    rw [← bit_of_eq_testBit] at hb
    rw [table_dmin_eq, hb]
    exact ⟨foldl_min_least _ _, foldl_min_least _ _⟩

/-! ## C16: classification by the running decision -/

/-- The soft bit of the variant that classifies each candidate by its own
bit, on a constellation of two points with one bit per symbol. -/
theorem arb_soft_bits_own_bit_two (q : modem) (r p0 p1 : Cplx) (hm : q.m = 1) (hM : q.M = 2)
    (hmap : q.symbol_map = [p0, p1]) :
    arb_soft_bits_own_bit q r
      = [soft_bit_assign (min 4 (dist2 r p0)) (min 4 (dist2 r p1))] := by
  have b0 : bit_of 0 0 = false := by decide
  have b1 : bit_of 1 0 = true := by decide
  unfold arb_soft_bits_own_bit
  rw [hm, hM, hmap]
  simp only [List.range_succ, List.range_zero, List.nil_append, List.cons_append,
    List.foldl_cons, List.foldl_nil, arb_step_own_bit, arb_bit_step, List.getD_cons_zero,
    List.getD_cons_succ, List.replicate, Nat.sub_self, Nat.zero_sub,
    b0, b1, Bool.false_eq_true, if_false, if_true, List.set_cons_zero, List.map_cons,
    List.map_nil]
  generalize dist2 r p0 = d0
  generalize dist2 r p1 = d1
  by_cases h4 : d0 < 4 <;> by_cases h5 : d1 < 4 <;>
    simp [h4, h5, min_eq_right, min_eq_left, le_of_lt, not_lt.mp]

/-- The literal `0.1f`. -/
theorem f32_tenth : f32_round (1 / 10) = 13421773 / 134217728 := by
  rw [f32_round_eval _ (-4) 13421773] <;> norm_num

theorem dist2_tenth_pos : dist2 ⟨1 / 10, 0⟩ ⟨1, 0⟩ = 1698693 / 2097152 := by
  have h1 : f32_round (1 / 10 - 1) = -(7549747 / 8388608) := by
    rw [f32_round_eval _ (-1) (-15099494)] <;> norm_num
  have h2 : f32_round (-(7549747 / 8388608) * (-(7549747 / 8388608))) = 1698693 / 2097152 := by
    rw [f32_round_eval _ (-1) (13589544)] <;> norm_num
  have h3 : f32_round (1698693 / 2097152) = 1698693 / 2097152 := by
    rw [f32_round_eval _ (-1) (13589544)] <;> norm_num
  rw [dist2_real, h1, h2, h3]

theorem dist2_tenth_neg : dist2 ⟨1 / 10, 0⟩ ⟨-1, 0⟩ = 1268777 / 1048576 := by
  have h1 : f32_round (1 / 10 - -1) = 9227469 / 8388608 := by
    rw [f32_round_eval _ (0) (9227469)] <;> norm_num
  have h2 : f32_round (9227469 / 8388608 * (9227469 / 8388608)) = 1268777 / 1048576 := by
    rw [f32_round_eval _ (0) (10150216)] <;> norm_num
  have h3 : f32_round (1268777 / 1048576) = 1268777 / 1048576 := by
    rw [f32_round_eval _ (0) (10150216)] <;> norm_num
  rw [dist2_real, h1, h2, h3]

theorem dist2_f32_tenth_pos : dist2 ⟨13421773 / 134217728, 0⟩ ⟨1, 0⟩ = 1698693 / 2097152 := by
  have h1 : f32_round (13421773 / 134217728 - 1) = -(7549747 / 8388608) := by
    rw [f32_round_eval _ (-1) (-15099494)] <;> norm_num
  have h2 : f32_round (-(7549747 / 8388608) * (-(7549747 / 8388608))) = 1698693 / 2097152 := by
    rw [f32_round_eval _ (-1) (13589544)] <;> norm_num
  have h3 : f32_round (1698693 / 2097152) = 1698693 / 2097152 := by
    rw [f32_round_eval _ (-1) (13589544)] <;> norm_num
  rw [dist2_real, h1, h2, h3]

theorem dist2_f32_tenth_neg : dist2 ⟨13421773 / 134217728, 0⟩ ⟨-1, 0⟩ = 1268777 / 1048576 := by
  have h1 : f32_round (13421773 / 134217728 - -1) = 9227469 / 8388608 := by
    rw [f32_round_eval _ (0) (9227469)] <;> norm_num
  have h2 : f32_round (9227469 / 8388608 * (9227469 / 8388608)) = 1268777 / 1048576 := by
    rw [f32_round_eval _ (0) (10150216)] <;> norm_num
  have h3 : f32_round (1268777 / 1048576) = 1268777 / 1048576 := by
    rw [f32_round_eval _ (0) (10150216)] <;> norm_num
  rw [dist2_real, h1, h2, h3]

theorem soft_bit_assign_tenth_code : soft_bit_assign (1698693 / 2097152) (4) = 0 := by
  have h1 : f32_round (-4 / (10737419 / 134217728)) = -(13107199 / 262144) := by
    rw [f32_round_eval _ (5) (-13107199)] <;> norm_num
  have h0 : f32_round (-(1698693 / 2097152) / (10737419 / 134217728)) = -(5308415 / 524288) := by
    rw [f32_round_eval _ (3) (-10616830)] <;> norm_num
  have hw : f32_round (-(13107199 / 262144) - -(5308415 / 524288)) = -(319 / 8) := by
    rw [f32_round_eval_tie _ (5) (-10452992)] <;> norm_num
  have hy : f32_round (-(319 / 8) * 16) = -638 := by
    rw [f32_round_eval _ (9) (-10452992)] <;> norm_num
  have hv : f32_round (-638 + 127) = -511 := by
    rw [f32_round_eval _ (8) (-16744448)] <;> norm_num
  have hval : soft_bit_value (1698693 / 2097152) (4) = -511 := by
    rw [soft_bit_value_eq, h1, h0, hw, hy, hv]
  have hf : ⌊(-511 : ℚ)⌋ = -511 := by
    rw [Int.floor_eq_iff]; norm_num
  rw [soft_bit_assign_of_range _ _ (by rw [hval]; norm_num [abs_lt]), hval, hf]
  decide

theorem soft_bit_assign_tenth_own : soft_bit_assign (1698693 / 2097152) (1268777 / 1048576) = 46 := by
  have h1 : f32_round (-(1268777 / 1048576) / (10737419 / 134217728)) = -(15859711 / 1048576) := by
    rw [f32_round_eval _ (3) (-15859711)] <;> norm_num
  have h0 : f32_round (-(1698693 / 2097152) / (10737419 / 134217728)) = -(5308415 / 524288) := by
    rw [f32_round_eval _ (3) (-10616830)] <;> norm_num
  have hw : f32_round (-(15859711 / 1048576) - -(5308415 / 524288)) = -(5242881 / 1048576) := by
    rw [f32_round_eval _ (2) (-10485762)] <;> norm_num
  have hy : f32_round (-(5242881 / 1048576) * 16) = -(5242881 / 65536) := by
    rw [f32_round_eval _ (6) (-10485762)] <;> norm_num
  have hv : f32_round (-(5242881 / 65536) + 127) = 3080191 / 65536 := by
    rw [f32_round_eval _ (5) (12320764)] <;> norm_num
  have hval : soft_bit_value (1698693 / 2097152) (1268777 / 1048576) = 3080191 / 65536 := by
    rw [soft_bit_value_eq, h1, h0, hw, hy, hv]
  have hf : ⌊(3080191 / 65536 : ℚ)⌋ = 46 := by
    rw [Int.floor_eq_iff]; norm_num
  rw [soft_bit_assign_of_range _ _ (by rw [hval]; norm_num [abs_lt]), hval, hf]
  decide

/-- The scan of `modem2` for a sample whose computed squared distances to
`+1` and `-1` are `1698693 / 2097152` and `1268777 / 1048576`: symbol 0 is the nearer one,
and both distances enter the minimum of the class of its bit. -/
theorem arb_scan_modem2_near (r : Cplx) (h0 : dist2 r ⟨1, 0⟩ = 1698693 / 2097152)
    (h1 : dist2 r ⟨-1, 0⟩ = 1268777 / 1048576) :
    arb_scan modem2 r
      = { s := 0, dmin := 1698693 / 2097152, dmin_0 := [1698693 / 2097152], dmin_1 := [4] } := by
  rw [arb_scan_two modem2 r ⟨1, 0⟩ ⟨-1, 0⟩ rfl rfl rfl, h0, h1]
  norm_num

/-- The soft bits of the source and of the variant for such a sample. -/
theorem modem2_near_soft_bits (r : Cplx) (h0 : dist2 r ⟨1, 0⟩ = 1698693 / 2097152)
    (h1 : dist2 r ⟨-1, 0⟩ = 1268777 / 1048576) :
    (∀ lib : Lib, (modem_demodulate_soft_arb lib modem2 r).soft_bits = [0]) ∧
    arb_soft_bits_own_bit modem2 r = [46] := by
  constructor
  · intro lib
    rw [arb_soft_bits_one lib modem2 r rfl, arb_scan_modem2_near r h0 h1]
    simp only [List.getD_cons_zero]
    rw [soft_bit_assign_tenth_code]
  · rw [arb_soft_bits_own_bit_two modem2 r ⟨1, 0⟩ ⟨-1, 0⟩ rfl rfl rfl, h0, h1]
    have e0 : min (4 : ℚ) (1698693 / 2097152) = 1698693 / 2097152 := by norm_num
    have e1 : min (4 : ℚ) (1268777 / 1048576) = 1268777 / 1048576 := by norm_num
    rw [e0, e1, soft_bit_assign_tenth_own]

/-- C16: one pass of the scan of the arbitrary path for the candidate `i`
updates, at every bit position `k`, the minimum of the class given by bit `k`
of the running decision `s` (already updated for `i`), not of `i`; and this
changes the result: for the symbol map `[+1, -1]` and the sample `0.1+0i`
(taken as the rational `1/10` or as the binary32 value `0.1f`) the arbitrary
path emits soft bit 0, while the variant that classifies each candidate by
its own bit, with the same initial value 4.0 and the same quantisation,
emits 46. -/
theorem C16_arb_classifies_by_running_decision :
    (∀ (symbol_map : List Cplx) (bps : Nat) (r : Cplx) (st : ArbState) (i k : Nat),
      st.dmin_0.length = bps → st.dmin_1.length = bps → k < bps →
      (arb_step symbol_map bps r st i).s
        = (if dist2 r (symbol_map.getD i default) < st.dmin ∨ i = 0 then i else st.s) ∧
      (arb_step symbol_map bps r st i).dmin_0.getD k 0
        = (if Nat.testBit (arb_step symbol_map bps r st i).s (bps - k - 1) = false
          then min (st.dmin_0.getD k 0) (dist2 r (symbol_map.getD i default))
          else st.dmin_0.getD k 0) ∧
      (arb_step symbol_map bps r st i).dmin_1.getD k 0
        = (if Nat.testBit (arb_step symbol_map bps r st i).s (bps - k - 1) = true
          then min (st.dmin_1.getD k 0) (dist2 r (symbol_map.getD i default))
          else st.dmin_1.getD k 0)) ∧
    (∀ lib : Lib, (modem_demodulate_soft_arb lib modem2 ⟨1 / 10, 0⟩).soft_bits = [0]) ∧
    arb_soft_bits_own_bit modem2 ⟨1 / 10, 0⟩ = [46] ∧
    (∀ lib : Lib,
      (modem_demodulate_soft_arb lib modem2 ⟨f32_round (1 / 10), 0⟩).soft_bits = [0]) ∧
    arb_soft_bits_own_bit modem2 ⟨f32_round (1 / 10), 0⟩ = [46] := by
  have hq := modem2_near_soft_bits ⟨1 / 10, 0⟩ dist2_tenth_pos dist2_tenth_neg
  have hf := modem2_near_soft_bits ⟨f32_round (1 / 10), 0⟩
    (by rw [f32_tenth]; exact dist2_f32_tenth_pos)
    (by rw [f32_tenth]; exact dist2_f32_tenth_neg)
  refine ⟨?_, hq.1, hq.2, hf.1, hf.2⟩
  intro symbol_map bps r st i k h0 h1 hk
  obtain ⟨_, _, g0, g1⟩ := arb_step_spec symbol_map bps r st i h0 h1
  simp only [← bit_of_eq_testBit]
  exact ⟨rfl, g0 k hk, g1 k hk⟩

/-! ## C17: soft bits of the arbitrary path agree with its hard symbol -/

/-- C17 (as amended): in the arbitrary path with `M ≥ 1`, the returned symbol
`s` is a nearest point in the squared distance the source computes (in single
precision) and, for every bit position `k < m`, the minimum kept for the bit
value of bit `k` of `s` (0 = most significant) is `min(4.0, computed squared
distance of s)` and is not greater than the minimum kept for the other bit
value, so soft bit `k` is at least 127 when that bit is 1 and at most 127 when
it is 0; when the computed squared distance of every point is 4.0 or more,
soft bit `k` is exactly 127. -/
theorem C17_arb_soft_bits_follow_hard_symbol (lib : Lib) (q : modem) (r : Cplx) (k : Nat)
    (hM : 1 ≤ q.M) (hk : k < q.m) :
    (∀ i, i < q.M →
      dist2 r (q.symbol_map.getD (modem_demodulate_soft_arb lib q r).s default)
        ≤ dist2 r (q.symbol_map.getD i default)) ∧
    (Nat.testBit (modem_demodulate_soft_arb lib q r).s (q.m - 1 - k) = true →
      (arb_scan q r).dmin_1.getD k 0
        = min 4 (dist2 r (q.symbol_map.getD (modem_demodulate_soft_arb lib q r).s default)) ∧
      (arb_scan q r).dmin_1.getD k 0 ≤ (arb_scan q r).dmin_0.getD k 0 ∧
      127 ≤ (modem_demodulate_soft_arb lib q r).soft_bits.getD k 0) ∧
    (Nat.testBit (modem_demodulate_soft_arb lib q r).s (q.m - 1 - k) = false →
      (arb_scan q r).dmin_0.getD k 0
        = min 4 (dist2 r (q.symbol_map.getD (modem_demodulate_soft_arb lib q r).s default)) ∧
      (arb_scan q r).dmin_0.getD k 0 ≤ (arb_scan q r).dmin_1.getD k 0 ∧
      (modem_demodulate_soft_arb lib q r).soft_bits.getD k 0 ≤ 127) ∧
    ((∀ i, i < q.M → 4 ≤ dist2 r (q.symbol_map.getD i default)) →
      (modem_demodulate_soft_arb lib q r).soft_bits.getD k 0 = 127) := by
  obtain ⟨hlt, hdmin, hnear, _⟩ := arb_fold_hard q.symbol_map q.m r
    { s := 0, dmin := 0, dmin_0 := List.replicate q.m 4, dmin_1 := List.replicate q.m 4 } q.M hM
  obtain ⟨_, _, inv⟩ := arb_fold_classes q.symbol_map q.m r q.M hM
  obtain ⟨a0, b0, a1, b1, c1, c0⟩ := inv k hk
  obtain ⟨⟨n0, u0⟩, ⟨n1, u1⟩⟩ := arb_dmin_range q r k hk
  have hr : |soft_bit_value ((arb_scan q r).dmin_0.getD k 0) ((arb_scan q r).dmin_1.getD k 0)|
      < 2 ^ 31 :=
    soft_bit_value_in_range _ _ (by rw [abs_of_nonneg n0]; linarith only [u0])
      (by rw [abs_of_nonneg n1]; linarith only [u1])
  have hshift : q.m - 1 - k = q.m - k - 1 := by omega
  rw [arb_soft_bit_get lib q r k hk, arb_s_eq, hshift, ← bit_of_eq_testBit]
  have hD : (arb_scan q r).dmin
      = dist2 r (q.symbol_map.getD (arb_scan q r).s default) := hdmin
  rw [← arb_scan_eq_upto] at a0 b0 a1 b1 c1 c0
  rw [← hD]
  refine ⟨?_, ?_, ?_, ?_⟩
  · rw [hD]; exact hnear
  · intro hb
    have e := c1 hb
    have hle : (arb_scan q r).dmin_1.getD k 0 ≤ (arb_scan q r).dmin_0.getD k 0 := by
      rw [e]; exact a0
    exact ⟨e, hle, soft_bit_assign_ge _ _ hle hr⟩
  · intro hb
    have e := c0 hb
    have hle : (arb_scan q r).dmin_0.getD k 0 ≤ (arb_scan q r).dmin_1.getD k 0 := by
      rw [e]; exact a1
    exact ⟨e, hle, soft_bit_assign_le_mid _ _ hle hr⟩
  · intro hfar
    have h4 : 4 ≤ (arb_scan q r).dmin := by
      rw [hD]; exact hfar _ hlt
    have hm : min 4 (arb_scan q r).dmin = 4 := min_eq_left h4
    rw [hm] at a0 a1
    have e0 : (arb_scan q r).dmin_0.getD k 0 = 4 := le_antisymm b0 a0
    have e1 : (arb_scan q r).dmin_1.getD k 0 = 4 := le_antisymm b1 a1
    rw [e0, e1]
    exact soft_bit_assign_self 4

theorem dist2_four_pos : dist2 ⟨4, 0⟩ ⟨1, 0⟩ = 9 := by
  have h1 : f32_round (4 - 1) = 3 := by
    rw [f32_round_eval _ (1) (12582912)] <;> norm_num
  have h2 : f32_round (3 * 3) = 9 := by
    rw [f32_round_eval _ (3) (9437184)] <;> norm_num
  have h3 : f32_round (9) = 9 := by
    rw [f32_round_eval _ (3) (9437184)] <;> norm_num
  rw [dist2_real, h1, h2, h3]

theorem dist2_four_neg : dist2 ⟨4, 0⟩ ⟨-1, 0⟩ = 25 := by
  have h1 : f32_round (4 - -1) = 5 := by
    rw [f32_round_eval _ (2) (10485760)] <;> norm_num
  have h2 : f32_round (5 * 5) = 25 := by
    rw [f32_round_eval _ (4) (13107200)] <;> norm_num
  have h3 : f32_round (25) = 25 := by
    rw [f32_round_eval _ (4) (13107200)] <;> norm_num
  rw [dist2_real, h1, h2, h3]

theorem dist2_far_0 : dist2 ⟨11863283 / 8388608, 11863283 / 8388608⟩ ⟨-(1 / 33554432), -(1 / 33554432)⟩ = 16777215 / 4194304 := by
  have h1 : f32_round (11863283 / 8388608 - -(1 / 33554432)) = 11863283 / 8388608 := by
    rw [f32_round_eval _ (0) (11863283)] <;> norm_num
  have h2 : f32_round (11863283 / 8388608 * (11863283 / 8388608)) = 16777215 / 8388608 := by
    rw [f32_round_eval _ (0) (16777215)] <;> norm_num
  have h3 : f32_round (11863283 / 8388608 - -(1 / 33554432)) = 11863283 / 8388608 := by
    rw [f32_round_eval _ (0) (11863283)] <;> norm_num
  have h4 : f32_round (11863283 / 8388608 * (11863283 / 8388608)) = 16777215 / 8388608 := by
    rw [f32_round_eval _ (0) (16777215)] <;> norm_num
  have h5 : f32_round (16777215 / 8388608 + (16777215 / 8388608)) = 16777215 / 4194304 := by
    rw [f32_round_eval _ (1) (16777215)] <;> norm_num
  rw [dist2_eq]
  show f32_round (f32_round (f32_round (11863283 / 8388608 - -(1 / 33554432)) * f32_round (11863283 / 8388608 - -(1 / 33554432)))
      + f32_round (f32_round (11863283 / 8388608 - -(1 / 33554432)) * f32_round (11863283 / 8388608 - -(1 / 33554432)))) = _
  rw [h1, h2, h5]

theorem dist2_far_1 : dist2 ⟨11863283 / 8388608, 11863283 / 8388608⟩ ⟨8, 8⟩ = 5684931 / 65536 := by
  have h1 : f32_round (11863283 / 8388608 - 8) = -(13811395 / 2097152) := by
    rw [f32_round_eval _ (2) (-13811395)] <;> norm_num
  have h2 : f32_round (-(13811395 / 2097152) * (-(13811395 / 2097152))) = 5684931 / 131072 := by
    rw [f32_round_eval _ (5) (11369862)] <;> norm_num
  have h3 : f32_round (11863283 / 8388608 - 8) = -(13811395 / 2097152) := by
    rw [f32_round_eval _ (2) (-13811395)] <;> norm_num
  have h4 : f32_round (-(13811395 / 2097152) * (-(13811395 / 2097152))) = 5684931 / 131072 := by
    rw [f32_round_eval _ (5) (11369862)] <;> norm_num
  have h5 : f32_round (5684931 / 131072 + (5684931 / 131072)) = 5684931 / 65536 := by
    rw [f32_round_eval _ (6) (11369862)] <;> norm_num
  rw [dist2_eq]
  show f32_round (f32_round (f32_round (11863283 / 8388608 - 8) * f32_round (11863283 / 8388608 - 8))
      + f32_round (f32_round (11863283 / 8388608 - 8) * f32_round (11863283 / 8388608 - 8))) = _
  rw [h1, h2, h5]

theorem soft_bit_assign_far : soft_bit_assign (16777215 / 4194304) (4) = 126 := by
  have h1 : f32_round (-4 / (10737419 / 134217728)) = -(13107199 / 262144) := by
    rw [f32_round_eval _ (5) (-13107199)] <;> norm_num
  have h0 : f32_round (-(16777215 / 4194304) / (10737419 / 134217728)) = -(6553599 / 131072) := by
    rw [f32_round_eval _ (5) (-13107198)] <;> norm_num
  have hw : f32_round (-(13107199 / 262144) - -(6553599 / 131072)) = -(1 / 262144) := by
    rw [f32_round_eval _ (-18) (-8388608)] <;> norm_num
  have hy : f32_round (-(1 / 262144) * 16) = -(1 / 16384) := by
    rw [f32_round_eval _ (-14) (-8388608)] <;> norm_num
  have hv : f32_round (-(1 / 16384) + 127) = 2080767 / 16384 := by
    rw [f32_round_eval _ (6) (16646136)] <;> norm_num
  have hval : soft_bit_value (16777215 / 4194304) (4) = 2080767 / 16384 := by
    rw [soft_bit_value_eq, h1, h0, hw, hy, hv]
  have hf : ⌊(2080767 / 16384 : ℚ)⌋ = 126 := by
    rw [Int.floor_eq_iff]; norm_num
  rw [soft_bit_assign_of_range _ _ (by rw [hval]; norm_num [abs_lt]), hval, hf]
  decide

/-- Witness of C17: the modem `modem2` and the sample `4+0i`, whose computed
squared distances to the two points are 9 and 25. -/
theorem C17_arb_soft_bits_follow_hard_symbol_witness :
    1 ≤ modem2.M ∧ 0 < modem2.m ∧
    (modem_demodulate_soft_arb lib0 modem2 ⟨4, 0⟩).soft_bits.getD 0 0 = 127 := by
  refine ⟨by decide, by decide,
    (C17_arb_soft_bits_follow_hard_symbol lib0 modem2 ⟨4, 0⟩ 0 (by decide) (by decide)).2.2.2 ?_⟩
  intro i hi
  have hi2 : i < 2 := hi
  interval_cases i
  · show 4 ≤ dist2 ⟨4, 0⟩ ⟨1, 0⟩
    rw [dist2_four_pos]
    norm_num
  · show 4 ≤ dist2 ⟨4, 0⟩ ⟨-1, 0⟩
    rw [dist2_four_neg]
    norm_num

/-- The scan of `modem_far` for the sample `x + x i`, `x = 11863283/2^23`
(the binary32 value next below the square root of 2). -/
theorem arb_scan_modem_far :
    arb_scan modem_far ⟨11863283 / 8388608, 11863283 / 8388608⟩
      = { s := 0, dmin := 16777215 / 4194304, dmin_0 := [16777215 / 4194304],
          dmin_1 := [4] } := by
  rw [arb_scan_two modem_far _ ⟨-(1 / 33554432), -(1 / 33554432)⟩ ⟨8, 8⟩ rfl rfl rfl,
    dist2_far_0, dist2_far_1]
  norm_num

/-- C17 fails as stated: for the two points `-2^-25 - 2^-25 i` and `8 + 8i`
and the sample `x + x i`, `x = 11863283/2^23`, every point is at exact squared
distance 4.0 or more from the sample (the first one at `4.00000003...`), but
the source computes the squared distance `4 - 2^-22` to the first point,
keeps it as the minimum of the class of bit value 0 in place of `min(4.0,
exact squared distance) = 4.0`, and emits the soft bit 126. -/
theorem C17_counterexample :
    1 ≤ modem_far.M ∧ modem_far.m = 1 ∧
    (∀ i, i < modem_far.M →
      4 ≤ dist2_exact ⟨11863283 / 8388608, 11863283 / 8388608⟩
        (modem_far.symbol_map.getD i default)) ∧
    dist2 ⟨11863283 / 8388608, 11863283 / 8388608⟩ (modem_far.symbol_map.getD 0 default)
      = 16777215 / 4194304 ∧
    (modem_demodulate_soft_arb lib0 modem_far ⟨11863283 / 8388608, 11863283 / 8388608⟩).s = 0 ∧
    (arb_scan modem_far ⟨11863283 / 8388608, 11863283 / 8388608⟩).dmin_0 = [16777215 / 4194304] ∧
    (modem_demodulate_soft_arb lib0 modem_far
      ⟨11863283 / 8388608, 11863283 / 8388608⟩).soft_bits = [126] := by
  refine ⟨by decide, rfl, ?_, dist2_far_0, ?_, ?_, ?_⟩
  · intro i hi
    have hi2 : i < 2 := hi
    interval_cases i
    · norm_num [dist2_exact, modem_far]
    · norm_num [dist2_exact, modem_far]
  · rw [arb_s_eq, arb_scan_modem_far]
  · rw [arb_scan_modem_far]
  · rw [arb_soft_bits_one lib0 modem_far _ rfl, arb_scan_modem_far]
    simp only [List.getD_cons_zero]
    rw [soft_bit_assign_far]

/-! ## C18: every lookup of the table path and the arbitrary path is in bounds -/

/-- A checked loop whose every pass succeeds with the value of the unchecked
pass, under an invariant of the loop state, succeeds with the value of the
unchecked loop. -/
theorem foldlM_eq_some_foldl {α β : Type} (f : β → α → Option β) (g : β → α → β)
    (Inv : β → Prop) (l : List α)
    (h : ∀ b, Inv b → ∀ a, a ∈ l → f b a = some (g b a) ∧ Inv (g b a)) :
    ∀ b, Inv b → l.foldlM f b = some (l.foldl g b) ∧ Inv (l.foldl g b) := by
  induction l with
  | nil => intro b hb; exact ⟨rfl, hb⟩
  | cons a l ih =>
    intro b hb
    obtain ⟨h1, h2⟩ := h b hb a (List.mem_cons_self _ _)
    rw [List.foldlM_cons, h1, List.foldl_cons]
    exact ih (fun b' hb' a' ha' => h b' hb' a' (List.mem_cons_of_mem _ ha')) _ h2

theorem getElem_opt_eq_some_getD {α : Type} (l : List α) (i : Nat) (dflt : α)
    (h : i < l.length) : l[i]? = some (l.getD i dflt) := by
  rw [List.getD_eq_getElem?_getD, List.getElem?_eq_getElem h]; rfl

/-- A pass of the loop over the neighbours is in bounds when the table holds
position `s*p+i`, the symbol read is a position of the symbol map and
`k < bps`. -/
theorem table_neighbor_step_checked_eq (lib : Lib) (d : modem) (r : Cplx) (s bps p k : Nat)
    (softab : List Nat) (st : ℚ × ℚ) (i : Nat)
    (htab : d.demod_soft_neighbors = some softab)
    (hidx : s * p + i < softab.length)
    (hsym : softab.getD (s * p + i) 0 < d.symbol_map.length)
    (hk : k < bps) :
    table_neighbor_step_checked lib d r s bps p k st i
      = some (table_neighbor_step lib d r s bps softab p k st i) := by
  have h1 : softab[s * p + i]? = some (softab.getD (s * p + i) 0) :=
    getElem_opt_eq_some_getD _ _ _ hidx
  have h2 : d.symbol_map[softab.getD (s * p + i) 0]?
      = some (d.symbol_map.getD (softab.getD (s * p + i) 0) default) :=
    getElem_opt_eq_some_getD _ _ _ hsym
  unfold table_neighbor_step_checked table_neighbor_step bit_of_checked
  simp only [htab, h1, hk, if_true, Option.bind_eq_bind, Option.some_bind, Option.pure_def]
  by_cases hm : d.modulate_using_map = true
  · simp only [hm, if_true, h2, Option.some_bind]
    split <;> rfl
  · have hm' : d.modulate_using_map = false := by simpa using hm
    simp only [hm', Bool.false_eq_true, if_false, Option.some_bind]
    split <;> rfl


/-- The pass for bit `k` of the table path is in bounds. -/
theorem table_dmin_checked_eq (lib : Lib) (d : modem) (r : Cplx) (s bps p k : Nat)
    (hcases : p = 0 ∨ ∃ softab, d.demod_soft_neighbors = some softab ∧
      (∀ i, i < p → s * p + i < softab.length ∧
        softab.getD (s * p + i) 0 < d.symbol_map.length))
    (hk : k < bps) :
    table_dmin_checked lib d r s bps p k
      = some (table_dmin lib d r s bps (d.demod_soft_neighbors.getD []) p k) := by
  unfold table_dmin_checked table_dmin bit_of_checked
  simp only [hk, if_true, Option.bind_eq_bind, Option.some_bind]
  rcases hcases with hp | ⟨softab, htab, hin⟩
  · subst hp
    rfl
  · have hget : d.demod_soft_neighbors.getD [] = softab := by rw [htab]; rfl
    rw [hget]
    exact (foldlM_eq_some_foldl _ (table_neighbor_step lib d r s bps softab p k)
      (fun _ => True) (List.range p)
      (fun st _ i hi => ⟨table_neighbor_step_checked_eq lib d r s bps p k softab st i htab
        (hin i (List.mem_range.mp hi)).1 (hin i (List.mem_range.mp hi)).2 hk, trivial⟩)
      _ trivial).1

/-- Stores at the positions `0 .. n-1` of a buffer, one value per position
(possibly after another store at the same position), leave the values in
index order followed by the rest of the buffer. -/
theorem store_loop (v w : Nat → Nat) (n : Nat) : ∀ buf : List Nat, n ≤ buf.length →
    (List.range n).foldl (fun b k => (b.set k (w k)).set k (v k)) buf
      = (List.range n).map v ++ buf.drop n := by
  induction n with
  | zero => intro buf _; simp
  | succ n ih =>
    intro buf hn
    rw [List.range_succ, List.foldl_append, List.foldl_cons, List.foldl_nil,
      ih buf (Nat.le_of_succ_le hn), List.map_append, List.map_cons, List.map_nil]
    have hlen : ((List.range n).map v).length = n := by simp
    have hdrop : buf.drop n = buf[n] :: buf.drop (n + 1) := by
      rw [List.drop_eq_getElem_cons hn]
    simp only [List.set_append, hlen, lt_irrefl, if_false, Nat.sub_self, List.append_assoc]
    rw [hdrop]
    rfl

/-- The pass for bit `k` of the table path stores twice at position `k`. -/
theorem table_bit_checked_eq (lib : Lib) (d : modem) (r : Cplx) (s bps p : Nat)
    (buf : List Nat) (k : Nat)
    (hcases : p = 0 ∨ ∃ softab, d.demod_soft_neighbors = some softab ∧
      (∀ i, i < p → s * p + i < softab.length ∧
        softab.getD (s * p + i) 0 < d.symbol_map.length))
    (hk : k < bps) (hbuf : k < buf.length) :
    table_bit_checked lib d r s bps p buf k
      = some ((buf.set k 127).set k
          (soft_bit_assign (table_dmin lib d r s bps (d.demod_soft_neighbors.getD []) p k).1
            (table_dmin lib d r s bps (d.demod_soft_neighbors.getD []) p k).2)) := by
  unfold table_bit_checked write_checked
  rw [table_dmin_checked_eq lib d r s bps p k hcases hk]
  simp [hbuf]

/-- The table path with every lookup checked, under bounds on the table, the
symbol map and the output buffer of the object the hard demodulator leaves. -/
theorem table_checked_eq (lib : Lib) (q : modem) (r : Cplx) (buf : List Nat)
    (hcases : (lib.modem_demodulate q r).1.demod_soft_p = 0 ∨
      ∃ softab, (lib.modem_demodulate q r).1.demod_soft_neighbors = some softab ∧
      (∀ i, i < (lib.modem_demodulate q r).1.demod_soft_p →
        (lib.modem_demodulate q r).2 * (lib.modem_demodulate q r).1.demod_soft_p + i
          < softab.length ∧
        softab.getD ((lib.modem_demodulate q r).2 * (lib.modem_demodulate q r).1.demod_soft_p + i) 0
          < (lib.modem_demodulate q r).1.symbol_map.length))
    (hbuf : buf.length = (lib.modem_demodulate q r).1.m) :
    modem_demodulate_soft_table_checked lib q r buf
      = some (modem_demodulate_soft_table lib q r) := by
  unfold modem_demodulate_soft_table_checked modem_demodulate_soft_table modem_get_bps
  simp only [Option.bind_eq_bind, Option.pure_def]
  generalize lib.modem_demodulate q r = hard at hcases hbuf
  obtain ⟨hfold, -⟩ := foldlM_eq_some_foldl
    (table_bit_checked lib hard.1 r hard.2 hard.1.m hard.1.demod_soft_p)
    (fun b k => (b.set k 127).set k
      (soft_bit_assign
        (table_dmin lib hard.1 r hard.2 hard.1.m (hard.1.demod_soft_neighbors.getD [])
          hard.1.demod_soft_p k).1
        (table_dmin lib hard.1 r hard.2 hard.1.m (hard.1.demod_soft_neighbors.getD [])
          hard.1.demod_soft_p k).2))
    (fun b => b.length = hard.1.m) (List.range hard.1.m)
    (fun b hb k hk => ⟨table_bit_checked_eq lib hard.1 r hard.2 hard.1.m hard.1.demod_soft_p b k
        hcases (List.mem_range.mp hk) (by rw [hb]; exact List.mem_range.mp hk),
      by simp [hb]⟩)
    buf hbuf
  rw [hfold, store_loop _ (fun _ => 127) _ buf (le_of_eq hbuf.symm),
    List.drop_of_length_le (le_of_eq hbuf)]
  simp

/-- One pass of the inner loop of the arbitrary path is in bounds when `k` is
a position of both arrays and `k < bps`. -/
theorem arb_bit_step_checked_eq (s bps : Nat) (d : ℚ) (st : List ℚ × List ℚ) (k : Nat)
    (hk : k < bps) (h0 : k < st.1.length) (h1 : k < st.2.length) :
    arb_bit_step_checked s bps d st k = some (arb_bit_step s bps d st k) := by
  unfold arb_bit_step_checked arb_bit_step bit_of_checked
  simp only [hk, if_true, Option.bind_eq_bind, Option.some_bind, Option.pure_def,
    getElem_opt_eq_some_getD st.1 k 0 h0, getElem_opt_eq_some_getD st.2 k 0 h1]
  split <;> rfl

/-- One pass of the outer loop of the arbitrary path is in bounds when `i` is
a position of the symbol map and both arrays have `bps` entries. -/
theorem arb_step_checked_eq (symbol_map : List Cplx) (bps : Nat) (r : Cplx) (st : ArbState)
    (i : Nat) (hi : i < symbol_map.length) (h0 : st.dmin_0.length = bps)
    (h1 : st.dmin_1.length = bps) :
    arb_step_checked symbol_map bps r st i = some (arb_step symbol_map bps r st i) ∧
    (arb_step symbol_map bps r st i).dmin_0.length = bps ∧
    (arb_step symbol_map bps r st i).dmin_1.length = bps := by
  unfold arb_step_checked arb_step
  simp only [getElem_opt_eq_some_getD symbol_map i default hi, Option.bind_eq_bind,
    Option.some_bind, Option.pure_def]
  obtain ⟨hfold, hl0, hl1⟩ := foldlM_eq_some_foldl
    (arb_bit_step_checked (if dist2 r (symbol_map.getD i default) < st.dmin ∨ i = 0 then i else st.s)
      bps (dist2 r (symbol_map.getD i default)))
    (arb_bit_step (if dist2 r (symbol_map.getD i default) < st.dmin ∨ i = 0 then i else st.s)
      bps (dist2 r (symbol_map.getD i default)))
    (fun b => b.1.length = bps ∧ b.2.length = bps) (List.range bps)
    (fun b hb k hk => by
      have hk' : k < bps := List.mem_range.mp hk
      obtain ⟨l0, l1, -, -⟩ := arb_bit_step_spec
        (if dist2 r (symbol_map.getD i default) < st.dmin ∨ i = 0 then i else st.s) bps
        (dist2 r (symbol_map.getD i default)) b k (by rw [hb.1]; exact hk')
        (by rw [hb.2]; exact hk')
      exact ⟨arb_bit_step_checked_eq _ _ _ _ _ hk' (by rw [hb.1]; exact hk')
        (by rw [hb.2]; exact hk'), by rw [l0]; exact hb.1, by rw [l1]; exact hb.2⟩)
    (st.dmin_0, st.dmin_1) ⟨h0, h1⟩
  rw [hfold]
  exact ⟨rfl, hl0, hl1⟩

/-- The assignment for bit `k` of the arbitrary path is in bounds when `k` is
a position of both arrays and of the output buffer. -/
theorem arb_assign_checked_eq (st : ArbState) (buf : List Nat) (k : Nat)
    (h0 : k < st.dmin_0.length) (h1 : k < st.dmin_1.length) (hbuf : k < buf.length) :
    arb_assign_checked st buf k
      = some (buf.set k (soft_bit_assign (st.dmin_0.getD k 0) (st.dmin_1.getD k 0))) := by
  unfold arb_assign_checked write_checked
  simp only [getElem_opt_eq_some_getD st.dmin_0 k 0 h0, getElem_opt_eq_some_getD st.dmin_1 k 0 h1,
    Option.bind_eq_bind, Option.some_bind, hbuf, if_true]

/-- The arbitrary path with every lookup checked, when the symbol map has
at least `M` entries and the output buffer exactly `m`. -/
theorem arb_checked_eq (lib : Lib) (q : modem) (r : Cplx) (buf : List Nat)
    (hmap : q.M ≤ q.symbol_map.length) (hbuf : buf.length = q.m) :
    modem_demodulate_soft_arb_checked lib q r buf
      = some (modem_demodulate_soft_arb lib q r) := by
  unfold modem_demodulate_soft_arb_checked modem_demodulate_soft_arb arb_scan
  simp only [Option.bind_eq_bind, Option.pure_def]
  obtain ⟨hscan, hl0, hl1⟩ := foldlM_eq_some_foldl
    (arb_step_checked q.symbol_map q.m r) (arb_step q.symbol_map q.m r)
    (fun st => st.dmin_0.length = q.m ∧ st.dmin_1.length = q.m) (List.range q.M)
    (fun st hst i hi => arb_step_checked_eq q.symbol_map q.m r st i
      (lt_of_lt_of_le (List.mem_range.mp hi) hmap) hst.1 hst.2)
    { s := 0, dmin := 0, dmin_0 := List.replicate q.m 4, dmin_1 := List.replicate q.m 4 }
    ⟨List.length_replicate _ _, List.length_replicate _ _⟩
  rw [hscan]
  simp only [Option.some_bind]
  generalize (List.range q.M).foldl (arb_step q.symbol_map q.m r)
    { s := 0, dmin := 0, dmin_0 := List.replicate q.m 4, dmin_1 := List.replicate q.m 4 } = fin
    at hl0 hl1
  obtain ⟨hfold, -⟩ := foldlM_eq_some_foldl (arb_assign_checked fin)
    (fun b k => (b.set k (soft_bit_assign (fin.dmin_0.getD k 0) (fin.dmin_1.getD k 0))).set k
      (soft_bit_assign (fin.dmin_0.getD k 0) (fin.dmin_1.getD k 0)))
    (fun b => b.length = q.m) (List.range q.m)
    (fun b hb k hk => by
      have hk' : k < q.m := List.mem_range.mp hk
      refine ⟨?_, by simp [hb]⟩
      rw [arb_assign_checked_eq fin b k (by rw [hl0]; exact hk') (by rw [hl1]; exact hk')
        (by rw [hb]; exact hk')]
      simp)
    buf hbuf
  rw [hfold, store_loop (fun k => soft_bit_assign (fin.dmin_0.getD k 0) (fin.dmin_1.getD k 0))
    (fun k => soft_bit_assign (fin.dmin_0.getD k 0) (fin.dmin_1.getD k 0)) _ buf
    (le_of_eq hbuf.symm), List.drop_of_length_le (le_of_eq hbuf)]
  simp

/-- Position `s*P+i` of a table of `M*P` entries, for `s < M` and `i < P`. -/
theorem table_index_lt (s M P i : Nat) (hs : s < M) (hi : i < P) : s * P + i < M * P :=
  calc s * P + i < s * P + P := Nat.add_lt_add_left hi _
    _ = (s + 1) * P := (Nat.succ_mul s P).symm
    _ ≤ M * P := Nat.mul_le_mul_right P hs

theorem getD_mem_of_lt (l : List Nat) (i : Nat) (h : i < l.length) : l.getD i 0 ∈ l := by
  rw [List.getD_eq_getElem _ _ h]
  exact List.getElem_mem h

/-- C18: under the configuration preconditions (symbol map of length `M`,
neighbour table of length `M*P` with every entry below `M`, `M = 2^m`, a hard
demodulator that leaves the configuration as it is and returns `s < M`, an
output buffer of `m` soft bits), the table path and the arbitrary path with
every lookup checked (table, symbol map, shift amount, `dmin_0`/`dmin_1`
arrays, output buffer) never fail and return what the paths return; each
table index `s*P+i` is below `M*P`, the entry read there is below `M`, and
each shift amount `m-k-1` is below `m`. -/
theorem C18_lookups_in_bounds (lib : Lib) (q : modem) (r : Cplx) (buf : List Nat)
    (hmap : q.symbol_map.length = q.M)
    (htab : (q.demod_soft_neighbors.getD []).length = q.M * q.demod_soft_p)
    (hent : ∀ x, x ∈ q.demod_soft_neighbors.getD [] → x < q.M)
    (hM : q.M = 2 ^ q.m)
    (hkeep : same_configuration q (lib.modem_demodulate q r).1)
    (hs : (lib.modem_demodulate q r).2 < q.M)
    (hbuf : buf.length = q.m) :
    modem_demodulate_soft_table_checked lib q r buf
      = some (modem_demodulate_soft_table lib q r) ∧
    modem_demodulate_soft_arb_checked lib q r buf
      = some (modem_demodulate_soft_arb lib q r) ∧
    (∀ i, i < q.demod_soft_p →
      (lib.modem_demodulate q r).2 * q.demod_soft_p + i < q.M * q.demod_soft_p ∧
      (q.demod_soft_neighbors.getD []).getD
        ((lib.modem_demodulate q r).2 * q.demod_soft_p + i) 0 < q.M) ∧
    (∀ k, k < q.m → q.m - k - 1 < q.m ∧ k < buf.length) := by
  have hidx : ∀ i, i < q.demod_soft_p →
      (lib.modem_demodulate q r).2 * q.demod_soft_p + i
        < (q.demod_soft_neighbors.getD []).length := by
    intro i hi
    rw [htab]
    exact table_index_lt _ _ _ _ hs hi
  have hsym : ∀ i, i < q.demod_soft_p →
      (q.demod_soft_neighbors.getD []).getD
        ((lib.modem_demodulate q r).2 * q.demod_soft_p + i) 0 < q.M :=
    fun i hi => hent _ (getD_mem_of_lt _ _ (hidx i hi))
  obtain ⟨-, hm, -, hsm, -, hnb, hp⟩ := hkeep
  refine ⟨?_, arb_checked_eq lib q r buf (le_of_eq hmap.symm) hbuf,
    fun i hi => ⟨table_index_lt _ _ _ _ hs hi, hsym i hi⟩, fun k hk => ⟨by omega, by omega⟩⟩
  apply table_checked_eq lib q r buf _ (hbuf.trans hm)
  rw [← hp, ← hnb, ← hsm]
  by_cases hp0 : q.demod_soft_p = 0
  · exact Or.inl hp0
  · right
    cases hq : q.demod_soft_neighbors with
    | none =>
      exfalso
      rw [hq] at htab
      have hMpos : 0 < q.M := by rw [hM]; exact Nat.pow_pos (by decide)
      have : q.M * q.demod_soft_p = 0 := htab.symm
      rcases Nat.mul_eq_zero.mp this with h | h
      · omega
      · exact hp0 h
    | some softab =>
      rw [hq] at hidx hsym
      refine ⟨softab, rfl, fun i hi => ⟨hidx i hi, ?_⟩⟩
      rw [hmap]
      exact hsym i hi

/-- Witness of C18: the library `lib0`, the modem `modem2`, the sample
`0.3+0i` and a buffer of one soft bit. -/
theorem C18_lookups_in_bounds_witness :
    modem2.symbol_map.length = modem2.M ∧
    (modem2.demod_soft_neighbors.getD []).length = modem2.M * modem2.demod_soft_p ∧
    modem2.M = 2 ^ modem2.m ∧
    modem_demodulate_soft_table_checked lib0 modem2 ⟨3 / 10, 0⟩ [0]
      = some (modem_demodulate_soft_table lib0 modem2 ⟨3 / 10, 0⟩) ∧
    modem_demodulate_soft_arb_checked lib0 modem2 ⟨3 / 10, 0⟩ [0]
      = some (modem_demodulate_soft_arb lib0 modem2 ⟨3 / 10, 0⟩) :=
  have h := C18_lookups_in_bounds lib0 modem2 ⟨3 / 10, 0⟩ [0] rfl rfl
    (by intro x hx; simp [modem2] at hx; rcases hx with h | h <;> simp [h, modem2])
    rfl (same_configuration_symm (same_configuration_update modem2 _ _))
    (by norm_num [lib0, modem2]) rfl
  ⟨rfl, rfl, rfl, h.1, h.2.1⟩

/-- The checked paths do fail when a precondition does not hold: an output
buffer with no room for the soft bit, a neighbour table shorter than `M*P`,
and a symbol map shorter than `M`. -/
theorem checked_paths_reject :
    modem_demodulate_soft_table_checked lib0 modem2 ⟨3 / 10, 0⟩ [] = none ∧
    modem_demodulate_soft_table_checked lib0
      { modem2 with demod_soft_neighbors := some [] } ⟨3 / 10, 0⟩ [0] = none ∧
    modem_demodulate_soft_arb_checked lib0 { modem2 with M := 3 } ⟨3 / 10, 0⟩ [0] = none := by
  refine ⟨?_, ?_, ?_⟩
  · simp [modem_demodulate_soft_table_checked, modem_get_bps, lib0, modem2, table_bit_checked,
      write_checked, List.range_succ]
  · simp [modem_demodulate_soft_table_checked, modem_get_bps, lib0, modem2, table_bit_checked,
      write_checked, List.range_succ, table_dmin_checked, bit_of_checked,
      table_neighbor_step_checked]
  · simp [modem_demodulate_soft_arb_checked, modem2, List.range_succ, arb_step_checked]

end Liquid
